import Mathlib

/-!
# Verification of pycoinnet (Peer framing and Blockfetcher scheduling)

Shallow embedding of `pycoinnet/Peer.py` and `pycoinnet/Blockfetcher.py`.

* Bytes are modelled as `List Nat` (each entry `< 256` where it matters).
* The external `pycoin.encoding.double_sha256` function is an explicit
  parameter `dsha : List Nat → List Nat` of every definition that uses it;
  the only fact the code relies on is that it returns 32 bytes.
* The injected payload parser (`parse_from_data_f`) is an explicit total
  function parameter.
* `asyncio.PriorityQueue` is `heapq.heappush`/`heappop` over the item
  tuples `(priority, block_hash, future, peers_tried)`; the heap algorithm
  is embedded verbatim from CPython `heapq` (`_siftdown`/`_siftup`) with
  Python's fallible tuple comparison made explicit in the `Except` monad
  (comparing two distinct `Future` objects raises `TypeError`).
* Futures are identified by a fresh numeric id (`fid`); their `done()`
  state and the per-item `peers_tried` sets (mutable objects shared
  between the queue and `f.item`) live in explicit association lists of
  the `BfState` record.
-/

set_option autoImplicit false

namespace Pycoinnet

/-! ## Byte-level helpers (struct.pack "<L", int.from_bytes little) -/

/-- `struct.pack("<L", n)` — little-endian 4-byte encoding; faithful for
`n < 2^32` (Python raises for larger values, which never occur because the
payload length is bounded by `max_msg_size`). -/
def le32 (n : Nat) : List Nat :=
  [n % 256, n / 256 % 256, n / 65536 % 256, n / 16777216 % 256]

/-- `int.from_bytes(bs, byteorder="little")`. -/
def leDec : List Nat → Nat
  | [] => 0
  | b :: t => b + 256 * leDec t

/-- `(message_type + b'\0'*12)[:12]` — NUL-pad / truncate a command name
to exactly 12 bytes. -/
def pad12 (c : List Nat) : List Nat :=
  (c ++ List.replicate 12 0).take 12

/-- The continuation-byte ranges CPython's strict `utf8` decoder expects
after a lead byte `b` (RFC 3629: no overlong forms, no surrogates, max
U+10FFFF); `none` when `b` cannot start a character. -/
def utf8Need (b : Nat) : Option (List (Nat × Nat)) :=
  if b < 0x80 then some []
  else if b < 0xC2 then none
  else if b < 0xE0 then some [(0x80, 0xBF)]
  else if b = 0xE0 then some [(0xA0, 0xBF), (0x80, 0xBF)]
  else if b = 0xED then some [(0x80, 0x9F), (0x80, 0xBF)]
  else if b < 0xF0 then some [(0x80, 0xBF), (0x80, 0xBF)]
  else if b = 0xF0 then some [(0x90, 0xBF), (0x80, 0xBF), (0x80, 0xBF)]
  else if b < 0xF4 then some [(0x80, 0xBF), (0x80, 0xBF), (0x80, 0xBF)]
  else if b = 0xF4 then some [(0x80, 0x8F), (0x80, 0xBF), (0x80, 0xBF)]
  else none

/-- Run of the UTF-8 validation automaton: `pending` is the list of byte
ranges still owed by the current character. -/
def vuRun : List (Nat × Nat) → List Nat → Bool
  | [], [] => true
  | _ :: _, [] => false
  | [], b :: t =>
    match utf8Need b with
    | none => false
    | some ps => vuRun ps t
  | (lo, hi) :: ps, b :: t => lo ≤ b && b ≤ hi && vuRun ps t

/-- Validity of a byte sequence under CPython's strict `utf8` decoder:
`bytes.decode("utf8")` succeeds exactly on valid sequences. -/
def validUtf8 (l : List Nat) : Bool := vuRun [] l

/-! ## Peer transport (`pycoinnet/Peer.py`) -/

/-- The distinct failure modes of `Peer.next_message`.  In the source,
`badMagic`, `messageTooLarge` and `badChecksum` are `ProtocolError`s with
different messages, `unexpectedEof` is `asyncio.IncompleteReadError`
raised by `readexactly`, and `unicodeDecode` is the `UnicodeDecodeError`
raised by `message_name_bytes.replace(b"\0", b"").decode("utf8")`. -/
inductive PErr where
  | badMagic
  | unicodeDecode
  | messageTooLarge
  | badChecksum
  | unexpectedEof
  deriving DecidableEq, Repr

/-- `stream_reader.readexactly(n)`: returns exactly `n` bytes, raising
`IncompleteReadError` (EOF) when the stream ends first.  Returns the bytes
read and the remaining stream. -/
def readexactly (s : List Nat) (n : Nat) : Except PErr (List Nat × List Nat) :=
  if s.length < n then .error .unexpectedEof else .ok (s.take n, s.drop n)

/-- `Peer.send_msg`: the byte sequence written to the stream for a command
whose `pack_from_data` result is `p`.  `dsha` is
`pycoin.encoding.double_sha256`. -/
def sendMsg (dsha : List Nat → List Nat) (magic : List Nat)
    (c : List Nat) (p : List Nat) : List Nat :=
  magic ++ pad12 c ++ le32 p.length ++ (dsha p).take 4 ++ p

/-- `Peer.next_message`: reads one framed message from stream `s`.
Returns the decoded command name (as its UTF-8 bytes; `encode ∘ decode` is
the identity on valid sequences, and NUL bytes have been stripped by
`replace(b"\0", b"")`), the payload (run through `parse` when
`unpackToDict` — the injected `parse_from_data_f`, modelled total), and
the unconsumed remainder of the stream. -/
def nextMessage (dsha : List Nat → List Nat) (parse : List Nat → List Nat → List Nat)
    (magic : List Nat) (maxMsgSize : Nat) (unpackToDict : Bool) (s : List Nat) :
    Except PErr (List Nat × List Nat × List Nat) :=
  match readexactly s magic.length with
  | .error e => .error e
  | .ok (blob, s1) =>
    if blob ≠ magic then .error .badMagic
    else
      match readexactly s1 20 with
      | .error e => .error e
      | .ok (msh, s2) =>
        let nameBytes := (msh.take 12).filter (fun b => b ≠ 0)
        if ¬ validUtf8 nameBytes then .error .unicodeDecode
        else
          let size := leDec ((msh.drop 12).take 4)
          if size > maxMsgSize then .error .messageTooLarge
          else
            let thash := (msh.drop 16).take 4
            match readexactly s2 size with
            | .error e => .error e
            | .ok (mdata, s3) =>
              if (dsha mdata).take 4 ≠ thash then .error .badChecksum
              else .ok (nameBytes, (if unpackToDict then parse nameBytes mdata else mdata), s3)

/-- The receive contract as enumerated by the (amended) claim: a cascade of
failure conditions stated directly on the raw input stream, in the order
the implementation encounters them — (iii) short read of the magic,
(i) magic mismatch, (iii) short read of the 20 header bytes, (v) NUL-stripped
command bytes not valid UTF-8, (ii) declared length over `max_msg_size`
(checked before any payload byte is read), (iii) short read of the payload,
(iv) checksum mismatch — and otherwise success. -/
def nextMessageContract (dsha : List Nat → List Nat) (parse : List Nat → List Nat → List Nat)
    (magic : List Nat) (maxMsgSize : Nat) (unpackToDict : Bool) (s : List Nat) :
    Except PErr (List Nat × List Nat × List Nat) :=
  if s.length < magic.length then .error .unexpectedEof
  else if s.take magic.length ≠ magic then .error .badMagic
  else if (s.drop magic.length).length < 20 then .error .unexpectedEof
  else
    let hdr := (s.drop magic.length).take 20
    let nameBytes := (hdr.take 12).filter (fun b => b ≠ 0)
    if ¬ validUtf8 nameBytes then .error .unicodeDecode
    else
      let size := leDec ((hdr.drop 12).take 4)
      if size > maxMsgSize then .error .messageTooLarge
      else if ((s.drop magic.length).drop 20).length < size then .error .unexpectedEof
      else
        let payload := ((s.drop magic.length).drop 20).take size
        if (dsha payload).take 4 ≠ (hdr.drop 16).take 4 then .error .badChecksum
        else .ok (nameBytes, (if unpackToDict then parse nameBytes payload else payload),
                  ((s.drop magic.length).drop 20).drop size)

/-- Concrete stand-in for `double_sha256` used by witnesses and
counterexamples (any 32-byte-valued function is admissible for them). -/
def dsha0 : List Nat → List Nat := fun _ => List.replicate 32 0

/-- Concrete stand-in for the injected payload parser. -/
def parse0 : List Nat → List Nat → List Nat := fun _ d => d

/-- The Bitcoin mainnet magic, used by concrete witnesses. -/
def magic0 : List Nat := [249, 190, 180, 217]

/-! ## Blockfetcher data model (`pycoinnet/Blockfetcher.py`)

The priority queue accepts tuples `(priority, block_hash, future,
peers_tried)`.  A `BfItem` models such a tuple: `pri` and `bh` are the
first two components; `fid` is the identity of the `asyncio.Future`
created by `fetch_blocks` (each call creates a fresh one, so `fid` also
identifies the tuple and its `peers_tried` set, whose mutable contents
live in the fetcher state).  -/

/-- One entry of `_block_hash_priority_queue`. -/
structure BfItem where
  pri : Int
  bh : List Nat
  fid : Nat
  deriving DecidableEq, Inhabited, Repr

/-- Python `bytes` comparison `a < b` (lexicographic, proper prefixes are
smaller). -/
def lexLt : List Nat → List Nat → Bool
  | [], [] => false
  | [], _ :: _ => true
  | _ :: _, [] => false
  | a :: as, b :: bs => if a < b then true else if b < a then false else lexLt as bs

/-- Strict lexicographic order on `(priority, block_hash)` keys. -/
def kLt : Int × List Nat → Int × List Nat → Bool
  | (p1, b1), (p2, b2) => if p1 = p2 then lexLt b1 b2 else decide (p1 < p2)

/-- The `(priority, block_hash)` key of a queue entry. -/
def bfKey (x : BfItem) : Int × List Nat := (x.pri, x.bh)

/-- Key comparison of two queue entries. -/
def keyLt (a b : BfItem) : Bool := kLt (bfKey a) (bfKey b)

/-- `a ≤ b` on keys (negation of strict key comparison). -/
def keyLe (a b : BfItem) : Prop := keyLt b a = false

/-- Python's `item_a < item_b` on the queue tuples: tuple comparison finds
the first component where the elements differ (ints, then bytes), and two
distinct futures are unequal (default identity `__eq__`) yet unorderable —
`Future() < Future()` raises `TypeError`.  When the futures are the same
object the tuples are the very same tuple, whose `peers_tried` components
are also identical, so `<` returns `False`. -/
def cmpE (a b : BfItem) : Except Unit Bool :=
  if a.pri = b.pri then
    if a.bh = b.bh then
      if a.fid = b.fid then .ok false else .error ()
    else .ok (lexLt a.bh b.bh)
  else .ok (decide (a.pri < b.pri))

/-- Total key-based comparison used to reason about runs in which no
`TypeError` occurs. -/
def cmpK (a b : BfItem) : Except Unit Bool := .ok (keyLt a b)

/-! ## CPython `heapq` (the engine of `asyncio.PriorityQueue`)

`put_nowait` is `heapq.heappush`, `get` is `heapq.heappop`.  The
`_siftdown`/`_siftup` loops are embedded with an explicit fuel argument
that structurally bounds the iteration count; each caller passes fuel
that provably exceeds the number of iterations the Python loop performs
(`_siftdown` runs at most `pos` iterations since the position strictly
decreases toward `startpos = 0`; `_siftup` at most `endpos` since the
position strictly increases below `endpos`), and the fuel-exhausted case
coincides with the loop-exit action, so the embedding computes exactly
what the Python loop computes.  A comparison `TypeError` aborts the
operation, returning the partially-sifted list exactly as the raising
Python code leaves it. -/

/-- `heapq._siftdown(heap, 0, pos)` with the new item held in `newitem`
(both `heappush` and the tail call in `_siftup` use `startpos = 0`). -/
def siftdownGo (c : BfItem → BfItem → Except Unit Bool) (newitem : BfItem) :
    Nat → List BfItem → Nat → List BfItem × Except Unit Unit
  | 0, heap, pos => (heap.set pos newitem, .ok ())
  | fuel + 1, heap, pos =>
    if pos = 0 then (heap.set pos newitem, .ok ())
    else
      let parentpos := (pos - 1) / 2
      let parent := heap.getD parentpos default
      match c newitem parent with
      | .error e => (heap, .error e)
      | .ok true => siftdownGo c newitem fuel (heap.set pos parent) parentpos
      | .ok false => (heap.set pos newitem, .ok ())

/-- `heapq.heappush(heap, item)`. -/
def heappush (c : BfItem → BfItem → Except Unit Bool) (heap : List BfItem)
    (item : BfItem) : List BfItem × Except Unit Unit :=
  siftdownGo c item heap.length (heap ++ [item]) heap.length

/-- The loop of `heapq._siftup(heap, pos)`: walk the hole down to a leaf,
always moving the smaller child up. -/
def siftupGo (c : BfItem → BfItem → Except Unit Bool) (newitem : BfItem) (endpos : Nat) :
    Nat → List BfItem → Nat → (List BfItem × Nat) × Except Unit Unit
  | 0, heap, pos => ((heap.set pos newitem, pos), .ok ())
  | fuel + 1, heap, pos =>
    let childpos := 2 * pos + 1
    if childpos < endpos then
      match (if childpos + 1 < endpos then
               match c (heap.getD childpos default) (heap.getD (childpos + 1) default) with
               | .error e => .error e
               | .ok b => .ok (if b then childpos else childpos + 1)
             else (.ok childpos : Except Unit Nat)) with
      | .error e => ((heap, pos), .error e)
      | .ok cp => siftupGo c newitem endpos fuel (heap.set pos (heap.getD cp default)) cp
    else ((heap.set pos newitem, pos), .ok ())

/-- `heapq._siftup(heap, pos)` (only ever called with `pos = 0` by
`heappop`): sink the hole to a leaf, then `_siftdown` back up. -/
def siftup (c : BfItem → BfItem → Except Unit Bool) (heap : List BfItem)
    (pos : Nat) : List BfItem × Except Unit Unit :=
  let newitem := heap.getD pos default
  match siftupGo c newitem heap.length heap.length heap pos with
  | ((h, p), .ok _) => siftdownGo c newitem p h p
  | ((h, _), .error e) => (h, .error e)

/-- `heapq.heappop(heap)`.  `asyncio.Queue.get` only calls it on a
non-empty heap (it awaits otherwise); the empty case returns `none`. -/
def heappop (c : BfItem → BfItem → Except Unit Bool) (heap : List BfItem) :
    List BfItem × Except Unit (Option BfItem) :=
  match heap.getLast? with
  | none => ([], .ok none)
  | some lastelt =>
    let rest := heap.dropLast
    if rest.isEmpty then ([], .ok (some lastelt))
    else
      let returnitem := rest.getD 0 default
      let h2 := rest.set 0 lastelt
      match siftup c h2 0 with
      | (h3, .ok _) => (h3, .ok (some returnitem))
      | (h3, .error e) => (h3, .error e)

/-- Parent index in the implicit binary tree of `heapq`. -/
def hpar (i : Nat) : Nat := (i - 1) / 2

/-- The `heapq` array invariant: every non-root entry is `≥` its parent
under the `(priority, block_hash)` key order. -/
def IsHeap (l : List BfItem) : Prop :=
  ∀ i, 0 < i → i < l.length →
    keyLt (l.getD i default) (l.getD (hpar i) default) = false

/-- No two distinct entries share a `(priority, block_hash)` key (the
condition under which Python's tuple comparison never reaches the
unorderable futures). -/
def KeyInjOn (l : List BfItem) : Prop :=
  ∀ x ∈ l, ∀ y ∈ l, bfKey x = bfKey y → x = y

/-! ## Blockfetcher state machine

The mutable objects of a `Blockfetcher` instance and of the futures it
creates, as explicit state: the `heapq` array behind
`_block_hash_priority_queue`, the contents of every `peers_tried` set
(keyed by the owning future's `fid`), every resolved future's result
(`f.done()` / `f.set_result`), the `_futures` weak-value registry
(`bh ↦ fid`), and the batches handed out by `_get_batch` that fetcher
loops still hold (`f.item` lets a loop requeue exactly the tuple a
claimed future came from).  Peers are identified by numbers. -/

/-- A parsed block, as far as the fetcher cares: `hash()` is `bhash`. -/
structure Block where
  bid : Nat
  bhash : List Nat
  deriving DecidableEq, Repr

/-- Association-list lookup (Python `dict.get`). -/
def alookup {κ ν : Type} [DecidableEq κ] : List (κ × ν) → κ → Option ν
  | [], _ => none
  | (k, v) :: t, k1 => if k = k1 then some v else alookup t k1

/-- Association-list update (Python `d[k] = v`, overwriting). -/
def aupdate {κ ν : Type} [DecidableEq κ] : List (κ × ν) → κ → ν → List (κ × ν)
  | [], k, v => [(k, v)]
  | (k0, v0) :: t, k, v => if k0 = k then (k, v) :: t else (k0, v0) :: aupdate t k v

structure BfState where
  heap : List BfItem
  tried : List (Nat × List Nat)
  results : List (Nat × Block)
  registry : List (List Nat × Nat)
  inflight : List (Nat × List BfItem)
  nextFid : Nat
  deriving DecidableEq, Repr

/-- The freshly constructed `Blockfetcher()`. -/
def bfInit : BfState := ⟨[], [], [], [], [], 0⟩

/-- Contents of `peers_tried` of the tuple owned by future `fid`. -/
def triedOf (st : BfState) (fid : Nat) : List Nat :=
  (alookup st.tried fid).getD []

/-- `Blockfetcher.fetch_blocks`: per pair, create a future (fresh `fid`)
with an empty `peers_tried` set, `put_nowait` the tuple (a comparison
`TypeError` aborts the loop, leaving all previous effects in place and
propagating to the caller, who then receives no future list), then
register the future under its hash in `_futures`.  Returns the final
state, the future ids in input order, and whether the call returned
normally. -/
def runFetch : BfState → List (List Nat × Int) → BfState × List Nat × Bool
  | st, [] => (st, [], true)
  | st, (bh, pri) :: rest =>
    let fid := st.nextFid
    let item : BfItem := ⟨pri, bh, fid⟩
    let st1 : BfState := {st with nextFid := fid + 1, tried := aupdate st.tried fid []}
    match heappush cmpE st.heap item with
    | (hp, .ok _) =>
      let st2 : BfState := {st1 with heap := hp, registry := aupdate st.registry bh fid}
      match runFetch st2 rest with
      | (st3, fids, true) => (st3, fid :: fids, true)
      | (st3, _, false) => (st3, [], false)
    | (hp, .error _) => ({st1 with heap := hp}, [], false)

/-- The tuples `fetch_blocks` builds for `pairs`, given the id of the
first future it will create. -/
def fetchItems : Nat → List (List Nat × Int) → List BfItem
  | _, [] => []
  | startFid, (bh, pri) :: rest => ⟨pri, bh, startFid⟩ :: fetchItems (startFid + 1) rest

/-- The registry entry for `bh` written by `fetch_blocks pairs` (the
later insertion overwrites), if any. -/
def regAfter : Nat → List (List Nat × Int) → List Nat → Option Nat
  | _, [], _ => none
  | startFid, (bh0, _) :: rest, bh =>
    match regAfter (startFid + 1) rest bh with
    | some f => some f
    | none => if bh0 = bh then some startFid else none

/-- `Blockfetcher.handle_msg`: on a `"block"` message, look the block's
hash up in the registry and resolve the future if present and pending;
all other names are ignored. -/
def runHandleMsg (st : BfState) (name : String) (blk : Block) : BfState :=
  if name = "block" then
    match alookup st.registry blk.bhash with
    | some fid =>
      if (alookup st.results fid).isSome then st
      else {st with results := st.results ++ [(fid, blk)]}
    | none => st
  else st

/-- Exit status of the `_get_batch` claim loop. -/
inductive GBStatus where
  | ok
  | blocked
  | raised
  deriving DecidableEq, Repr

/-- Snapshot of the claim loop's locals on exit. -/
structure GBLoopRes where
  heap : List BfItem
  tried : List (Nat × List Nat)
  skipped : List BfItem
  invItems : List (List Nat)
  claimed : List BfItem
  status : GBStatus
  deriving Repr

/-- The `while len(futures) < batch_size` loop of `_get_batch`: pop the
queue; discard resolved futures; `skipped.append` tuples this peer was
already asked for; otherwise add the peer to `peers_tried` and claim the
tuple.  `blocked` marks the state in which the Python coroutine would
suspend on `get()` from an empty queue (queue empty, nothing claimed) —
the snapshot of its effects so far; `raised` marks a comparison
`TypeError` propagating out of `get()` (the popped-so-far items and
`peers_tried` additions stay, the local lists are lost).  The fuel
argument bounds the iterations structurally; every iteration that
continues pops one element, so `heap.length + 1` fuel is never
exhausted. -/
def getBatchGo (results : List (Nat × Block)) (peer : Nat) (size : Nat) :
    Nat → List BfItem → List (Nat × List Nat) → List BfItem → List (List Nat) →
      List BfItem → GBLoopRes
  | 0, heap, tried, skipped, invItems, claimed =>
    ⟨heap, tried, skipped, invItems, claimed, .blocked⟩
  | fuel + 1, heap, tried, skipped, invItems, claimed =>
    if claimed.length ≥ size then ⟨heap, tried, skipped, invItems, claimed, .ok⟩
    else if heap.isEmpty && decide (0 < claimed.length) then
      ⟨heap, tried, skipped, invItems, claimed, .ok⟩
    else if heap.isEmpty then ⟨heap, tried, skipped, invItems, claimed, .blocked⟩
    else
      match heappop cmpE heap with
      | (hp, .error _) => ⟨hp, tried, skipped, invItems, claimed, .raised⟩
      | (hp, .ok none) => ⟨hp, tried, skipped, invItems, claimed, .blocked⟩
      | (hp, .ok (some item)) =>
        if (alookup results item.fid).isSome then
          getBatchGo results peer size fuel hp tried skipped invItems claimed
        else if peer ∈ (alookup tried item.fid).getD [] then
          getBatchGo results peer size fuel hp tried (skipped ++ [item]) invItems claimed
        else
          getBatchGo results peer size fuel hp
            (aupdate tried item.fid ((alookup tried item.fid).getD [] ++ [peer]))
            skipped (invItems ++ [item.bh]) (claimed ++ [item])

/-- Outcome of one `_get_batch` call. -/
inductive GBOut where
  | batch (claimed : List BfItem) (invItems : List (List Nat))
  | blocked
  | raised
  deriving DecidableEq, Repr

/-- `for item in l: queue.put_nowait(item)` — a `TypeError` aborts the
loop, keeping earlier pushes. -/
def pushAll : List BfItem → List BfItem → List BfItem × Except Unit Unit
  | heap, [] => (heap, .ok ())
  | heap, x :: xs =>
    match heappush cmpE heap x with
    | (hp, .ok _) => pushAll hp xs
    | (hp, .error e) => (hp, .error e)

/-- `Blockfetcher._get_batch`: run the claim loop, re-insert the skipped
tuples, send `getdata` (`sendOk` says whether `peer.send_msg` returns or
raises; on a raise every claimed tuple is requeued via `f.item`), and
return the claimed futures either way.  The returned batch is recorded in
`inflight` — the fetcher loop holds it as `batch_2`. -/
def runGetBatch (st : BfState) (peer : Nat) (size : Nat) (sendOk : Bool) :
    BfState × GBOut :=
  match getBatchGo st.results peer size (st.heap.length + 1) st.heap st.tried [] [] [] with
  | ⟨hp, tr, skipped, invItems, claimed, .ok⟩ =>
    match pushAll hp skipped with
    | (hp2, .error _) => ({st with heap := hp2, tried := tr}, .raised)
    | (hp2, .ok _) =>
      if sendOk then
        ({st with heap := hp2, tried := tr, inflight := st.inflight ++ [(peer, claimed)]},
          .batch claimed invItems)
      else
        match pushAll hp2 claimed with
        | (hp3, .error _) => ({st with heap := hp3, tried := tr}, .raised)
        | (hp3, .ok _) =>
          ({st with heap := hp3, tried := tr, inflight := st.inflight ++ [(peer, claimed)]},
            .batch claimed invItems)
  | ⟨hp, tr, _, _, _, .blocked⟩ => ({st with heap := hp, tried := tr}, .blocked)
  | ⟨hp, tr, _, _, _, .raised⟩ => ({st with heap := hp, tried := tr}, .raised)

/-- The `for f in batch_1: if not f.done(): put_nowait(f.item)` requeue
step of `_fetcher_loop` after `asyncio.wait(batch_1, timeout=...)`. -/
def requeueBatch : BfState → List BfItem → BfState × Bool
  | st, [] => (st, true)
  | st, f :: rest =>
    if (alookup st.results f.fid).isSome then requeueBatch st rest
    else
      match heappush cmpE st.heap f with
      | (hp, .ok _) => requeueBatch {st with heap := hp} rest
      | (hp, .error _) => ({st with heap := hp}, false)

/-- Timeout handling for an in-flight batch: the loop stops holding the
batch and requeues its unresolved futures. -/
def runTimeout (st : BfState) (bidx : Nat) : BfState × Bool :=
  match st.inflight[bidx]? with
  | none => (st, true)
  | some pb =>
    requeueBatch {st with inflight := st.inflight.eraseIdx bidx} pb.2

/-- The events that touch a `Blockfetcher`'s shared state. -/
inductive BfOp where
  | fetch (pairs : List (List Nat × Int))
  | getBatch (peer : Nat) (size : Nat) (sendOk : Bool)
  | deliver (name : String) (blk : Block)
  | timeout (bidx : Nat)

/-- One event; the second component logs the `(fid, peer)` pairs claimed
into a batch that `_get_batch` returned. -/
def bfStep (st : BfState) : BfOp → BfState × List (Nat × Nat)
  | .fetch pairs => ((runFetch st pairs).1, [])
  | .getBatch peer size sendOk =>
    match runGetBatch st peer size sendOk with
    | (st1, .batch claimed _) => (st1, claimed.map (fun it => (it.fid, peer)))
    | (st1, _) => (st1, [])
  | .deliver name blk => (runHandleMsg st name blk, [])
  | .timeout bidx => ((runTimeout st bidx).1, [])

/-- A run of the fetcher from a state, with the concatenated claim log. -/
def runTrace : BfState → List BfOp → BfState × List (Nat × Nat)
  | st, [] => (st, [])
  | st, op :: ops =>
    let s1 := bfStep st op
    let s2 := runTrace s1.1 ops
    (s2.1, s1.2 ++ s2.2)

/-- Concrete frame: magic `[249]`, command field `0xFF` followed by
eleven NULs, declared payload length `0`, checksum matching `dsha0 []` —
every field valid except that the NUL-stripped command byte `0xFF` is not
decodable UTF-8. -/
def badNameStream : List Nat :=
  [249, 255, 0, 0, 0, 0, 0, 0, 0, 0, 0, 0, 0, 0, 0, 0, 0, 0, 0, 0, 0]


/-! ## Binary64 model for the batch-size arithmetic of `_fetcher_loop`

Python floats are IEEE-754 binary64 values; the fetcher computes the
next batch size from two clock readings and a count with float
subtraction and division.  The model represents each float by its exact
rational value and rounds every arithmetic result to the nearest
binary64 value (round to nearest, ties to even), using only
kernel-reducible primitives (`mkRat`, `Rat.blt`, `Rat.floor`). -/

/-- `2 ^ n` by plain structural recursion. -/
def pow2 : Nat → Nat
  | 0 => 1
  | n + 1 => 2 * pow2 n

/-- Exact rational product. -/
def qmul (a b : ℚ) : ℚ := mkRat (a.num * b.num) (a.den * b.den)

/-- Exact rational difference. -/
def qsub (a b : ℚ) : ℚ := mkRat (a.num * b.den - b.num * a.den) (a.den * b.den)

/-- Exact rational quotient (`0` on a zero divisor; the one place the
fetcher can divide by zero is guarded separately below). -/
def qdiv (a b : ℚ) : ℚ :=
  mkRat (if 0 ≤ b.num then a.num * (b.den : ℤ) else -(a.num * (b.den : ℤ)))
    (a.den * b.num.natAbs)

/-- Strict rational comparison as a boolean. -/
def qlt (a b : ℚ) : Bool := Rat.blt a b

/-- `|q|`. -/
def qabs (q : ℚ) : ℚ := mkRat (q.num.natAbs) q.den

/-- Fueled `⌊log₂ n⌋` by halving. -/
def nlog2 : Nat → Nat → Nat
  | 0, _ => 0
  | _, 0 => 0
  | _, 1 => 0
  | fuel + 1, n => nlog2 fuel (n / 2) + 1

/-- Round a rational to the nearest integer, ties to even. -/
def roundHalfEven (x : ℚ) : ℤ :=
  if qlt (qsub x (mkRat (Rat.floor x) 1)) (mkRat 1 2) then Rat.floor x
  else if qlt (mkRat 1 2) (qsub x (mkRat (Rat.floor x) 1)) then Rat.floor x + 1
  else if Rat.floor x % 2 = 0 then Rat.floor x else Rat.floor x + 1

/-- `⌊log₂ |q|⌋`, computed after scaling by `2 ^ 200` (exact for every
magnitude down to `2 ^ (-200)` — far below any quantity the fetcher's
clock arithmetic produces). -/
def qlog2floor (q : ℚ) : ℤ :=
  (nlog2 500 ((q.num.natAbs * pow2 200) / q.den) : ℤ) - 200

/-- The weight of one unit in the last place of a binary64 number of
`q`'s magnitude. -/
def scale64 (q : ℚ) : ℚ :=
  if 0 ≤ qlog2floor q - 52 then mkRat (pow2 (qlog2floor q - 52).toNat) 1
  else mkRat 1 (pow2 (52 - qlog2floor q).toNat)

/-- Round a rational to the nearest IEEE-754 binary64 value: the 53-bit
mantissa is `roundHalfEven` of `q` rescaled by its unit in the last
place.  Overflow and subnormals are not modelled (the fetcher's
quantities stay far inside the normal range). -/
def round64 (q : ℚ) : ℚ :=
  if q = 0 then 0
  else
    qmul
      (if qlt q 0 then mkRat (-(roundHalfEven (qdiv (qabs q) (scale64 q)))) 1
       else mkRat (roundHalfEven (qdiv (qabs q) (scale64 q))) 1)
      (scale64 q)

/-- Correctly rounded binary64 division — Python `a / b` on floats. -/
def fdiv64 (a b : ℚ) : ℚ := round64 (qdiv a b)

/-- Correctly rounded binary64 subtraction — Python `a - b` on floats;
the fetcher applies it to two event-loop clock readings. -/
def fsub64 (a b : ℚ) : ℚ := round64 (qsub a b)

/-- Python `int()` on a float: truncation toward zero. -/
def pyInt (q : ℚ) : ℤ :=
  if qlt q 0 then -(Rat.floor (qsub 0 q)) else Rat.floor q

/-- `initial_batch_size` of `_fetcher_loop`. -/
def initialBatchSize : ℕ := 10

/-- The batch-size update at the bottom of a `_fetcher_loop` iteration:
`item_count` is the number of resolved futures observed, `batch_time`
the binary64 elapsed time of the awaited batch; after forcing
`item_count` to at least 1, the new size is
`min(int(target_batch_time / (batch_time / item_count)) + 1, 500)` with
`target_batch_time = 3`.  `none` is the `ZeroDivisionError` raised by
`target_batch_time / time_per_item` when the rounded `time_per_item` is
zero. -/
def updateBatchSize (itemCount : ℕ) (batchTime : ℚ) : Option ℤ :=
  if fdiv64 batchTime (mkRat (if itemCount = 0 then 1 else itemCount : ℕ) 1) = 0 then none
  else some (min (pyInt (fdiv64 3
    (fdiv64 batchTime (mkRat (if itemCount = 0 then 1 else itemCount : ℕ) 1)))
    + 1) 500)

/-- The successive batch-size updates of one fetcher loop, one
`(item_count, batch_time)` observation per awaited batch; an unhandled
raise kills the loop. -/
def batchSizeRun : ℤ → List (ℕ × ℚ) → Option ℤ
  | s, [] => some s
  | _, (ic, bt) :: rest =>
    match updateBatchSize ic bt with
    | none => none
    | some s2 => batchSizeRun s2 rest


/-! ## Basic lemmas about the byte helpers -/

theorem take_len_append (a b : List Nat) : (a ++ b).take a.length = a := by
  simp

theorem drop_len_append (a b : List Nat) : (a ++ b).drop a.length = b := by
  simp

theorem leDec_le32 (n : Nat) (h : n < 4294967296) : leDec (le32 n) = n := by
  simp only [le32, leDec]
  have h24 : n / 16777216 < 256 := by
    rw [Nat.div_lt_iff_lt_mul (by norm_num)]; omega
  have e24 : n / 16777216 % 256 = n / 16777216 := Nat.mod_eq_of_lt h24
  have d1 : n / 256 / 256 = n / 65536 := by
    rw [Nat.div_div_eq_div_mul]
  have d2 : n / 65536 / 256 = n / 16777216 := by
    rw [Nat.div_div_eq_div_mul]
  have m1 : n % 256 + 256 * (n / 256) = n := Nat.mod_add_div n 256
  have m2 : n / 256 % 256 + 256 * (n / 256 / 256) = n / 256 := Nat.mod_add_div (n / 256) 256
  have m3 : n / 65536 % 256 + 256 * (n / 65536 / 256) = n / 65536 :=
    Nat.mod_add_div (n / 65536) 256
  omega

theorem validUtf8_ascii : ∀ (l : List Nat), (∀ b ∈ l, b < 128) → validUtf8 l = true := by
  intro l
  induction l with
  | nil => intro _; rfl
  | cons b t ih =>
    intro h
    have hb : b < 128 := h b (List.mem_cons_self _ _)
    have ht : ∀ x ∈ t, x < 128 := fun x hx => h x (List.mem_cons_of_mem _ hx)
    have : utf8Need b = some [] := by rw [utf8Need, if_pos hb]
    simp only [validUtf8, vuRun, this]
    exact ih ht

theorem pad12_eq (c : List Nat) (h : c.length ≤ 12) :
    pad12 c = c ++ List.replicate (12 - c.length) 0 := by
  simp only [pad12]
  have hm : (12 - c.length) ⊓ 12 = 12 - c.length := inf_eq_left.mpr (by omega)
  rw [List.take_append_eq_append_take, List.take_of_length_le h, List.take_replicate, hm]

theorem filter_pad12 (c : List Nat) (h : c.length ≤ 12) (h0 : ∀ b ∈ c, b ≠ 0) :
    (pad12 c).filter (fun b => b ≠ 0) = c := by
  rw [pad12_eq c h, List.filter_append]
  have h1 : c.filter (fun b => b ≠ 0) = c := by
    apply List.filter_eq_self.mpr
    intro a ha
    simpa using h0 a ha
  have h2 : (List.replicate (12 - c.length) 0).filter (fun b : Nat => b ≠ 0) = [] := by
    apply List.filter_eq_nil_iff.mpr
    intro a ha
    rw [List.eq_of_mem_replicate ha]
    simp
  rw [h1, h2, List.append_nil]

/-- Helper: `next_message` satisfies the cascade contract (shared by the
C1 and C3 developments). -/
theorem nextMessage_eq_contractAux (dsha : List Nat → List Nat)
    (parse : List Nat → List Nat → List Nat) (magic : List Nat)
    (maxMsgSize : Nat) (u : Bool) (s : List Nat) :
    nextMessage dsha parse magic maxMsgSize u s =
      nextMessageContract dsha parse magic maxMsgSize u s := by
  simp only [nextMessage, nextMessageContract, readexactly]
  by_cases h1 : s.length < magic.length
  · simp [h1]
  by_cases h2 : List.take magic.length s = magic
  case neg => simp [h1, h2]
  by_cases h3 : s.length - magic.length < 20
  case pos => simp [h1, h2, h3]
  by_cases h4 : validUtf8 (List.filter (fun b => !decide (b = 0))
      (List.take 12 (List.take 20 (List.drop magic.length s)))) = false
  case pos => simp [h1, h2, h3, h4]
  by_cases h5 : maxMsgSize <
      leDec (List.take 4 (List.drop 12 (List.take 20 (List.drop magic.length s))))
  case pos => simp [h1, h2, h3, h4, h5]
  by_cases h6 : s.length - (magic.length + 20) <
      leDec (List.take 4 (List.drop 12 (List.take 20 (List.drop magic.length s))))
  case pos => simp [h1, h2, h3, h4, h5, h6]
  by_cases h7 : List.take 4 (dsha (List.take
        (leDec (List.take 4 (List.drop 12 (List.take 20 (List.drop magic.length s)))))
        (List.drop (magic.length + 20) s))) =
      List.take 4 (List.drop 16 (List.take 20 (List.drop magic.length s)))
  · simp [h1, h2, h3, h4, h5, h6, h7]
  · simp [h1, h2, h3, h4, h5, h6, h7]

theorem length_pad12 (c : List Nat) : (pad12 c).length = 12 := by
  simp [pad12]

theorem length_le32 (n : Nat) : (le32 n).length = 4 := rfl

theorem take_of_len_eq_append (a b : List Nat) (n : Nat) (h : a.length = n) :
    (a ++ b).take n = a := by
  subst h; exact take_len_append a b

theorem drop_of_len_eq_append (a b : List Nat) (n : Nat) (h : a.length = n) :
    (a ++ b).drop n = b := by
  subst h; exact drop_len_append a b

/-- Helper: the framing round-trip for NUL-free ASCII command names
(shared by the C1 development). -/
theorem sendMsg_roundtripAux (dsha : List Nat → List Nat)
    (parse : List Nat → List Nat → List Nat) (magic c p : List Nat)
    (hdsha : ∀ x, (dsha x).length = 32)
    (hc12 : c.length ≤ 12) (hca : ∀ b ∈ c, b < 128) (hc0 : ∀ b ∈ c, b ≠ 0)
    (hp : p.length ≤ 2097152) :
    nextMessage dsha parse magic 2097152 false (sendMsg dsha magic c p) =
      .ok (c, p, []) := by
  rw [nextMessage_eq_contractAux]
  have hsplit : sendMsg dsha magic c p =
      magic ++ (pad12 c ++ le32 p.length ++ (dsha p).take 4 ++ p) := by
    simp [sendMsg, List.append_assoc]
  rw [hsplit]
  have hCl : ((dsha p).take 4).length = 4 := by
    rw [List.length_take, hdsha]; decide
  have hassoc : pad12 c ++ le32 p.length ++ (dsha p).take 4 ++ p =
      (pad12 c ++ le32 p.length ++ (dsha p).take 4) ++ p := by
    simp [List.append_assoc]
  rw [hassoc]
  set G := pad12 c ++ le32 p.length ++ (dsha p).take 4 with hGdef
  have hG : G.length = 20 := by
    rw [hGdef]
    simp [List.length_append, length_pad12, length_le32, hCl]
  have e_take : (magic ++ (G ++ p)).take magic.length = magic := take_len_append _ _
  have e_drop : (magic ++ (G ++ p)).drop magic.length = G ++ p := drop_len_append _ _
  have e_len0 : ¬ ((magic ++ (G ++ p)).length < magic.length) := by
    simp [List.length_append]
  have e_len : ¬ ((G ++ p).length < 20) := by
    rw [List.length_append, hG]; omega
  have e_hdr : (G ++ p).take 20 = G := take_of_len_eq_append _ _ _ hG
  have e_tl : (G ++ p).drop 20 = p := drop_of_len_eq_append _ _ _ hG
  have e_name : G.take 12 = pad12 c := by
    rw [hGdef, List.append_assoc]
    exact take_of_len_eq_append _ _ _ (length_pad12 c)
  have e_filter : (pad12 c).filter (fun b => b ≠ 0) = c := filter_pad12 c hc12 hc0
  have e_valid : validUtf8 c = true := validUtf8_ascii c hca
  have e_szbytes : G.drop 12 = le32 p.length ++ ((dsha p).take 4) := by
    rw [hGdef, List.append_assoc]
    exact drop_of_len_eq_append _ _ _ (length_pad12 c)
  have e_sz : (le32 p.length ++ ((dsha p).take 4)).take 4 = le32 p.length :=
    take_of_len_eq_append _ _ _ (length_le32 _)
  have e_size : leDec (le32 p.length) = p.length := leDec_le32 _ (by omega)
  have e_szle : ¬ (p.length > 2097152) := by omega
  have e_pl : ¬ (p.length < p.length) := by omega
  have e_chk : G.drop 16 = (dsha p).take 4 := by
    rw [hGdef]
    exact drop_of_len_eq_append _ _ _ (by rw [List.length_append, length_pad12, length_le32])
  have e_chk4 : ((dsha p).take 4).take 4 = (dsha p).take 4 := by
    rw [List.take_take]; norm_num
  have e_pp : p.take p.length = p := List.take_length p
  have e_pd : p.drop p.length = [] := List.drop_length p
  simp only [nextMessageContract, e_take, e_drop, e_len0, e_len, e_hdr, e_tl, e_name,
    e_filter, e_valid, e_szbytes, e_sz, e_size, e_szle, e_pl, e_chk, e_chk4, e_pp, e_pd,
    if_false, ite_false, not_true_eq_false, Bool.not_true, ne_eq, if_true]
  simp

/-- C1 (counterexample): the round-trip fails for the command name
`"\x00"`, which is ASCII (code point 0 < 128) and at most 12 bytes: the
NUL-stripping decode in `next_message` returns the empty command name
instead, so `next_message` does not return exactly `(c, p)`. -/
theorem C1_counterexample :
    nextMessage dsha0 parse0 magic0 2097152 false (sendMsg dsha0 magic0 [0] []) =
      .ok ([], [], []) ∧
    ([] : List Nat) ≠ [0] ∧
    (∀ b ∈ ([0] : List Nat), b < 128) ∧ ([0] : List Nat).length ≤ 12 ∧
    ([] : List Nat).length ≤ 2097152 :=
  ⟨rfl, by decide, by decide, by decide, by decide⟩

/-- C1 (amended): framing round-trip — for every command name `c` that is
ASCII **free of NUL bytes** and at most 12 bytes, and every payload `p`
with `len(p) ≤ max_msg_size = 2097152`, feeding the bytes written by
`Peer.send_msg` for `(c, p)` to `Peer.next_message` (with `unpack_to_dict`
false and the same configured magic) returns exactly `(c, p)` and consumes
the whole frame.  (`dsha` is `double_sha256`, which returns 32 bytes.)
The NUL-freedom proviso is forced by `C1_counterexample`: `send_msg`
NUL-pads the command field and `next_message` strips every NUL byte. -/
theorem C1_roundtrip_no_nul (dsha : List Nat → List Nat)
    (parse : List Nat → List Nat → List Nat) (magic c p : List Nat)
    (hdsha : ∀ x, (dsha x).length = 32)
    (hc12 : c.length ≤ 12) (hca : ∀ b ∈ c, b < 128) (hc0 : ∀ b ∈ c, b ≠ 0)
    (hp : p.length ≤ 2097152) :
    nextMessage dsha parse magic 2097152 false (sendMsg dsha magic c p) =
      .ok (c, p, []) :=
  sendMsg_roundtripAux dsha parse magic c p hdsha hc12 hca hc0 hp

/-- C1 (witness): the round-trip at the concrete frame
`send_msg("ver", [7, 7])` with the mainnet magic. -/
theorem C1_roundtrip_no_nul_witness :
    nextMessage dsha0 parse0 magic0 2097152 false
        (sendMsg dsha0 magic0 [118, 101, 114] [7, 7]) =
      .ok ([118, 101, 114], [7, 7], []) :=
  C1_roundtrip_no_nul dsha0 parse0 magic0 [118, 101, 114] [7, 7]
    (fun _ => rfl) (by decide) (by decide) (by decide) (by decide)

/-- C3 (counterexample): `next_message` can fail even though none of the
four enumerated conditions holds.  On `badNameStream` the magic matches,
the declared length `0` is within bounds, every exact read completes, and
the transmitted checksum equals the checksum of the (empty) payload — yet
the call raises (`UnicodeDecodeError`, because the NUL-stripped command
byte `0xFF` is not valid UTF-8) instead of returning `(cmd, payload)`. -/
theorem C3_counterexample :
    nextMessage dsha0 parse0 [249] 2097152 false badNameStream =
      .error .unicodeDecode ∧
    badNameStream.take 1 = [249] ∧
    leDec ((badNameStream.drop 13).take 4) = 0 ∧
    badNameStream.length = 21 ∧
    (dsha0 ([] : List Nat)).take 4 = (badNameStream.drop 17).take 4 :=
  ⟨rfl, by decide, by decide, by decide, by decide⟩

/-- C3 (amended): receive raises-iff — `Peer.next_message` fails exactly
according to the cascade `nextMessageContract`: (iii) `UnexpectedEof` when
a `readexactly` of the magic, the 20 header bytes, or the payload ends
short; (i) `BadMagic` when the first `len(magic)` bytes differ from the
configured magic; (v) `UnicodeDecodeError` when the NUL-stripped command
bytes are not valid UTF-8 (raised after the 20-byte header read, before
the size check — this fifth failure mode is forced by
`C3_counterexample`); (ii) `MessageTooLarge` when the declared
little-endian length exceeds `max_msg_size`, raised before reading any
payload byte; and (iv) `BadChecksum` when the first 4 bytes of
`double_sha256(payload)` differ from the transmitted checksum; in every
other case it returns `(cmd, payload_or_parsed)`. -/
theorem C3_receive_raises_iff (dsha : List Nat → List Nat)
    (parse : List Nat → List Nat → List Nat) (magic : List Nat)
    (maxMsgSize : Nat) (u : Bool) (s : List Nat) :
    nextMessage dsha parse magic maxMsgSize u s =
      nextMessageContract dsha parse magic maxMsgSize u s :=
  nextMessage_eq_contractAux dsha parse magic maxMsgSize u s

/-! ## Order lemmas for the key comparison -/

theorem lexLt_irrefl : ∀ l : List Nat, lexLt l l = false := by
  intro l
  induction l with
  | nil => rfl
  | cons a t ih => simp [lexLt, ih]

theorem lexLt_asymm : ∀ a b : List Nat, lexLt a b = true → lexLt b a = false := by
  intro a
  induction a with
  | nil =>
    intro b h
    cases b with
    | nil => simp [lexLt] at h
    | cons x xs => rfl
  | cons x xs ih =>
    intro b h
    cases b with
    | nil => simp [lexLt] at h
    | cons y ys =>
      simp only [lexLt] at h ⊢
      rcases Nat.lt_trichotomy x y with hxy | hxy | hxy
      · simp [hxy, Nat.lt_asymm hxy]
      · subst hxy
        simp only [lt_irrefl, if_false] at h ⊢
        exact ih ys h
      · simp [hxy, Nat.lt_asymm hxy] at h

theorem lexLt_trans : ∀ a b c : List Nat,
    lexLt a b = true → lexLt b c = true → lexLt a c = true := by
  intro a
  induction a with
  | nil =>
    intro b c hab hbc
    cases c with
    | nil =>
      cases b with
      | nil => simp [lexLt] at hab
      | cons y ys => simp [lexLt] at hbc
    | cons z zs => rfl
  | cons x xs ih =>
    intro b c hab hbc
    cases b with
    | nil => simp [lexLt] at hab
    | cons y ys =>
      cases c with
      | nil => simp [lexLt] at hbc
      | cons z zs =>
        simp only [lexLt] at hab hbc ⊢
        rcases Nat.lt_trichotomy x y with hxy | hxy | hxy
        · rcases Nat.lt_trichotomy y z with hyz | hyz | hyz
          · have hxz : x < z := Nat.lt_trans hxy hyz
            simp [hxz]
          · subst hyz; simp [hxy]
          · simp [hyz, Nat.lt_asymm hyz] at hbc
        · subst hxy
          rcases Nat.lt_trichotomy x z with hxz | hxz | hxz
          · simp [hxz]
          · subst hxz
            simp only [lt_irrefl, if_false] at hab hbc ⊢
            exact ih ys zs hab hbc
          · simp [hxz, Nat.lt_asymm hxz] at hbc
        · simp [hxy, Nat.lt_asymm hxy] at hab

theorem lexLt_conn : ∀ a b : List Nat,
    lexLt a b = false → lexLt b a = false → a = b := by
  intro a
  induction a with
  | nil =>
    intro b hab _
    cases b with
    | nil => rfl
    | cons y ys => simp [lexLt] at hab
  | cons x xs ih =>
    intro b hab hba
    cases b with
    | nil => simp [lexLt] at hba
    | cons y ys =>
      simp only [lexLt] at hab hba
      rcases Nat.lt_trichotomy x y with hxy | hxy | hxy
      · simp [hxy] at hab
      · subst hxy
        simp only [lt_irrefl, if_false] at hab hba
        rw [ih ys hab hba]
      · simp [hxy, Nat.lt_asymm hxy] at hba

theorem kLt_irrefl (k : Int × List Nat) : kLt k k = false := by
  obtain ⟨p, b⟩ := k
  simp [kLt, lexLt_irrefl]

theorem kLt_asymm {j k : Int × List Nat} (h : kLt j k = true) : kLt k j = false := by
  obtain ⟨p1, b1⟩ := j
  obtain ⟨p2, b2⟩ := k
  simp only [kLt] at h ⊢
  by_cases hp : p1 = p2
  · subst hp
    simp only [if_pos rfl] at h ⊢
    exact lexLt_asymm _ _ h
  · simp only [hp, if_false, decide_eq_true_eq] at h
    simp [Ne.symm hp, not_lt.mpr (le_of_lt h)]

theorem kLt_trans {i j k : Int × List Nat}
    (h1 : kLt i j = true) (h2 : kLt j k = true) : kLt i k = true := by
  obtain ⟨p1, b1⟩ := i
  obtain ⟨p2, b2⟩ := j
  obtain ⟨p3, b3⟩ := k
  simp only [kLt] at h1 h2 ⊢
  by_cases h12 : p1 = p2
  · subst h12
    by_cases h23 : p1 = p3
    · subst h23
      simp only [if_pos rfl] at h1 h2 ⊢
      exact lexLt_trans _ _ _ h1 h2
    · simp only [h23, if_false] at h2 ⊢
      exact h2
  · by_cases h23 : p2 = p3
    · subst h23
      simp only [h12, if_false] at h1 ⊢
      exact h1
    · simp only [h12, h23, if_false, decide_eq_true_eq] at h1 h2
      have : p1 < p3 := lt_trans h1 h2
      by_cases h13 : p1 = p3
      · omega
      · simp [h13, this]

theorem kLt_conn {j k : Int × List Nat}
    (h1 : kLt j k = false) (h2 : kLt k j = false) : j = k := by
  obtain ⟨p1, b1⟩ := j
  obtain ⟨p2, b2⟩ := k
  simp only [kLt] at h1 h2
  by_cases hp : p1 = p2
  · subst hp
    simp only [if_pos rfl] at h1 h2
    rw [lexLt_conn _ _ h1 h2]
  · simp only [hp, Ne.symm hp, if_false, decide_eq_false_iff_not, not_lt] at h1 h2
    omega

theorem keyLt_irrefl (a : BfItem) : keyLt a a = false := kLt_irrefl _

theorem keyLt_asymm {a b : BfItem} (h : keyLt a b = true) : keyLt b a = false :=
  kLt_asymm h

theorem keyLt_trans {a b c : BfItem} (h1 : keyLt a b = true) (h2 : keyLt b c = true) :
    keyLt a c = true := kLt_trans h1 h2

theorem keyLt_conn {a b : BfItem} (h1 : keyLt a b = false) (h2 : keyLt b a = false) :
    bfKey a = bfKey b := kLt_conn h1 h2

theorem keyLt_congr_left {a b c : BfItem} (h : bfKey a = bfKey b) :
    keyLt a c = keyLt b c := by
  unfold keyLt
  rw [h]

theorem keyLt_congr_right {a b c : BfItem} (h : bfKey a = bfKey b) :
    keyLt c a = keyLt c b := by
  unfold keyLt
  rw [h]

/-- `≥`-transitivity of the key order. -/
theorem keyLt_notLt_trans {a b c : BfItem}
    (h1 : keyLt a b = false) (h2 : keyLt b c = false) : keyLt a c = false := by
  cases hac : keyLt a c with
  | false => rfl
  | true =>
    exfalso
    cases hba : keyLt b a with
    | true =>
      have := keyLt_trans hba hac
      rw [this] at h2
      exact Bool.noConfusion h2
    | false =>
      have hk := keyLt_conn h1 hba
      rw [keyLt_congr_left hk] at hac
      rw [hac] at h2
      exact Bool.noConfusion h2

/-- Pointwise agreement of Python's fallible tuple comparison with the
total key comparison, for entries whose key equality forces identity. -/
theorem cmpE_eq_cmpK_of {a b : BfItem} (h : bfKey a = bfKey b → a = b) :
    cmpE a b = cmpK a b := by
  unfold cmpE cmpK keyLt kLt bfKey
  by_cases hp : a.pri = b.pri
  · by_cases hb : a.bh = b.bh
    · have hab : a = b := h (by simp [bfKey, hp, hb])
      subst hab
      simp [lexLt_irrefl]
    · simp [hp, hb]
  · simp [hp]

/-! ## List update/permutation helpers -/

theorem getD_set_self {α : Type} (l : List α) (i : Nat) (a d : α) (h : i < l.length) :
    (l.set i a).getD i d = a := by
  rw [List.getD_eq_getElem?_getD, List.getElem?_set_self h]
  rfl

theorem getD_set_ne {α : Type} (l : List α) (i j : Nat) (a d : α) (h : i ≠ j) :
    (l.set i a).getD j d = l.getD j d := by
  rw [List.getD_eq_getElem?_getD, List.getElem?_set_ne h, ← List.getD_eq_getElem?_getD]

theorem set_getD_self {α : Type} : ∀ (l : List α) (i : Nat) (d : α),
    l.set i (l.getD i d) = l := by
  intro l
  induction l with
  | nil => intro i d; rfl
  | cons x t ih =>
    intro i d
    cases i with
    | zero => rfl
    | succ n =>
      simp only [List.getD_cons_succ, List.set_cons_succ]
      rw [ih]

theorem getD_mem {α : Type} (l : List α) (i : Nat) (d : α) (h : i < l.length) :
    l.getD i d ∈ l := by
  rw [List.getD_eq_getElem l d h]
  exact List.getElem_mem h

theorem cons_set_perm {α : Type} (v w : α) : ∀ (l : List α) (k : Nat) (d : α),
    l.getD k d = v → k < l.length → (v :: l.set k w).Perm (w :: l) := by
  intro l
  induction l with
  | nil => intro k d _ hk; simp at hk
  | cons x t ih =>
    intro k d hv hk
    cases k with
    | zero =>
      simp only [List.getD_cons_zero] at hv
      rw [hv]
      exact List.Perm.swap w v t
    | succ m =>
      simp only [List.getD_cons_succ] at hv
      simp only [List.set_cons_succ]
      exact ((List.Perm.swap x v (t.set m w)).trans
        ((ih m d hv (by simpa using hk)).cons x)).trans (List.Perm.swap w x t)

theorem set_set_perm {α : Type} (d : α) : ∀ (l : List α) (i j : Nat) (w : α),
    j < l.length → i < l.length → i ≠ j →
    ((l.set i (l.getD j d)).set j w).Perm (l.set i w) := by
  intro l
  induction l with
  | nil => intro i j w hj _ _; simp at hj
  | cons x t ih =>
    intro i j w hj hi hij
    cases i with
    | zero =>
      cases j with
      | zero => exact absurd rfl hij
      | succ m =>
        simp only [List.getD_cons_succ, List.set_cons_zero, List.set_cons_succ]
        exact cons_set_perm _ w t m d rfl (by simpa using hj)
    | succ n =>
      cases j with
      | zero =>
        simp only [List.getD_cons_zero, List.set_cons_succ, List.set_cons_zero]
        have hn : n < t.length := by simpa using hi
        have h1 : (x :: t.set n w).Perm (w :: t.set n x) := by
          have := cons_set_perm x w (t.set n x) n d (getD_set_self t n x d hn) (by simpa using hn)
          rwa [List.set_set] at this
        exact h1.symm
      | succ m =>
        simp only [List.getD_cons_succ, List.set_cons_succ]
        exact (ih n m w (by simpa using hj) (by simpa using hi) (by omega)).cons x

/-! ## `_siftdown` lemmas -/

theorem siftdownGo_length (c : BfItem → BfItem → Except Unit Bool) (n : BfItem) :
    ∀ (fuel : Nat) (h : List BfItem) (pos : Nat),
      ((siftdownGo c n fuel h pos).1).length = h.length := by
  intro fuel
  induction fuel with
  | zero => intro h pos; simp [siftdownGo]
  | succ f ih =>
    intro h pos
    simp only [siftdownGo]
    by_cases h0 : pos = 0
    · simp [h0]
    · simp only [h0, if_false]
      cases hc : c n (h.getD ((pos - 1) / 2) default) with
      | error e => rfl
      | ok b =>
        cases b with
        | true => simpa [List.length_set] using ih (h.set pos (h.getD ((pos - 1) / 2) default)) ((pos - 1) / 2)
        | false => simp [List.length_set]

theorem siftdownGo_subset (c : BfItem → BfItem → Except Unit Bool) (n : BfItem) :
    ∀ (fuel : Nat) (h : List BfItem) (pos : Nat), pos < h.length →
      ∀ x ∈ (siftdownGo c n fuel h pos).1, x ∈ h ∨ x = n := by
  intro fuel
  induction fuel with
  | zero =>
    intro h pos _ x hx
    simp only [siftdownGo] at hx
    rcases List.mem_or_eq_of_mem_set hx with h1 | h1
    · exact Or.inl h1
    · exact Or.inr h1
  | succ f ih =>
    intro h pos hpos x hx
    simp only [siftdownGo] at hx
    by_cases h0 : pos = 0
    · simp only [h0, if_pos rfl] at hx
      rcases List.mem_or_eq_of_mem_set hx with h1 | h1
      · exact Or.inl h1
      · exact Or.inr h1
    · simp only [h0, if_false] at hx
      have hpp : (pos - 1) / 2 < h.length := by omega
      cases hc : c n (h.getD ((pos - 1) / 2) default) with
      | error e => rw [hc] at hx; exact Or.inl hx
      | ok b =>
        rw [hc] at hx
        cases b with
        | true =>
          rcases ih _ _ (by rw [List.length_set]; exact hpp) x hx with h1 | h1
          · rcases List.mem_or_eq_of_mem_set h1 with h2 | h2
            · exact Or.inl h2
            · subst h2
              exact Or.inl (getD_mem h _ default hpp)
          · exact Or.inr h1
        | false =>
          rcases List.mem_or_eq_of_mem_set hx with h1 | h1
          · exact Or.inl h1
          · exact Or.inr h1

theorem siftdownGo_congr (c1 c2 : BfItem → BfItem → Except Unit Bool)
    (P : BfItem → Prop) (n : BfItem)
    (hagree : ∀ a b, P a → P b → c1 a b = c2 a b) (hn : P n) :
    ∀ (fuel : Nat) (h : List BfItem) (pos : Nat), pos < h.length →
      (∀ x ∈ h, P x) →
      siftdownGo c1 n fuel h pos = siftdownGo c2 n fuel h pos := by
  intro fuel
  induction fuel with
  | zero => intro h pos _ _; rfl
  | succ f ih =>
    intro h pos hpos hP
    simp only [siftdownGo]
    by_cases h0 : pos = 0
    · simp [h0]
    · simp only [h0, if_false]
      have hpp : (pos - 1) / 2 < h.length := by
        have : (pos - 1) / 2 < pos := by omega
        omega
      have hparent : P (h.getD ((pos - 1) / 2) default) :=
        hP _ (getD_mem h _ default hpp)
      rw [hagree n _ hn hparent]
      cases hc : c2 n (h.getD ((pos - 1) / 2) default) with
      | error e => rfl
      | ok b =>
        cases b with
        | true =>
          apply ih
          · rw [List.length_set]; exact lt_trans (by omega) hpos
          · intro x hx
            rcases List.mem_or_eq_of_mem_set hx with h1 | h1
            · exact hP x h1
            · subst h1; exact hparent
        | false => rfl

theorem siftdownGo_cmpK_ok (n : BfItem) :
    ∀ (fuel : Nat) (h : List BfItem) (pos : Nat),
      ∃ res, siftdownGo cmpK n fuel h pos = (res, .ok ()) := by
  intro fuel
  induction fuel with
  | zero => intro h pos; exact ⟨_, rfl⟩
  | succ f ih =>
    intro h pos
    simp only [siftdownGo, cmpK]
    by_cases h0 : pos = 0
    · simp only [h0, if_pos rfl]; exact ⟨_, rfl⟩
    · simp only [h0, if_false]
      cases hb : keyLt n (h.getD ((pos - 1) / 2) default) with
      | true => exact ih _ _
      | false => exact ⟨_, rfl⟩

theorem siftdownGo_perm (c : BfItem → BfItem → Except Unit Bool) (n : BfItem) :
    ∀ (fuel : Nat) (h : List BfItem) (pos : Nat) (res : List BfItem),
      pos < h.length → siftdownGo c n fuel h pos = (res, .ok ()) →
      res.Perm (h.set pos n) := by
  intro fuel
  induction fuel with
  | zero =>
    intro h pos res _ heq
    simp only [siftdownGo] at heq
    cases heq
    exact List.Perm.refl _
  | succ f ih =>
    intro h pos res hpos heq
    simp only [siftdownGo] at heq
    by_cases h0 : pos = 0
    · rw [if_pos h0] at heq
      cases heq
      exact List.Perm.refl _
    · rw [if_neg h0] at heq
      cases hc : c n (h.getD ((pos - 1) / 2) default) with
      | error e => rw [hc] at heq; cases heq
      | ok b =>
        rw [hc] at heq
        cases b with
        | true =>
          have hpp : (pos - 1) / 2 < h.length := by omega
          have h1 := ih (h.set pos (h.getD ((pos - 1) / 2) default)) ((pos - 1) / 2) res
            (by rw [List.length_set]; omega) heq
          exact h1.trans
            (set_set_perm default h pos ((pos - 1) / 2) n hpp hpos (by omega))
        | false =>
          cases heq
          exact List.Perm.refl _

theorem hpar_lt {i : Nat} (h : 0 < i) : hpar i < i :=
  lt_of_le_of_lt (Nat.div_le_self _ 2) (by omega)

/-- Heap property of the array produced when the sifting loop parks the
new item at the hole. -/
theorem siftdown_exit_isHeap (n : BfItem) (h : List BfItem) (pos : Nat)
    (hpos : pos < h.length)
    (hA : ∀ i, 0 < i → i < h.length → i ≠ pos → hpar i ≠ pos →
      keyLt (h.getD i default) (h.getD (hpar i) default) = false)
    (hB : ∀ i, 0 < i → i < h.length → hpar i = pos →
      keyLt (h.getD i default) n = false)
    (hex : pos = 0 ∨ keyLt n (h.getD (hpar pos) default) = false) :
    IsHeap (h.set pos n) := by
  intro i hi hilen
  rw [List.length_set] at hilen
  by_cases hip : i = pos
  · subst hip
    rcases hex with h0 | hex
    · omega
    · rw [getD_set_self h i n default hpos,
        getD_set_ne h i (hpar i) n default (by have := hpar_lt hi; omega)]
      exact hex
  · by_cases hpi : hpar i = pos
    · rw [getD_set_ne h pos i n default (by omega), hpi,
        getD_set_self h pos n default hpos]
      exact hB i hi hilen hpi
    · rw [getD_set_ne h pos i n default (by omega),
        getD_set_ne h pos (hpar i) n default (by omega)]
      exact hA i hi hilen hip hpi

/-- Main `_siftdown` invariant lemma: from a "heap with a hole at `pos`"
whose hole children dominate both the new item and the hole's parent, the
loop produces a heap. -/
theorem siftdownGo_isHeap (n : BfItem) :
    ∀ (fuel : Nat) (h : List BfItem) (pos : Nat) (res : List BfItem),
      pos ≤ fuel → pos < h.length →
      (∀ i, 0 < i → i < h.length → i ≠ pos → hpar i ≠ pos →
        keyLt (h.getD i default) (h.getD (hpar i) default) = false) →
      (∀ i, 0 < i → i < h.length → hpar i = pos →
        keyLt (h.getD i default) n = false ∧
        (0 < pos → keyLt (h.getD i default) (h.getD (hpar pos) default) = false)) →
      siftdownGo cmpK n fuel h pos = (res, .ok ()) →
      IsHeap res := by
  intro fuel
  induction fuel with
  | zero =>
    intro h pos res hfuel hpos hA hB heq
    have h0 : pos = 0 := by omega
    simp only [siftdownGo] at heq
    cases heq
    exact siftdown_exit_isHeap n h pos hpos hA (fun i hi hl hp => (hB i hi hl hp).1)
      (Or.inl h0)
  | succ f ih =>
    intro h pos res hfuel hpos hA hB heq
    simp only [siftdownGo] at heq
    by_cases h0 : pos = 0
    · rw [if_pos h0] at heq
      cases heq
      exact siftdown_exit_isHeap n h pos hpos hA (fun i hi hl hp => (hB i hi hl hp).1)
        (Or.inl h0)
    · rw [if_neg h0] at heq
      simp only [cmpK] at heq
      have hpos0 : 0 < pos := Nat.pos_of_ne_zero h0
      have hpplt : hpar pos < pos := hpar_lt hpos0
      have hpp : hpar pos < h.length := by omega
      cases hlt : keyLt n (h.getD ((pos - 1) / 2) default) with
      | false =>
        rw [hlt] at heq
        cases heq
        exact siftdown_exit_isHeap n h pos hpos hA (fun i hi hl hp => (hB i hi hl hp).1)
          (Or.inr hlt)
      | true =>
        rw [hlt] at heq
        -- the hole moves to the parent position
        set pp := (pos - 1) / 2 with hppdef
        have hppar : pp = hpar pos := rfl
        set pv := h.getD pp default with hpvdef
        set h2 := h.set pos pv with h2def
        have h2len : h2.length = h.length := List.length_set h pos pv
        apply ih h2 pp res (by omega) (by omega)
        · -- (A) for the new hole
          intro i hi hil hipp hpip
          rw [h2len] at hil
          by_cases hipos : i = pos
          · exfalso
            subst hipos
            exact hpip hppar.symm
          · by_cases hpi : hpar i = pos
            · have hgi : h2.getD i default = h.getD i default :=
                getD_set_ne h pos i pv default (by omega)
              have hgp : h2.getD (hpar i) default = pv := by
                rw [hpi]
                exact getD_set_self h pos pv default hpos
              rw [hgi, hgp]
              exact (hB i hi hil hpi).2 hpos0
            · rw [getD_set_ne h pos i pv default (by omega),
                getD_set_ne h pos (hpar i) pv default (by omega)]
              exact hA i hi hil hipos hpi
        · -- (B) for the new hole
          intro i hi hil hpi
          rw [h2len] at hil
          have hppos : 0 < pos := hpos0
          constructor
          · by_cases hipos : i = pos
            · subst hipos
              rw [getD_set_self h i pv default hpos]
              exact keyLt_asymm hlt
            · rw [getD_set_ne h pos i pv default (by omega)]
              have hge : keyLt (h.getD i default) pv = false := by
                have := hA i hi hil hipos (by rw [hpi]; omega)
                rwa [hpi, ← hpvdef] at this
              cases hxn : keyLt (h.getD i default) n with
              | false => rfl
              | true =>
                exfalso
                have := keyLt_trans hxn hlt
                rw [this] at hge
                exact Bool.noConfusion hge
          · intro hpp0
            have hgplt : hpar pp < pp := hpar_lt hpp0
            have hgp : h2.getD (hpar pp) default = h.getD (hpar pp) default :=
              getD_set_ne h pos (hpar pp) pv default (by omega)
            have hpvg : keyLt pv (h.getD (hpar pp) default) = false := by
              have := hA pp hpp0 (by omega) (by omega) (by omega)
              rwa [← hpvdef] at this
            rw [hgp]
            by_cases hipos : i = pos
            · subst hipos
              rw [getD_set_self h i pv default hpos]
              exact hpvg
            · rw [getD_set_ne h pos i pv default (by omega)]
              have hge : keyLt (h.getD i default) pv = false := by
                have := hA i hi hil hipos (by rw [hpi]; omega)
                rwa [hpi, ← hpvdef] at this
              exact keyLt_notLt_trans hge hpvg
        · exact heq

/-! ## `_siftup` lemmas -/

theorem hpar_child1 (p : Nat) : hpar (2 * p + 1) = p := by
  unfold hpar
  omega

theorem hpar_child2 (p : Nat) : hpar (2 * p + 2) = p := by
  unfold hpar
  omega

theorem hpar_children {i p : Nat} (hi : 0 < i) (h : hpar i = p) :
    i = 2 * p + 1 ∨ i = 2 * p + 2 := by
  unfold hpar at h
  omega

theorem siftupGo_length (c : BfItem → BfItem → Except Unit Bool) (n : BfItem)
    (endpos : Nat) : ∀ (fuel : Nat) (h : List BfItem) (pos : Nat),
      (((siftupGo c n endpos fuel h pos).1).1).length = h.length := by
  intro fuel
  induction fuel with
  | zero => intro h pos; simp [siftupGo]
  | succ f ih =>
    intro h pos
    simp only [siftupGo]
    by_cases h1 : 2 * pos + 1 < endpos
    · simp only [h1, if_true]
      by_cases h2 : 2 * pos + 1 + 1 < endpos
      · simp only [h2, if_true]
        cases hc : c (h.getD (2 * pos + 1) default) (h.getD (2 * pos + 1 + 1) default) with
        | error e => rfl
        | ok b => exact (ih _ _).trans (List.length_set _ _ _)
      · simp only [h2, if_false]
        exact (ih _ _).trans (List.length_set _ _ _)
    · simp [h1, List.length_set]

theorem siftupGo_subset (c : BfItem → BfItem → Except Unit Bool) (n : BfItem)
    (endpos : Nat) : ∀ (fuel : Nat) (h : List BfItem) (pos : Nat),
      endpos ≤ h.length →
      ∀ x ∈ ((siftupGo c n endpos fuel h pos).1).1, x ∈ h ∨ x = n := by
  intro fuel
  induction fuel with
  | zero =>
    intro h pos _ x hx
    simp only [siftupGo] at hx
    rcases List.mem_or_eq_of_mem_set hx with h1 | h1
    · exact Or.inl h1
    · exact Or.inr h1
  | succ f ih =>
    intro h pos hend x hx
    simp only [siftupGo] at hx
    by_cases h1 : 2 * pos + 1 < endpos
    · simp only [h1, if_true] at hx
      have hstep : ∀ cp, cp < endpos →
          x ∈ ((siftupGo c n endpos f (h.set pos (h.getD cp default)) cp).1).1 →
          x ∈ h ∨ x = n := by
        intro cp hcp hx2
        rcases ih _ _ (by rw [List.length_set]; exact hend) x hx2 with h2 | h2
        · rcases List.mem_or_eq_of_mem_set h2 with h3 | h3
          · exact Or.inl h3
          · subst h3
            exact Or.inl (getD_mem h _ default (by omega))
        · exact Or.inr h2
      by_cases h2 : 2 * pos + 1 + 1 < endpos
      · simp only [h2, if_true] at hx
        cases hc : c (h.getD (2 * pos + 1) default) (h.getD (2 * pos + 1 + 1) default) with
        | error e => rw [hc] at hx; exact Or.inl hx
        | ok b =>
          rw [hc] at hx
          exact hstep _ (by cases b <;> simp <;> omega) hx
      · simp only [h2, if_false] at hx
        exact hstep _ (by omega) hx
    · simp only [h1, if_false] at hx
      rcases List.mem_or_eq_of_mem_set hx with h2 | h2
      · exact Or.inl h2
      · exact Or.inr h2

theorem siftupGo_congr (c1 c2 : BfItem → BfItem → Except Unit Bool)
    (P : BfItem → Prop) (n : BfItem) (endpos : Nat)
    (hagree : ∀ a b, P a → P b → c1 a b = c2 a b) :
    ∀ (fuel : Nat) (h : List BfItem) (pos : Nat), endpos ≤ h.length →
      (∀ x ∈ h, P x) →
      siftupGo c1 n endpos fuel h pos = siftupGo c2 n endpos fuel h pos := by
  intro fuel
  induction fuel with
  | zero => intro h pos _ _; rfl
  | succ f ih =>
    intro h pos hend hP
    simp only [siftupGo]
    by_cases h1 : 2 * pos + 1 < endpos
    · simp only [h1, if_true]
      have hsetP : ∀ cp, cp < endpos → ∀ x ∈ h.set pos (h.getD cp default), P x := by
        intro cp hcp x hx
        rcases List.mem_or_eq_of_mem_set hx with h2 | h2
        · exact hP x h2
        · subst h2
          exact hP _ (getD_mem h _ default (by omega))
      by_cases h2 : 2 * pos + 1 + 1 < endpos
      · simp only [h2, if_true]
        rw [hagree _ _ (hP _ (getD_mem h _ default (by omega)))
          (hP _ (getD_mem h _ default (by omega)))]
        cases hc : c2 (h.getD (2 * pos + 1) default) (h.getD (2 * pos + 1 + 1) default) with
        | error e => rfl
        | ok b =>
          exact ih _ _ (by rw [List.length_set]; exact hend)
            (hsetP _ (by cases b <;> simp <;> omega))
      · simp only [h2, if_false]
        exact ih _ _ (by rw [List.length_set]; exact hend) (hsetP _ (by omega))
    · simp [h1]

theorem siftupGo_cmpK_ok (n : BfItem) (endpos : Nat) :
    ∀ (fuel : Nat) (h : List BfItem) (pos : Nat),
      ∃ hp, siftupGo cmpK n endpos fuel h pos = (hp, .ok ()) := by
  intro fuel
  induction fuel with
  | zero => intro h pos; exact ⟨_, rfl⟩
  | succ f ih =>
    intro h pos
    simp only [siftupGo, cmpK]
    by_cases h1 : 2 * pos + 1 < endpos
    · simp only [h1, if_true]
      by_cases h2 : 2 * pos + 1 + 1 < endpos
      · simp only [h2, if_true]
        cases hb : keyLt (h.getD (2 * pos + 1) default) (h.getD (2 * pos + 1 + 1) default) with
        | true => exact ih _ _
        | false => exact ih _ _
      · simp only [h2, if_false]
        exact ih _ _
    · simp only [h1, if_false]
      exact ⟨_, rfl⟩

theorem siftupGo_perm (c : BfItem → BfItem → Except Unit Bool) (n : BfItem)
    (endpos : Nat) : ∀ (fuel : Nat) (h : List BfItem) (pos : Nat)
      (h1 : List BfItem) (p : Nat),
      pos < h.length → endpos ≤ h.length →
      siftupGo c n endpos fuel h pos = ((h1, p), .ok ()) →
      h1.Perm (h.set pos n) ∧ h1.getD p default = n ∧ p < h1.length := by
  intro fuel
  induction fuel with
  | zero =>
    intro h pos h1 p hpos hend heq
    simp only [siftupGo] at heq
    cases heq
    exact ⟨List.Perm.refl _, getD_set_self h pos n default hpos,
      by rw [List.length_set]; exact hpos⟩
  | succ f ih =>
    intro h pos h1 p hpos hend heq
    simp only [siftupGo] at heq
    by_cases hc1 : 2 * pos + 1 < endpos
    · rw [if_pos hc1] at heq
      have hstep : ∀ cp, cp < endpos → pos ≠ cp →
          siftupGo c n endpos f (h.set pos (h.getD cp default)) cp = ((h1, p), .ok ()) →
          h1.Perm (h.set pos n) ∧ h1.getD p default = n ∧ p < h1.length := by
        intro cp hcp hne heq2
        obtain ⟨hperm, hget, hp⟩ := ih _ _ h1 p (by rw [List.length_set]; omega)
          (by rw [List.length_set]; exact hend) heq2
        refine ⟨hperm.trans (set_set_perm default h pos cp n (by omega) hpos hne), hget, hp⟩
      by_cases hc2 : 2 * pos + 1 + 1 < endpos
      · rw [if_pos hc2] at heq
        cases hc : c (h.getD (2 * pos + 1) default) (h.getD (2 * pos + 1 + 1) default) with
        | error e => rw [hc] at heq; cases heq
        | ok b =>
          rw [hc] at heq
          exact hstep _ (by cases b <;> simp <;> omega) (by cases b <;> simp <;> omega) heq
      · rw [if_neg hc2] at heq
        exact hstep _ (by omega) (by omega) heq
    · rw [if_neg hc1] at heq
      cases heq
      exact ⟨List.Perm.refl _, getD_set_self h pos n default hpos,
        by rw [List.length_set]; exact hpos⟩

/-- Main `_siftup` loop lemma: sinking the hole to a leaf preserves the
"heap except at the hole" shape, the hole's children keep dominating the
hole's parent, and the final hole is a leaf. -/
theorem siftupGo_exit (n : BfItem) (endpos : Nat) :
    ∀ (fuel : Nat) (h : List BfItem) (pos : Nat) (h1 : List BfItem) (p : Nat),
      endpos = h.length → pos < h.length → endpos ≤ fuel + pos →
      (∀ i, 0 < i → i < h.length → i ≠ pos → hpar i ≠ pos →
        keyLt (h.getD i default) (h.getD (hpar i) default) = false) →
      (∀ i, 0 < i → i < h.length → hpar i = pos →
        (0 < pos → keyLt (h.getD i default) (h.getD (hpar pos) default) = false)) →
      siftupGo cmpK n endpos fuel h pos = ((h1, p), .ok ()) →
      (∀ i, 0 < i → i < h1.length → i ≠ p → hpar i ≠ p →
        keyLt (h1.getD i default) (h1.getD (hpar i) default) = false) ∧
      endpos ≤ 2 * p + 1 ∧ p < h1.length := by
  intro fuel
  induction fuel with
  | zero =>
    intro h pos h1 p hend hpos hfuel hA _ heq
    simp only [siftupGo] at heq
    cases heq
    refine ⟨?_, by omega, by rw [List.length_set]; exact hpos⟩
    intro i hi hil hip hpip
    rw [List.length_set] at hil
    rw [getD_set_ne h pos i n default (by omega),
      getD_set_ne h pos (hpar i) n default (by omega)]
    exact hA i hi hil hip hpip
  | succ f ih =>
    intro h pos h1 p hend hpos hfuel hA hB heq
    simp only [siftupGo, cmpK] at heq
    by_cases hc1 : 2 * pos + 1 < endpos
    · rw [if_pos hc1] at heq
      have hstep : ∀ cp, hpar cp = pos → cp < endpos → pos < cp →
          (∀ s, 0 < s → s < h.length → hpar s = pos → s ≠ cp →
            keyLt (h.getD s default) (h.getD cp default) = false) →
          siftupGo cmpK n endpos f (h.set pos (h.getD cp default)) cp = ((h1, p), .ok ()) →
          (∀ i, 0 < i → i < h1.length → i ≠ p → hpar i ≠ p →
            keyLt (h1.getD i default) (h1.getD (hpar i) default) = false) ∧
          endpos ≤ 2 * p + 1 ∧ p < h1.length := by
        intro cp hcppar hcplt hposcp hsel heq2
        set h2 := h.set pos (h.getD cp default) with h2def
        have h2len : h2.length = h.length := List.length_set _ _ _
        apply ih h2 cp h1 p (by omega) (by omega) (by omega)
        · -- (A) at the new hole cp
          intro i hi hil hicp hpicp
          rw [h2len] at hil
          by_cases hipos : i = pos
          · subst hipos
            have hposz : 0 < i := hi
            rw [getD_set_self h i (h.getD cp default) default hpos,
              getD_set_ne h i (hpar i) (h.getD cp default) default
                (by have := hpar_lt hi; omega)]
            exact hB cp (by omega) (by omega) hcppar (by omega)
          · by_cases hpip : hpar i = pos
            · rw [getD_set_ne h pos i (h.getD cp default) default (by omega), hpip,
                getD_set_self h pos (h.getD cp default) default hpos]
              exact hsel i hi hil hpip hicp
            · rw [getD_set_ne h pos i (h.getD cp default) default (by omega),
                getD_set_ne h pos (hpar i) (h.getD cp default) default (by omega)]
              exact hA i hi hil hipos hpip
        · -- (B) at the new hole cp
          intro d hd hdl hpdcp hcp0
          rw [h2len] at hdl
          have hdcp : cp < d := by
            have := hpar_lt hd
            omega
          rw [getD_set_ne h pos d (h.getD cp default) default (by omega), hcppar,
            getD_set_self h pos (h.getD cp default) default hpos]
          have := hA d hd hdl (by omega) (by rw [hpdcp]; omega)
          rwa [hpdcp] at this
        · exact heq2
      by_cases hc2 : 2 * pos + 1 + 1 < endpos
      · rw [if_pos hc2] at heq
        cases hb : keyLt (h.getD (2 * pos + 1) default) (h.getD (2 * pos + 1 + 1) default) with
        | true =>
          rw [hb] at heq
          simp only [eq_self_iff_true, if_true] at heq
          apply hstep (2 * pos + 1) (hpar_child1 pos) (by omega) (by omega) ?_ heq
          intro s hs hsl hps hscp
          rcases hpar_children hs hps with h1 | h1
          · exact absurd h1 hscp
          · subst h1
            exact keyLt_asymm hb
        | false =>
          rw [hb] at heq
          simp only [Bool.false_eq_true, if_false] at heq
          apply hstep (2 * pos + 1 + 1) (hpar_child2 pos)
            (by omega) (by omega) ?_ heq
          intro s hs hsl hps hscp
          rcases hpar_children hs hps with h1 | h1
          · subst h1
            exact hb
          · exact absurd (by omega) hscp
      · rw [if_neg hc2] at heq
        apply hstep (2 * pos + 1) (hpar_child1 pos) (by omega) (by omega) ?_ heq
        intro s hs hsl hps hscp
        rcases hpar_children hs hps with h1 | h1
        · exact absurd h1 hscp
        · omega
    · rw [if_neg hc1] at heq
      cases heq
      refine ⟨?_, by omega, by rw [List.length_set]; exact hpos⟩
      intro i hi hil hip hpip
      rw [List.length_set] at hil
      rw [getD_set_ne h pos i n default (by omega),
        getD_set_ne h pos (hpar i) n default (by omega)]
      exact hA i hi hil hip hpip

/-! ## Heap root minimality and assembled push/pop specifications -/

theorem isHeap_root_min {l : List BfItem} (hH : IsHeap l) :
    ∀ i, i < l.length → keyLt (l.getD i default) (l.getD 0 default) = false := by
  intro i
  induction i using Nat.strong_induction_on with
  | _ i ih =>
    intro hil
    cases Nat.eq_zero_or_pos i with
    | inl h0 => subst h0; exact keyLt_irrefl _
    | inr hpos =>
      have h1 := hH i hpos hil
      have h2 := ih (hpar i) (hpar_lt hpos) (by have := hpar_lt hpos; omega)
      exact keyLt_notLt_trans h1 h2

theorem getD_append_left {α : Type} (a b : List α) (i : Nat) (d : α) (h : i < a.length) :
    (a ++ b).getD i d = a.getD i d := by
  rw [List.getD_eq_getElem?_getD, List.getElem?_append_left h, ← List.getD_eq_getElem?_getD]

theorem getD_append_len {α : Type} (a : List α) (x d : α) :
    (a ++ [x]).getD a.length d = x := by
  rw [List.getD_eq_getElem?_getD, List.getElem?_append_right (le_refl _)]
  simp

theorem getD_dropLast {α : Type} (l : List α) (i : Nat) (d : α)
    (h : i < l.dropLast.length) : l.dropLast.getD i d = l.getD i d := by
  rw [List.getD_eq_getElem l.dropLast d h,
    List.getD_eq_getElem l d (by rw [List.length_dropLast] at h; omega)]
  exact List.getElem_dropLast l i h

theorem siftupGo_pos_lt (c : BfItem → BfItem → Except Unit Bool) (n : BfItem)
    (endpos : Nat) : ∀ (fuel : Nat) (h : List BfItem) (pos : Nat),
      pos < h.length → endpos ≤ h.length →
      ((siftupGo c n endpos fuel h pos).1).2 < h.length := by
  intro fuel
  induction fuel with
  | zero => intro h pos hpos _; simpa [siftupGo] using hpos
  | succ f ih =>
    intro h pos hpos hend
    simp only [siftupGo]
    by_cases h1 : 2 * pos + 1 < endpos
    · simp only [h1, if_true]
      by_cases h2 : 2 * pos + 1 + 1 < endpos
      · simp only [h2, if_true]
        cases hc : c (h.getD (2 * pos + 1) default) (h.getD (2 * pos + 1 + 1) default) with
        | error e => simpa using hpos
        | ok b =>
          have := ih (h.set pos (h.getD (if b = true then 2 * pos + 1 else 2 * pos + 1 + 1) default))
            (if b = true then 2 * pos + 1 else 2 * pos + 1 + 1)
            (by rw [List.length_set]; cases b <;> simp <;> omega)
            (by rw [List.length_set]; exact hend)
          rwa [List.length_set] at this
      · simp only [h2, if_false]
        have := ih (h.set pos (h.getD (2 * pos + 1) default)) (2 * pos + 1)
          (by rw [List.length_set]; omega) (by rw [List.length_set]; exact hend)
        rwa [List.length_set] at this
    · simpa [h1] using hpos

theorem set_append_last {α : Type} : ∀ (a : List α) (x y : α),
    (a ++ [x]).set a.length y = a ++ [y] := by
  intro a
  induction a with
  | nil => intro x y; rfl
  | cons z t ih =>
    intro x y
    simp only [List.cons_append, List.length_cons, List.set_cons_succ]
    rw [ih]

/-- `heappush` with the total key comparison: succeeds, permutes, and
preserves the heap invariant. -/
theorem heappush_cmpK_spec (h : List BfItem) (x : BfItem) (hH : IsHeap h) :
    ∃ h', heappush cmpK h x = (h', .ok ()) ∧ h'.Perm (x :: h) ∧ IsHeap h' := by
  obtain ⟨res, heq⟩ := siftdownGo_cmpK_ok x h.length (h ++ [x]) h.length
  have hpos : h.length < (h ++ [x]).length := by simp
  refine ⟨res, heq, ?_, ?_⟩
  · have h1 := siftdownGo_perm cmpK x h.length (h ++ [x]) h.length res hpos heq
    rw [set_append_last h x x] at h1
    exact h1.trans (List.perm_append_singleton x h)
  · apply siftdownGo_isHeap x h.length (h ++ [x]) h.length res (le_refl _) hpos ?_ ?_ heq
    · intro i hi hil hip _
      rw [List.length_append, List.length_singleton] at hil
      have hilt : i < h.length := by omega
      rw [getD_append_left h [x] i default hilt,
        getD_append_left h [x] (hpar i) default (by have := hpar_lt hi; omega)]
      exact hH i hi hilt
    · intro i hi hil hpi
      exfalso
      rcases hpar_children hi hpi with h1 | h1 <;>
        (rw [List.length_append, List.length_singleton] at hil; omega)

/-- `heappush` under pointwise agreement on the involved items computes
the same as with the total comparison. -/
theorem heappush_congr (c1 c2 : BfItem → BfItem → Except Unit Bool)
    (P : BfItem → Prop) (h : List BfItem) (x : BfItem)
    (hagree : ∀ a b, P a → P b → c1 a b = c2 a b) (hx : P x) (hP : ∀ y ∈ h, P y) :
    heappush c1 h x = heappush c2 h x := by
  unfold heappush
  apply siftdownGo_congr c1 c2 P x hagree hx h.length (h ++ [x]) h.length (by simp)
  intro y hy
  rcases List.mem_append.mp hy with h1 | h1
  · exact hP y h1
  · rw [List.mem_singleton.mp h1]
    exact hx

/-- `heappush` with Python's comparison on key-distinct entries: total,
permutes, preserves the heap invariant and key-distinctness. -/
theorem heappush_cmpE_spec (h : List BfItem) (x : BfItem)
    (hK : KeyInjOn (x :: h)) (hH : IsHeap h) :
    ∃ h', heappush cmpE h x = (h', .ok ()) ∧ h'.Perm (x :: h) ∧ IsHeap h' ∧
      KeyInjOn h' := by
  have hcongr : heappush cmpE h x = heappush cmpK h x := by
    apply heappush_congr cmpE cmpK (fun y => y ∈ x :: h) h x
    · intro a b ha hb
      exact cmpE_eq_cmpK_of (hK a ha b hb)
    · exact List.mem_cons_self x h
    · intro y hy
      exact List.mem_cons_of_mem x hy
  obtain ⟨h', heq, hperm, hheap⟩ := heappush_cmpK_spec h x hH
  refine ⟨h', hcongr.trans heq, hperm, hheap, ?_⟩
  intro a ha b hb hk
  exact hK a (hperm.subset ha) b (hperm.subset hb) hk

/-- `heappush` permutation for any comparison, conditioned on success. -/
theorem heappush_perm_of_ok (c : BfItem → BfItem → Except Unit Bool)
    (h h' : List BfItem) (x : BfItem) (heq : heappush c h x = (h', .ok ())) :
    h'.Perm (x :: h) := by
  unfold heappush at heq
  have h1 := siftdownGo_perm c x h.length (h ++ [x]) h.length h' (by simp) heq
  rw [set_append_last h x x] at h1
  exact h1.trans (List.perm_append_singleton x h)

/-- Elements of the array left by `heappush` (also after a `TypeError`)
come from the old heap or are the pushed item. -/
theorem heappush_subset (c : BfItem → BfItem → Except Unit Bool)
    (h : List BfItem) (x : BfItem) :
    ∀ y ∈ (heappush c h x).1, y ∈ h ∨ y = x := by
  intro y hy
  unfold heappush at hy
  rcases siftdownGo_subset c x h.length (h ++ [x]) h.length (by simp) y hy with h1 | h1
  · rcases List.mem_append.mp h1 with h2 | h2
    · exact Or.inl h2
    · exact Or.inr (List.mem_singleton.mp h2)
  · exact Or.inr h1

/-- `_siftup` under pointwise agreement computes the same result. -/
theorem siftup_congr (c1 c2 : BfItem → BfItem → Except Unit Bool)
    (P : BfItem → Prop) (hagree : ∀ a b, P a → P b → c1 a b = c2 a b)
    (h : List BfItem) (pos : Nat) (hpos : pos < h.length) (hP : ∀ x ∈ h, P x) :
    siftup c1 h pos = siftup c2 h pos := by
  simp only [siftup]
  have hnewP : P (h.getD pos default) := hP _ (getD_mem h pos default hpos)
  rw [siftupGo_congr c1 c2 P (h.getD pos default) h.length hagree h.length h pos
    (le_refl _) hP]
  cases hres : siftupGo c2 (h.getD pos default) h.length h.length h pos with
  | mk hp st =>
    obtain ⟨hm, p⟩ := hp
    cases st with
    | error e => rfl
    | ok u =>
      have hmlen : hm.length = h.length := by
        have := siftupGo_length c2 (h.getD pos default) h.length h.length h pos
        rw [hres] at this
        exact this
      have hplt : p < hm.length := by
        have h5 := siftupGo_pos_lt c2 (h.getD pos default) h.length h.length h pos hpos
          (le_refl _)
        rw [hres] at h5
        have h6 : p < h.length := h5
        omega
      have hmP : ∀ x ∈ hm, P x := by
        intro x hx
        have := siftupGo_subset c2 (h.getD pos default) h.length h.length h pos
          (le_refl _) x
        rw [hres] at this
        rcases this hx with h1 | h1
        · exact hP x h1
        · rw [h1]; exact hnewP
      exact siftdownGo_congr c1 c2 P (h.getD pos default) hagree hnewP p hm p hplt hmP

/-- `heappop` with the total key comparison: returns the root (the key
minimum), permutes, and preserves the heap invariant. -/
theorem heappop_cmpK_spec (h : List BfItem) (hH : IsHeap h) (hne : h ≠ []) :
    ∃ h', heappop cmpK h = (h', .ok (some (h.getD 0 default))) ∧
      ((h.getD 0 default) :: h').Perm h ∧ IsHeap h' := by
  by_cases hre : h.dropLast.isEmpty
  · have hrest : h.dropLast = [] := List.isEmpty_iff.mp hre
    have hh : h = [h.getLast hne] := by
      have hx := List.dropLast_append_getLast hne
      rw [hrest] at hx
      simpa using hx.symm
    have hred : heappop cmpK h = ([], .ok (some (h.getLast hne))) := by
      unfold heappop
      rw [List.getLast?_eq_getLast h hne]
      simp only [hre, if_true]
    have hget : h.getD 0 default = h.getLast hne := by
      conv_lhs => rw [hh]
      rfl
    refine ⟨[], by rw [hred, hget], ?_, by intro i hi hil; simp at hil⟩
    have heq2 : (h.getD 0 default) :: ([] : List BfItem) = h := by
      rw [hget]
      exact hh.symm
    exact List.Perm.of_eq heq2
  · have hrlen : 0 < h.dropLast.length := by
      cases hq : h.dropLast with
      | nil => rw [hq] at hre; simp at hre
      | cons a t => simp [hq]
    set rest := h.dropLast with hrest
    set lastelt := h.getLast hne with hlast
    set h2 := rest.set 0 lastelt with h2def
    have h2len : h2.length = rest.length := List.length_set _ _ _
    have hnew : h2.getD 0 default = lastelt := getD_set_self rest 0 lastelt default hrlen
    obtain ⟨⟨hm, p⟩, heqSU⟩ := siftupGo_cmpK_ok lastelt h2.length h2.length h2 0
    have hmlen : hm.length = h2.length := by
      have := siftupGo_length cmpK lastelt h2.length h2.length h2 0
      rw [heqSU] at this
      exact this
    obtain ⟨hperm1, hget1, hplt1⟩ := siftupGo_perm cmpK lastelt h2.length h2.length h2 0
      hm p (by omega) (le_refl _) heqSU
    have hA := siftupGo_exit lastelt h2.length h2.length h2 0 hm p rfl (by omega)
      (by omega) ?hA0 (by intro i _ _ _ hfalse; omega) heqSU
    case hA0 =>
      intro i hi hil _ hpip
      rw [h2len] at hil
      rw [getD_set_ne rest 0 i lastelt default (by omega),
        getD_set_ne rest 0 (hpar i) lastelt default (by omega)]
      rw [hrest] at hil ⊢
      rw [getD_dropLast h i default hil,
        getD_dropLast h (hpar i) default (by have := hpar_lt hi; omega)]
      exact hH i hi (by rw [List.length_dropLast] at hil; omega)
    obtain ⟨hAm, hleaf, hplt⟩ := hA
    obtain ⟨res, heqSD⟩ := siftdownGo_cmpK_ok lastelt p hm p
    have hsift : siftup cmpK h2 0 = (res, .ok ()) := by
      simp only [siftup]
      rw [hnew, heqSU]
      exact heqSD
    have hpop : heappop cmpK h = (res, .ok (some (rest.getD 0 default))) := by
      unfold heappop
      rw [List.getLast?_eq_getLast h hne]
      simp only [hre, if_false]
      rw [← hrest, ← hlast, ← h2def, hsift]
      rfl
    have hr0 : rest.getD 0 default = h.getD 0 default := getD_dropLast h 0 default hrlen
    have hpermres : res.Perm h2 := by
      have h1 := siftdownGo_perm cmpK lastelt p hm p res hplt heqSD
      have h2e : hm.set p lastelt = hm := by
        conv_lhs => rw [← hget1]
        exact set_getD_self hm p default
      rw [h2e] at h1
      have h3 : (rest.set 0 lastelt).set 0 lastelt = rest.set 0 lastelt :=
        List.set_set lastelt lastelt rest 0
      rw [h3] at hperm1
      exact h1.trans hperm1
    have hheapres : IsHeap res := by
      apply siftdownGo_isHeap lastelt p hm p res (le_refl _) hplt hAm ?_ heqSD
      intro i hi hil hpi
      exfalso
      rcases hpar_children hi hpi with h1 | h1 <;> omega
    refine ⟨res, by rw [hpop, hr0], ?_, hheapres⟩
    rw [← hr0]
    have hc1 : ((rest.getD 0 default) :: res).Perm ((rest.getD 0 default) :: h2) :=
      hpermres.cons _
    have hc2 : ((rest.getD 0 default) :: h2).Perm (lastelt :: rest) :=
      cons_set_perm (rest.getD 0 default) lastelt rest 0 default rfl hrlen
    have hc3 : (lastelt :: rest).Perm h := by
      have := List.perm_append_singleton lastelt rest
      have he : rest ++ [lastelt] = h := List.dropLast_append_getLast hne
      rw [he] at this
      exact this.symm
    exact (hc1.trans hc2).trans hc3

/-- `heappop` with Python's comparison on a key-distinct heap: total,
returns the key minimum, permutes, preserves invariants. -/
theorem heappop_cmpE_spec (h : List BfItem) (hK : KeyInjOn h) (hH : IsHeap h)
    (hne : h ≠ []) :
    ∃ h', heappop cmpE h = (h', .ok (some (h.getD 0 default))) ∧
      ((h.getD 0 default) :: h').Perm h ∧ IsHeap h' ∧ KeyInjOn h' := by
  have hcongr : heappop cmpE h = heappop cmpK h := by
    unfold heappop
    rw [List.getLast?_eq_getLast h hne]
    by_cases hre : h.dropLast.isEmpty
    · simp only [hre, if_true]
    · simp only [hre, if_false]
      have hrlen : 0 < h.dropLast.length := by
        cases hq : h.dropLast with
        | nil => rw [hq] at hre; simp at hre
        | cons a t => simp [hq]
      rw [siftup_congr cmpE cmpK (fun y => y ∈ h) ?agree
        (h.dropLast.set 0 (h.getLast hne)) 0 (by rw [List.length_set]; omega) ?mem]
      case agree =>
        intro a b ha hb
        exact cmpE_eq_cmpK_of (hK a ha b hb)
      case mem =>
        intro y hy
        rcases List.mem_or_eq_of_mem_set hy with h1 | h1
        · exact (List.dropLast_sublist h).mem h1
        · rw [h1]
          exact List.getLast_mem hne
  obtain ⟨h', heq, hperm, hheap⟩ := heappop_cmpK_spec h hH hne
  refine ⟨h', hcongr.trans heq, hperm, hheap, ?_⟩
  intro a ha b hb hk
  exact hK a (hperm.subset (List.mem_cons_of_mem _ ha))
    b (hperm.subset (List.mem_cons_of_mem _ hb)) hk

/-- A successful `heappop` with any comparison returns the root and leaves
a permutation of the remaining entries. -/
theorem heappop_perm_of_ok (c : BfItem → BfItem → Except Unit Bool)
    (h h' : List BfItem) (x : BfItem)
    (heq : heappop c h = (h', .ok (some x))) :
    x = h.getD 0 default ∧ (x :: h').Perm h ∧ h'.length + 1 = h.length := by
  by_cases hne : h = []
  · subst hne
    simp [heappop] at heq
  · simp only [heappop, List.getLast?_eq_getLast h hne] at heq
    by_cases hre : h.dropLast.isEmpty
    · rw [if_pos hre] at heq
      have hrest : h.dropLast = [] := List.isEmpty_iff.mp hre
      have hh : h = [h.getLast hne] := by
        have hx := List.dropLast_append_getLast hne
        rw [hrest] at hx
        simpa using hx.symm
      have h1 : h' = [] := (congrArg Prod.fst heq).symm
      have h2 : x = h.getLast hne := by
        have := congrArg Prod.snd heq
        simp only [Except.ok.injEq, Option.some.injEq] at this
        exact this.symm
      have hget : h.getD 0 default = h.getLast hne := by
        conv_lhs => rw [hh]
        rfl
      subst h1
      refine ⟨by rw [h2, hget], ?_, by rw [hh]; rfl⟩
      rw [h2]
      exact List.Perm.of_eq hh.symm
    · rw [if_neg hre] at heq
      have hrlen : 0 < h.dropLast.length := by
        cases hq : h.dropLast with
        | nil => rw [hq] at hre; simp at hre
        | cons a t => simp [hq]
      have hnew : (h.dropLast.set 0 (h.getLast hne)).getD 0 default = h.getLast hne :=
        getD_set_self _ 0 _ default hrlen
      cases hs : siftup c (h.dropLast.set 0 (h.getLast hne)) 0 with
      | mk h3 st =>
        cases st with
        | error e =>
          rw [hs] at heq
          have := congrArg Prod.snd heq
          simp at this
        | ok u =>
          rw [hs] at heq
          have h1 : h' = h3 := (congrArg Prod.fst heq).symm
          have h2 : x = h.dropLast.getD 0 default := by
            have := congrArg Prod.snd heq
            simp only [Except.ok.injEq, Option.some.injEq] at this
            exact this.symm
          -- decompose the siftup run
          simp only [siftup, hnew] at hs
          cases hsu : siftupGo c (h.getLast hne) (h.dropLast.set 0 (h.getLast hne)).length
              (h.dropLast.set 0 (h.getLast hne)).length
              (h.dropLast.set 0 (h.getLast hne)) 0 with
          | mk hp st2 =>
            obtain ⟨hm, p⟩ := hp
            cases st2 with
            | error e => rw [hsu] at hs; cases hs
            | ok u2 =>
              rw [hsu] at hs
              obtain ⟨hperm1, hget1, hplt1⟩ := siftupGo_perm c (h.getLast hne) _ _
                (h.dropLast.set 0 (h.getLast hne)) 0 hm p
                (by rw [List.length_set]; omega) (le_refl _) hsu
              have h3perm : h3.Perm (h.dropLast.set 0 (h.getLast hne)) := by
                have hd := siftdownGo_perm c (h.getLast hne) p hm p h3 hplt1 hs
                have h2e : hm.set p (h.getLast hne) = hm := by
                  conv_lhs => rw [← hget1]
                  exact set_getD_self hm p default
                rw [h2e] at hd
                have h3e : (h.dropLast.set 0 (h.getLast hne)).set 0 (h.getLast hne) =
                    h.dropLast.set 0 (h.getLast hne) := List.set_set _ _ _ _
                rw [h3e] at hperm1
                exact hd.trans hperm1
              have hr0 : h.dropLast.getD 0 default = h.getD 0 default :=
                getD_dropLast h 0 default hrlen
              subst h1
              refine ⟨by rw [h2, hr0], ?_, ?_⟩
              · have hc1 := h3perm.cons (h.dropLast.getD 0 default)
                have hc2 : ((h.dropLast.getD 0 default) :: h.dropLast.set 0 (h.getLast hne)).Perm
                    ((h.getLast hne) :: h.dropLast) :=
                  cons_set_perm _ _ h.dropLast 0 default rfl hrlen
                have hc3 : ((h.getLast hne) :: h.dropLast).Perm h := by
                  have hps := List.perm_append_singleton (h.getLast hne) h.dropLast
                  have he : h.dropLast ++ [h.getLast hne] = h :=
                    List.dropLast_append_getLast hne
                  rw [he] at hps
                  exact hps.symm
                rw [h2]
                exact (hc1.trans hc2).trans hc3
              · have hlen3 : h'.length = (h.dropLast.set 0 (h.getLast hne)).length :=
                  h3perm.length_eq
                have h9 : 0 < h.length := List.length_pos.mpr hne
                rw [hlen3, List.length_set, List.length_dropLast]
                omega

/-- Entries of the heap left behind by `heappop` (also after a
`TypeError`) come from the original heap. -/
theorem heappop_subset (c : BfItem → BfItem → Except Unit Bool) (h : List BfItem) :
    ∀ y ∈ (heappop c h).1, y ∈ h := by
  intro y hy
  by_cases hne : h = []
  · subst hne
    simp [heappop] at hy
  · simp only [heappop, List.getLast?_eq_getLast h hne] at hy
    by_cases hre : h.dropLast.isEmpty
    · rw [if_pos hre] at hy
      simp at hy
    · rw [if_neg hre] at hy
      have hrlen : 0 < h.dropLast.length := by
        cases hq : h.dropLast with
        | nil => rw [hq] at hre; simp at hre
        | cons a t => simp [hq]
      set h2 := h.dropLast.set 0 (h.getLast hne) with h2def
      have hsub2 : ∀ z ∈ h2, z ∈ h := by
        intro z hz
        rcases List.mem_or_eq_of_mem_set hz with h1 | h1
        · exact (List.dropLast_sublist h).mem h1
        · rw [h1]
          exact List.getLast_mem hne
      have hnewmem : h2.getD 0 default ∈ h :=
        hsub2 _ (getD_mem h2 0 default (by rw [h2def, List.length_set]; omega))
      cases hs : siftup c h2 0 with
      | mk h3 st =>
        rw [hs] at hy
        have hy3 : y ∈ h3 := by
          cases st with
          | error e => simpa using hy
          | ok u => simpa using hy
        simp only [siftup] at hs
        cases hsu : siftupGo c (h2.getD 0 default) h2.length h2.length h2 0 with
        | mk hp st2 =>
          obtain ⟨hm, p⟩ := hp
          have hsubm : ∀ z ∈ hm, z ∈ h := by
            intro z hz
            have := siftupGo_subset c (h2.getD 0 default) h2.length h2.length h2 0
              (le_refl _) z
            rw [hsu] at this
            rcases this hz with h1 | h1
            · exact hsub2 z h1
            · rw [h1]; exact hnewmem
          cases st2 with
          | error e =>
            rw [hsu] at hs
            cases hs
            exact hsubm y hy3
          | ok u2 =>
            rw [hsu] at hs
            have hs2 : siftdownGo c (h2.getD 0 default) p hm p = (h3, st) := hs
            have hplt1 : p < hm.length := by
              have h5 := siftupGo_pos_lt c (h2.getD 0 default) h2.length h2.length h2 0
                (by rw [h2def, List.length_set]; omega) (le_refl _)
              rw [hsu] at h5
              have h6 : p < h2.length := h5
              have h7 := siftupGo_length c (h2.getD 0 default) h2.length h2.length h2 0
              rw [hsu] at h7
              have h8 : hm.length = h2.length := h7
              omega
            rcases siftdownGo_subset c (h2.getD 0 default) p hm p hplt1 y
              (by rw [hs2]; exact hy3) with h1 | h1
            · exact hsubm y h1
            · rw [h1]; exact hnewmem

/-- C10: the queue items are tuples falling back to future comparison on
key ties.  (1) Whenever two distinct tuples agree on `(priority,
block_hash)`, Python's tuple comparison reaches the futures and raises
`TypeError`.  (2) Concretely, enqueueing a second request with the same
`(hash, priority)` while the first such request is the only queued item
raises inside `heappush`, and the `fetch_blocks` call that does this
aborts without returning futures.  (3)/(4) For heaps whose entries have
pairwise distinct `(priority, block_hash)` keys, no future comparison is
reached: enqueue and dequeue are total, permute correctly and preserve
the heap shape. -/
theorem C10_tuple_comparison_totality :
    (∀ a b : BfItem, a.pri = b.pri → a.bh = b.bh → a.fid ≠ b.fid →
      cmpE a b = .error ()) ∧
    (heappush cmpE [⟨0, [5], 0⟩] ⟨0, [5], 1⟩ =
      ([⟨0, [5], 0⟩, ⟨0, [5], 1⟩], .error ()) ∧
     (runFetch bfInit [([5], 0), ([5], 0)]).2 = ([], false)) ∧
    (∀ (h : List BfItem) (x : BfItem), KeyInjOn (x :: h) → IsHeap h →
      ∃ h', heappush cmpE h x = (h', .ok ()) ∧ h'.Perm (x :: h) ∧ IsHeap h') ∧
    (∀ h : List BfItem, KeyInjOn h → IsHeap h → h ≠ [] →
      ∃ h', heappop cmpE h = (h', .ok (some (h.getD 0 default))) ∧
        ((h.getD 0 default) :: h').Perm h ∧ IsHeap h') := by
  refine ⟨?_, ⟨rfl, rfl⟩, ?_, ?_⟩
  · intro a b hp hb hf
    unfold cmpE
    simp [hp, hb, hf]
  · intro h x hK hH
    obtain ⟨h', heq, hperm, hheap, _⟩ := heappush_cmpE_spec h x hK hH
    exact ⟨h', heq, hperm, hheap⟩
  · intro h hK hH hne
    obtain ⟨h', heq, hperm, hheap, _⟩ := heappop_cmpE_spec h hK hH hne
    exact ⟨h', heq, hperm, hheap⟩

/-- C10 (witness): totality at a concrete push and a concrete pop. -/
theorem C10_tuple_comparison_totality_witness :
    (∃ h', heappush cmpE [] ⟨0, [1], 0⟩ = (h', .ok ()) ∧
      h'.Perm (⟨0, [1], 0⟩ :: []) ∧ IsHeap h') ∧
    (∃ h', heappop cmpE [⟨0, [1], 5⟩] =
        (h', .ok (some (([⟨0, [1], 5⟩] : List BfItem).getD 0 default))) ∧
      ((([⟨0, [1], 5⟩] : List BfItem).getD 0 default) :: h').Perm [⟨0, [1], 5⟩] ∧
      IsHeap h') :=
  ⟨C10_tuple_comparison_totality.2.2.1 [] ⟨0, [1], 0⟩
    (by
      intro a ha b hb _
      rw [List.mem_singleton.mp ha, List.mem_singleton.mp hb])
    (by intro i h1 h2; simp at h2),
   C10_tuple_comparison_totality.2.2.2 [⟨0, [1], 5⟩]
    (by
      intro a ha b hb _
      rw [List.mem_singleton.mp ha, List.mem_singleton.mp hb])
    (by intro i h1 h2; simp at h2; omega)
    (by simp)⟩

/-- C9: `handle_msg` resolves a registered pending delivery on a
`"block"` message with the block, is a no-op when the hash is not
registered or the delivery is already resolved, and ignores every other
message name. -/
theorem C9_handle_msg (st : BfState) (name : String) (blk : Block) :
    (name ≠ "block" → runHandleMsg st name blk = st) ∧
    (name = "block" → alookup st.registry blk.bhash = none →
      runHandleMsg st name blk = st) ∧
    (∀ fid, name = "block" → alookup st.registry blk.bhash = some fid →
      (alookup st.results fid).isSome → runHandleMsg st name blk = st) ∧
    (∀ fid, name = "block" → alookup st.registry blk.bhash = some fid →
      alookup st.results fid = none →
      runHandleMsg st name blk = {st with results := st.results ++ [(fid, blk)]}) := by
  refine ⟨?_, ?_, ?_, ?_⟩
  · intro hn
    simp [runHandleMsg, hn]
  · intro hn hreg
    simp [runHandleMsg, hn, hreg]
  · intro fid hn hreg hdone
    simp [runHandleMsg, hn, hreg, hdone]
  · intro fid hn hreg hpending
    simp [runHandleMsg, hn, hreg, hpending]

/-- C9 (witness): resolution of a registered pending delivery at a
concrete state, via `C9_handle_msg`. -/
theorem C9_handle_msg_witness :
    runHandleMsg (runFetch bfInit [([8], 5)]).1 "block" ⟨1, [8]⟩ =
      {(runFetch bfInit [([8], 5)]).1 with
        results := (runFetch bfInit [([8], 5)]).1.results ++ [(0, ⟨1, [8]⟩)]} :=
  (C9_handle_msg (runFetch bfInit [([8], 5)]).1 "block" ⟨1, [8]⟩).2.2.2 0 rfl
    (by decide) (by decide)

/-- C2 (counterexample): two requests with equal priority are delivered
in block-hash order, not insertion order.  `fetch_blocks` enqueues hash
`[2]` (future 0) before hash `[1]` (future 1), both at priority 0; the
next `_get_batch` claims future 1 first. -/
theorem C2_counterexample :
    (runFetch bfInit [([2], 0), ([1], 0)]).2 = ([0, 1], true) ∧
    (runGetBatch (runFetch bfInit [([2], 0), ([1], 0)]).1 7 2 true).2 =
      .batch [⟨0, [1], 1⟩, ⟨0, [2], 0⟩] [[1], [2]] :=
  ⟨rfl, rfl⟩

/-- C5 (counterexample): after a `_get_batch` whose `send_msg` raises,
the claimed request is simultaneously back on the priority queue and
inside the batch returned to the fetcher loop — states (a) and (b) of
the claimed exclusive-state invariant overlap. -/
theorem C5_counterexample :
    runGetBatch (runFetch bfInit [([9], 3)]).1 4 1 false =
      ({ heap := [⟨3, [9], 0⟩], tried := [(0, [4])], results := [],
         registry := [([9], 0)], inflight := [(4, [⟨3, [9], 0⟩])], nextFid := 1 },
       .batch [⟨3, [9], 0⟩] [[9]]) := rfl

/-- C6 (counterexample): a request whose delivery nobody resolved is
claimed and included in the `getdata` — it is not discarded.  Dropping
every caller handle cannot change any `Blockfetcher` state (the queue
tuple itself keeps a strong reference to the future, so the weak registry
entry stays live and `_get_batch` tests only `future.done()`), so the
claimed reclamation-discard cannot occur for a pending request. -/
theorem C6_counterexample :
    (runGetBatch (runFetch bfInit [([8], 5)]).1 2 1 true).2 =
      .batch [⟨5, [8], 0⟩] [[8]] ∧
    (runFetch bfInit [([8], 5)]).1.results = [] :=
  ⟨rfl, rfl⟩

/-- C8 (counterexample): `fetch_blocks` with a duplicated `(hash,
priority)` pair raises `TypeError` out of `put_nowait` instead of
returning one future per pair — and the first pair's effects (one queued
tuple, its registry entry) remain behind. -/
theorem C8_counterexample :
    (runFetch bfInit [([5], 0), ([5], 0)]).2 = ([], false) ∧
    (runFetch bfInit [([5], 0), ([5], 0)]).1.heap.length = 2 :=
  ⟨rfl, rfl⟩

/-! ## Association list and `pushAll` lemmas -/

theorem alookup_aupdate_self {κ ν : Type} [DecidableEq κ] :
    ∀ (l : List (κ × ν)) (k : κ) (v : ν), alookup (aupdate l k v) k = some v := by
  intro l
  induction l with
  | nil => intro k v; simp [aupdate, alookup]
  | cons p t ih =>
    intro k v
    obtain ⟨k0, v0⟩ := p
    by_cases hk : k0 = k
    · simp [aupdate, hk, alookup]
    · simp only [aupdate, hk, if_false, alookup]
      exact ih k v

theorem alookup_aupdate_ne {κ ν : Type} [DecidableEq κ] :
    ∀ (l : List (κ × ν)) (k k1 : κ) (v : ν), k ≠ k1 →
      alookup (aupdate l k v) k1 = alookup l k1 := by
  intro l
  induction l with
  | nil => intro k k1 v hne; simp [aupdate, alookup, hne]
  | cons p t ih =>
    intro k k1 v hne
    obtain ⟨k0, v0⟩ := p
    by_cases hk : k0 = k
    · subst hk
      simp [aupdate, alookup, hne]
    · simp only [aupdate, hk, if_false, alookup]
      by_cases hk1 : k0 = k1
      · simp [hk1]
      · rw [if_neg hk1, if_neg hk1]
        exact ih k k1 v hne

theorem aupdate_keys {κ ν : Type} [DecidableEq κ] :
    ∀ (l : List (κ × ν)) (k : κ) (v : ν), ∀ p ∈ aupdate l k v, p.1 = k ∨ p ∈ l := by
  intro l
  induction l with
  | nil =>
    intro k v p hp
    simp only [aupdate, List.mem_singleton] at hp
    subst hp
    exact Or.inl rfl
  | cons q t ih =>
    intro k v p hp
    obtain ⟨k0, v0⟩ := q
    by_cases hk : k0 = k
    · simp only [aupdate, hk, if_pos rfl] at hp
      rcases List.mem_cons.mp hp with h1 | h1
      · subst h1; exact Or.inl rfl
      · exact Or.inr (List.mem_cons_of_mem _ h1)
    · simp only [aupdate, hk, if_false] at hp
      rcases List.mem_cons.mp hp with h1 | h1
      · subst h1; exact Or.inr (List.mem_cons_self _ _)
      · rcases ih k v p h1 with h2 | h2
        · exact Or.inl h2
        · exact Or.inr (List.mem_cons_of_mem _ h2)

theorem pushAll_perm_of_ok : ∀ (items heap h2 : List BfItem),
    pushAll heap items = (h2, .ok ()) → h2.Perm (heap ++ items) := by
  intro items
  induction items with
  | nil =>
    intro heap h2 heq
    simp only [pushAll] at heq
    cases heq
    simp
  | cons x xs ih =>
    intro heap h2 heq
    simp only [pushAll] at heq
    cases hps : heappush cmpE heap x with
    | mk hp st =>
      cases st with
      | error e => rw [hps] at heq; cases heq
      | ok u =>
        rw [hps] at heq
        have h1 := ih hp h2 heq
        have h2p := heappush_perm_of_ok cmpE heap hp x hps
        exact h1.trans ((h2p.append_right xs).trans List.perm_middle.symm)

theorem pushAll_subset : ∀ (items heap : List BfItem),
    ∀ x ∈ (pushAll heap items).1, x ∈ heap ∨ x ∈ items := by
  intro items
  induction items with
  | nil =>
    intro heap x hx
    simp only [pushAll] at hx
    exact Or.inl hx
  | cons y ys ih =>
    intro heap x hx
    simp only [pushAll] at hx
    cases hps : heappush cmpE heap y with
    | mk hp st =>
      cases st with
      | error e =>
        rw [hps] at hx
        rcases heappush_subset cmpE heap y x (by rw [hps]; exact hx) with h1 | h1
        · exact Or.inl h1
        · exact Or.inr (by rw [h1]; exact List.mem_cons_self _ _)
      | ok u =>
        rw [hps] at hx
        rcases ih hp x hx with h1 | h1
        · rcases heappush_subset cmpE heap y x (by rw [hps]; exact h1) with h2 | h2
          · exact Or.inl h2
          · exact Or.inr (by rw [h2]; exact List.mem_cons_self _ _)
        · exact Or.inr (List.mem_cons_of_mem _ h1)

/-- Inversion of a `_get_batch` call that returned a batch. -/
theorem runGetBatch_batch_inv (st : BfState) (peer size : Nat) (sendOk : Bool)
    (st' : BfState) (claimed : List BfItem) (inv : List (List Nat))
    (heq : runGetBatch st peer size sendOk = (st', .batch claimed inv)) :
    ∃ hp tr skipped,
      getBatchGo st.results peer size (st.heap.length + 1) st.heap st.tried [] [] [] =
        ⟨hp, tr, skipped, inv, claimed, .ok⟩ ∧
      st'.tried = tr ∧ st'.results = st.results ∧ st'.registry = st.registry ∧
      st'.nextFid = st.nextFid ∧
      st'.inflight = st.inflight ++ [(peer, claimed)] ∧
      ∃ hp2, pushAll hp skipped = (hp2, .ok ()) ∧
        ((sendOk = true ∧ st'.heap = hp2) ∨
         (sendOk = false ∧ ∃ hp3, pushAll hp2 claimed = (hp3, .ok ()) ∧ st'.heap = hp3)) := by
  cases hgo : getBatchGo st.results peer size (st.heap.length + 1) st.heap st.tried [] [] [] with
  | mk hp tr skipped invItems claimed0 status =>
    cases status with
    | blocked =>
      have hcomp : runGetBatch st peer size sendOk =
          ({st with heap := hp, tried := tr}, .blocked) := by
        unfold runGetBatch
        simp only [hgo]
      rw [hcomp] at heq
      exact absurd (congrArg Prod.snd heq) (by simp)
    | raised =>
      have hcomp : runGetBatch st peer size sendOk =
          ({st with heap := hp, tried := tr}, .raised) := by
        unfold runGetBatch
        simp only [hgo]
      rw [hcomp] at heq
      exact absurd (congrArg Prod.snd heq) (by simp)
    | ok =>
      cases hpa : pushAll hp skipped with
      | mk hp2 st2 =>
        cases st2 with
        | error e =>
          have hcomp : runGetBatch st peer size sendOk =
              ({st with heap := hp2, tried := tr}, .raised) := by
            unfold runGetBatch
            simp only [hgo, hpa]
          rw [hcomp] at heq
          exact absurd (congrArg Prod.snd heq) (by simp)
        | ok u =>
          cases hso : sendOk with
          | true =>
            have hcomp : runGetBatch st peer size true =
                ({st with heap := hp2, tried := tr, inflight := st.inflight ++ [(peer, claimed0)]},
                 .batch claimed0 invItems) := by
              unfold runGetBatch
              simp only [hgo, hpa, if_true]
            rw [hso, hcomp] at heq
            have hsnd := congrArg Prod.snd heq
            simp only [GBOut.batch.injEq] at hsnd
            obtain ⟨hc, hi⟩ := hsnd
            subst hc
            subst hi
            have htyped : ({st with heap := hp2, tried := tr, inflight := st.inflight ++ [(peer, claimed0)]} : BfState) = st' :=
              congrArg Prod.fst heq
            subst htyped
            exact ⟨hp, tr, skipped, rfl, rfl, rfl, rfl, rfl, rfl, hp2, hpa, Or.inl ⟨rfl, rfl⟩⟩
          | false =>
            cases hpb : pushAll hp2 claimed0 with
            | mk hp3 st3 =>
              cases st3 with
              | error e2 =>
                have hcomp : runGetBatch st peer size false =
                    ({st with heap := hp3, tried := tr}, .raised) := by
                  unfold runGetBatch
                  simp only [hgo, hpa, hpb, Bool.false_eq_true, if_false]
                rw [hso, hcomp] at heq
                exact absurd (congrArg Prod.snd heq) (by simp)
              | ok u2 =>
                have hcomp : runGetBatch st peer size false =
                    ({st with heap := hp3, tried := tr, inflight := st.inflight ++ [(peer, claimed0)]},
                     .batch claimed0 invItems) := by
                  unfold runGetBatch
                  simp only [hgo, hpa, hpb, Bool.false_eq_true, if_false]
                rw [hso, hcomp] at heq
                have hsnd := congrArg Prod.snd heq
                simp only [GBOut.batch.injEq] at hsnd
                obtain ⟨hc, hi⟩ := hsnd
                subst hc
                subst hi
                have htyped : ({st with heap := hp3, tried := tr, inflight := st.inflight ++ [(peer, claimed0)]} : BfState) = st' :=
                  congrArg Prod.fst heq
                subst htyped
                exact ⟨hp, tr, skipped, rfl, rfl, rfl, rfl, rfl, rfl, hp2, hpa,
                  Or.inr ⟨rfl, hp3, hpb, rfl⟩⟩


theorem tried_update_mono (tried : List (Nat × List Nat)) (k peer : Nat) :
    ∀ fid q, q ∈ (alookup tried fid).getD ([] : List Nat) →
      q ∈ (alookup (aupdate tried k ((alookup tried k).getD [] ++ [peer])) fid).getD [] := by
  intro fid q hq
  by_cases hk : k = fid
  · subst hk
    rw [alookup_aupdate_self]
    exact List.mem_append_left _ hq
  · rw [alookup_aupdate_ne _ _ _ _ hk]
    exact hq

/-- Master structural lemma for the `_get_batch` claim loop: `peers_tried`
sets only grow; every claimed tuple either was already claimed or came
off the queue pending and untried by this peer and is tried afterwards;
the loop only moves tuples between the queue, the skipped list and the
claimed list; `peers_tried` entries are created only for queued tuples;
`inv_items` tracks the claimed hashes; and (on normal exit) pending
tuples are never silently dropped. -/
theorem getBatchGo_main (results : List (Nat × Block)) (peer size : Nat) :
    ∀ (fuel : Nat) (heap : List BfItem) (tried : List (Nat × List Nat))
      (skipped : List BfItem) (inv : List (List Nat)) (claimed : List BfItem),
      (∀ fid q, q ∈ (alookup tried fid).getD ([] : List Nat) →
        q ∈ (alookup (getBatchGo results peer size fuel heap tried skipped inv claimed).tried
          fid).getD []) ∧
      (∀ x ∈ (getBatchGo results peer size fuel heap tried skipped inv claimed).claimed,
        x ∈ claimed ∨
        (x ∈ heap ∧ alookup results x.fid = none ∧
          peer ∉ (alookup tried x.fid).getD ([] : List Nat) ∧
          peer ∈ (alookup (getBatchGo results peer size fuel heap tried skipped inv
            claimed).tried x.fid).getD [])) ∧
      (∀ x ∈ (getBatchGo results peer size fuel heap tried skipped inv claimed).heap,
        x ∈ heap) ∧
      (∀ x ∈ (getBatchGo results peer size fuel heap tried skipped inv claimed).skipped,
        x ∈ skipped ∨ x ∈ heap) ∧
      (∀ fid, (alookup (getBatchGo results peer size fuel heap tried skipped inv
          claimed).tried fid).isSome = true →
        (alookup tried fid).isSome = true ∨ fid ∈ heap.map BfItem.fid) ∧
      (∃ newc, (getBatchGo results peer size fuel heap tried skipped inv claimed).claimed =
          claimed ++ newc ∧
        (getBatchGo results peer size fuel heap tried skipped inv claimed).invItems =
          inv ++ newc.map BfItem.bh) ∧
      ((getBatchGo results peer size fuel heap tried skipped inv claimed).status = .ok →
        ∀ x ∈ heap, alookup results x.fid = none →
          x ∈ (getBatchGo results peer size fuel heap tried skipped inv claimed).heap ∨
          x ∈ (getBatchGo results peer size fuel heap tried skipped inv claimed).skipped ∨
          x ∈ (getBatchGo results peer size fuel heap tried skipped inv claimed).claimed) ∧
      (∀ x ∈ skipped,
        x ∈ (getBatchGo results peer size fuel heap tried skipped inv claimed).skipped) := by
  intro fuel
  induction fuel with
  | zero =>
    intro heap tried skipped inv claimed
    simp only [getBatchGo]
    refine ⟨fun fid q hq => hq, fun x hx => Or.inl hx, fun x hx => hx,
      fun x hx => Or.inl hx, fun fid hs => Or.inl hs,
      ⟨[], by simp, by simp⟩, ?_, fun x hx => hx⟩
    intro hst
    cases hst
  | succ f ih =>
    intro heap tried skipped inv claimed
    simp only [getBatchGo]
    by_cases h1 : claimed.length ≥ size
    · simp only [h1, if_true]
      exact ⟨fun fid q hq => hq, fun x hx => Or.inl hx, fun x hx => hx,
        fun x hx => Or.inl hx, fun fid hs => Or.inl hs,
        ⟨[], by simp, by simp⟩, fun _ x hx _ => Or.inl hx, fun x hx => hx⟩
    · simp only [h1, if_false]
      by_cases h2 : (heap.isEmpty && decide (0 < claimed.length)) = true
      · simp only [h2, if_true]
        exact ⟨fun fid q hq => hq, fun x hx => Or.inl hx, fun x hx => hx,
          fun x hx => Or.inl hx, fun fid hs => Or.inl hs,
          ⟨[], by simp, by simp⟩, fun _ x hx _ => Or.inl hx, fun x hx => hx⟩
      · simp only [h2, if_false]
        by_cases h3 : heap.isEmpty = true
        · simp only [h3, if_true]
          refine ⟨fun fid q hq => hq, fun x hx => Or.inl hx, fun x hx => hx,
            fun x hx => Or.inl hx, fun fid hs => Or.inl hs,
            ⟨[], by simp, by simp⟩, ?_, fun x hx => hx⟩
          intro hst
          cases hst
        · simp only [h3, if_false]
          cases hpop : heappop cmpE heap with
          | mk hp st =>
            cases st with
            | error e =>
              refine ⟨fun fid q hq => hq, fun x hx => Or.inl hx,
                fun x hx => heappop_subset cmpE heap x (by rw [hpop]; exact hx),
                fun x hx => Or.inl hx, fun fid hs => Or.inl hs,
                ⟨[], by simp, by simp⟩, ?_, fun x hx => hx⟩
              intro hst
              cases hst
            | ok oitem =>
              cases oitem with
              | none =>
                refine ⟨fun fid q hq => hq, fun x hx => Or.inl hx,
                  fun x hx => heappop_subset cmpE heap x (by rw [hpop]; exact hx),
                  fun x hx => Or.inl hx, fun fid hs => Or.inl hs,
                  ⟨[], by simp, by simp⟩, ?_, fun x hx => hx⟩
                intro hst
                cases hst
              | some item =>
                obtain ⟨hroot, hperm, hlen⟩ := heappop_perm_of_ok cmpE heap hp item hpop
                have hitem : item ∈ heap := hperm.subset (List.mem_cons_self _ _)
                have hhp : ∀ x ∈ hp, x ∈ heap := fun x hx =>
                  hperm.subset (List.mem_cons_of_mem _ hx)
                have hhpf : ∀ fid, fid ∈ hp.map BfItem.fid → fid ∈ heap.map BfItem.fid := by
                  intro fid hf
                  obtain ⟨x, hx, hxe⟩ := List.mem_map.mp hf
                  exact hxe ▸ List.mem_map_of_mem BfItem.fid (hhp x hx)
                have hsplit : ∀ x ∈ heap, x = item ∨ x ∈ hp := by
                  intro x hx
                  exact List.mem_cons.mp (hperm.mem_iff.mpr hx)
                by_cases h4 : (alookup results item.fid).isSome = true
                · -- resolved: the tuple is discarded
                  simp only [h4, if_true]
                  obtain ⟨ca, cb, cc, cd, ce, cf, cg, chh⟩ :=
                    ih hp tried skipped inv claimed
                  refine ⟨ca, ?_, fun x hx => hhp x (cc x hx), ?_, ?_, cf, ?_, chh⟩
                  · intro x hx
                    rcases cb x hx with hc1 | ⟨hmem, hrest⟩
                    · exact Or.inl hc1
                    · exact Or.inr ⟨hhp x hmem, hrest⟩
                  · intro x hx
                    rcases cd x hx with hc1 | hc1
                    · exact Or.inl hc1
                    · exact Or.inr (hhp x hc1)
                  · intro fid hs
                    rcases ce fid hs with hc1 | hc1
                    · exact Or.inl hc1
                    · exact Or.inr (hhpf fid hc1)
                  · intro hst x hx hpend
                    rcases hsplit x hx with hc1 | hc1
                    · exfalso
                      rw [hc1] at hpend
                      rw [hpend] at h4
                      simp at h4
                    · exact cg hst x hc1 hpend
                · simp only [h4, if_false]
                  by_cases h5 : peer ∈ (alookup tried item.fid).getD ([] : List Nat)
                  · -- already asked: the tuple goes to `skipped`
                    simp only [h5, if_true]
                    obtain ⟨ca, cb, cc, cd, ce, cf, cg, chh⟩ :=
                      ih hp tried (skipped ++ [item]) inv claimed
                    refine ⟨ca, ?_, fun x hx => hhp x (cc x hx), ?_, ?_, cf, ?_, ?_⟩
                    · intro x hx
                      rcases cb x hx with hc1 | ⟨hmem, hrest⟩
                      · exact Or.inl hc1
                      · exact Or.inr ⟨hhp x hmem, hrest⟩
                    · intro x hx
                      rcases cd x hx with hc1 | hc1
                      · rcases List.mem_append.mp hc1 with hc2 | hc2
                        · exact Or.inl hc2
                        · exact Or.inr (List.mem_singleton.mp hc2 ▸ hitem)
                      · exact Or.inr (hhp x hc1)
                    · intro fid hs
                      rcases ce fid hs with hc1 | hc1
                      · exact Or.inl hc1
                      · exact Or.inr (hhpf fid hc1)
                    · intro hst x hx hpend
                      rcases hsplit x hx with hc1 | hc1
                      · refine Or.inr (Or.inl ?_)
                        rw [hc1]
                        exact chh item (List.mem_append_right skipped
                          (List.mem_singleton_self item))
                      · exact cg hst x hc1 hpend
                    · intro x hx
                      exact chh x (List.mem_append_left _ hx)
                  · -- fresh for this peer: claim it
                    simp only [h5, if_false]
                    obtain ⟨ca, cb, cc, cd, ce, cf, cg, chh⟩ :=
                      ih hp (aupdate tried item.fid
                        ((alookup tried item.fid).getD [] ++ [peer]))
                        skipped (inv ++ [item.bh]) (claimed ++ [item])
                    have hpend4 : alookup results item.fid = none := by
                      cases hq : alookup results item.fid with
                      | none => rfl
                      | some b => rw [hq] at h4; simp at h4
                    have hmono := tried_update_mono tried item.fid peer
                    refine ⟨fun fid q hq => ca fid q (hmono fid q hq), ?_,
                      fun x hx => hhp x (cc x hx), ?_, ?_, ?_, ?_, chh⟩
                    · intro x hx
                      rcases cb x hx with hc1 | ⟨hmem, hnone, hnotin, hin⟩
                      · rcases List.mem_append.mp hc1 with hc2 | hc2
                        · exact Or.inl hc2
                        · have hxi : x = item := List.mem_singleton.mp hc2
                          subst hxi
                          refine Or.inr ⟨hitem, hpend4, h5, ?_⟩
                          apply ca x.fid peer
                          rw [alookup_aupdate_self]
                          exact List.mem_append_right _ (List.mem_singleton_self peer)
                      · refine Or.inr ⟨hhp x hmem, hnone, ?_, hin⟩
                        intro hin0
                        exact hnotin (hmono x.fid peer hin0)
                    · intro x hx
                      rcases cd x hx with hc1 | hc1
                      · exact Or.inl hc1
                      · exact Or.inr (hhp x hc1)
                    · intro fid hs
                      rcases ce fid hs with hc1 | hc1
                      · by_cases hfi : item.fid = fid
                        · exact Or.inr (hfi ▸ List.mem_map_of_mem BfItem.fid hitem)
                        · rw [alookup_aupdate_ne _ _ _ _ hfi] at hc1
                          exact Or.inl hc1
                      · exact Or.inr (hhpf fid hc1)
                    · obtain ⟨newc, hc1, hc2⟩ := cf
                      refine ⟨item :: newc, ?_, ?_⟩
                      · rw [List.append_cons claimed item newc]
                        exact hc1
                      · rw [List.map_cons, List.append_cons inv item.bh (List.map BfItem.bh newc)]
                        exact hc2
                    · intro hst x hx hpend
                      rcases hsplit x hx with hc1 | hc1
                      · refine Or.inr (Or.inr ?_)
                        obtain ⟨newc, hc2, _⟩ := cf
                        have hm : x ∈ (claimed ++ [item]) ++ newc := by
                          rw [hc1]
                          exact List.mem_append_left _ (List.mem_append_right claimed
                            (List.mem_singleton_self item))
                        exact hc2.symm ▸ hm
                      · exact cg hst x hc1 hpend

theorem alookup_isSome_of_mem {κ ν : Type} [DecidableEq κ] :
    ∀ (l : List (κ × ν)) (kv : κ × ν), kv ∈ l → (alookup l kv.1).isSome = true := by
  intro l
  induction l with
  | nil => intro kv hkv; simp at hkv
  | cons p t ih =>
    intro kv hkv
    obtain ⟨k0, v0⟩ := p
    rcases List.mem_cons.mp hkv with h1 | h1
    · subst h1
      simp [alookup]
    · by_cases hk : k0 = kv.1
      · simp [alookup, hk]
      · simp only [alookup, hk, if_false]
        exact ih kv h1

theorem mem_of_alookup_isSome {κ ν : Type} [DecidableEq κ] :
    ∀ (l : List (κ × ν)) (k : κ), (alookup l k).isSome = true → ∃ v, (k, v) ∈ l := by
  intro l
  induction l with
  | nil => intro k h; simp [alookup] at h
  | cons p t ih =>
    intro k h
    obtain ⟨k0, v0⟩ := p
    by_cases hk : k0 = k
    · subst hk
      exact ⟨v0, List.mem_cons_self _ _⟩
    · simp only [alookup, hk, if_false] at h
      obtain ⟨v, hv⟩ := ih k h
      exact ⟨v, List.mem_cons_of_mem _ hv⟩

theorem alookup_none_of_keys_lt (l : List (Nat × List Nat)) (n : Nat)
    (h : ∀ kv ∈ l, kv.1 < n) : alookup l n = none := by
  cases hq : alookup l n with
  | none => rfl
  | some v =>
    exfalso
    have : (alookup l n).isSome = true := by rw [hq]; rfl
    obtain ⟨w, hw⟩ := mem_of_alookup_isSome l n this
    have := h (n, w) hw
    omega

/-- The claimed list of the `_get_batch` loop never repeats a future, and
every claimed future has this peer recorded in its `peers_tried`. -/
theorem getBatchGo_claimed_nodup (results : List (Nat × Block)) (peer size : Nat) :
    ∀ (fuel : Nat) (heap : List BfItem) (tried : List (Nat × List Nat))
      (skipped : List BfItem) (inv : List (List Nat)) (claimed : List BfItem),
      (∀ a ∈ claimed, peer ∈ (alookup tried a.fid).getD ([] : List Nat)) →
      claimed.Pairwise (fun a b => a.fid ≠ b.fid) →
      (getBatchGo results peer size fuel heap tried skipped inv claimed).claimed.Pairwise
        (fun a b => a.fid ≠ b.fid) := by
  intro fuel
  induction fuel with
  | zero =>
    intro heap tried skipped inv claimed _ hpw
    simpa [getBatchGo] using hpw
  | succ f ih =>
    intro heap tried skipped inv claimed htr hpw
    simp only [getBatchGo]
    by_cases h1 : claimed.length ≥ size
    · simpa [h1] using hpw
    · simp only [h1, if_false]
      by_cases h2 : (heap.isEmpty && decide (0 < claimed.length)) = true
      · simpa [h2] using hpw
      · simp only [h2, if_false]
        by_cases h3 : heap.isEmpty = true
        · simpa [h3] using hpw
        · simp only [h3, if_false]
          cases hpop : heappop cmpE heap with
          | mk hp st =>
            cases st with
            | error e => simpa using hpw
            | ok oitem =>
              cases oitem with
              | none => simpa using hpw
              | some item =>
                by_cases h4 : (alookup results item.fid).isSome = true
                · simp only [h4, if_true]
                  exact ih hp tried skipped inv claimed htr hpw
                · simp only [h4, if_false]
                  by_cases h5 : peer ∈ (alookup tried item.fid).getD ([] : List Nat)
                  · simp only [h5, if_true]
                    exact ih hp tried (skipped ++ [item]) inv claimed htr hpw
                  · simp only [h5, if_false]
                    apply ih
                    · intro a ha
                      rcases List.mem_append.mp ha with hc1 | hc1
                      · exact tried_update_mono tried item.fid peer a.fid peer (htr a hc1)
                      · rw [List.mem_singleton.mp hc1, alookup_aupdate_self]
                        exact List.mem_append_right _ (List.mem_singleton_self peer)
                    · rw [List.pairwise_append]
                      refine ⟨hpw, List.pairwise_singleton _ _, ?_⟩
                      intro a ha b hb
                      rw [List.mem_singleton.mp hb]
                      intro hfe
                      apply h5
                      rw [← hfe]
                      exact htr a ha

/-- State-level facts about `_get_batch` valid for every outcome. -/
theorem runGetBatch_state_inv (st : BfState) (peer size : Nat) (sendOk : Bool) :
    ∃ hp tr skipped invI claimedI status,
      getBatchGo st.results peer size (st.heap.length + 1) st.heap st.tried [] [] [] =
        ⟨hp, tr, skipped, invI, claimedI, status⟩ ∧
      (runGetBatch st peer size sendOk).1.tried = tr ∧
      (runGetBatch st peer size sendOk).1.results = st.results ∧
      (runGetBatch st peer size sendOk).1.registry = st.registry ∧
      (runGetBatch st peer size sendOk).1.nextFid = st.nextFid ∧
      (∀ x ∈ (runGetBatch st peer size sendOk).1.heap,
        x ∈ hp ∨ x ∈ skipped ∨ x ∈ claimedI) ∧
      (∀ pb ∈ (runGetBatch st peer size sendOk).1.inflight,
        pb ∈ st.inflight ∨ pb = (peer, claimedI)) ∧
      (∀ claimed2 inv2, (runGetBatch st peer size sendOk).2 = .batch claimed2 inv2 →
        claimed2 = claimedI) := by
  cases hgo : getBatchGo st.results peer size (st.heap.length + 1) st.heap st.tried [] [] [] with
  | mk hp tr skipped invItems claimed0 status =>
    refine ⟨hp, tr, skipped, invItems, claimed0, status, rfl, ?_⟩
    cases status with
    | blocked =>
      have hcomp : runGetBatch st peer size sendOk =
          ({st with heap := hp, tried := tr}, .blocked) := by
        unfold runGetBatch
        simp only [hgo]
      rw [hcomp]
      exact ⟨rfl, rfl, rfl, rfl, fun x hx => Or.inl hx,
        fun pb hpb => Or.inl hpb, fun c2 i2 hc => by cases hc⟩
    | raised =>
      have hcomp : runGetBatch st peer size sendOk =
          ({st with heap := hp, tried := tr}, .raised) := by
        unfold runGetBatch
        simp only [hgo]
      rw [hcomp]
      exact ⟨rfl, rfl, rfl, rfl, fun x hx => Or.inl hx,
        fun pb hpb => Or.inl hpb, fun c2 i2 hc => by cases hc⟩
    | ok =>
      cases hpa : pushAll hp skipped with
      | mk hp2 st2 =>
        have hsub2 : ∀ x ∈ hp2, x ∈ hp ∨ x ∈ skipped := by
          intro x hx
          exact pushAll_subset skipped hp x (by rw [hpa]; exact hx)
        cases st2 with
        | error e =>
          have hcomp : runGetBatch st peer size sendOk =
              ({st with heap := hp2, tried := tr}, .raised) := by
            unfold runGetBatch
            simp only [hgo, hpa]
          rw [hcomp]
          exact ⟨rfl, rfl, rfl, rfl,
            fun x hx => (hsub2 x hx).elim Or.inl (fun h => Or.inr (Or.inl h)),
            fun pb hpb => Or.inl hpb, fun c2 i2 hc => by cases hc⟩
        | ok u =>
          cases hso : sendOk with
          | true =>
            have hcomp : runGetBatch st peer size true =
                ({st with heap := hp2, tried := tr, inflight := st.inflight ++ [(peer, claimed0)]},
                 .batch claimed0 invItems) := by
              unfold runGetBatch
              simp only [hgo, hpa, if_true]
            rw [hcomp]
            refine ⟨rfl, rfl, rfl, rfl,
              fun x hx => (hsub2 x hx).elim Or.inl (fun h => Or.inr (Or.inl h)), ?_, ?_⟩
            · intro pb hpb
              rcases List.mem_append.mp hpb with h1 | h1
              · exact Or.inl h1
              · exact Or.inr (List.mem_singleton.mp h1)
            · intro c2 i2 hc
              injection hc with hc1 hc2
              exact hc1.symm
          | false =>
            cases hpb : pushAll hp2 claimed0 with
            | mk hp3 st3 =>
              have hsub3 : ∀ x ∈ hp3, x ∈ hp2 ∨ x ∈ claimed0 := by
                intro x hx
                exact pushAll_subset claimed0 hp2 x (by rw [hpb]; exact hx)
              cases st3 with
              | error e2 =>
                have hcomp : runGetBatch st peer size false =
                    ({st with heap := hp3, tried := tr}, .raised) := by
                  unfold runGetBatch
                  simp only [hgo, hpa, hpb, Bool.false_eq_true, if_false]
                rw [hcomp]
                refine ⟨rfl, rfl, rfl, rfl, ?_, fun pb hpb2 => Or.inl hpb2,
                  fun c2 i2 hc => by cases hc⟩
                intro x hx
                rcases hsub3 x hx with h1 | h1
                · exact (hsub2 x h1).elim Or.inl (fun h => Or.inr (Or.inl h))
                · exact Or.inr (Or.inr h1)
              | ok u2 =>
                have hcomp : runGetBatch st peer size false =
                    ({st with heap := hp3, tried := tr, inflight := st.inflight ++ [(peer, claimed0)]},
                     .batch claimed0 invItems) := by
                  unfold runGetBatch
                  simp only [hgo, hpa, hpb, Bool.false_eq_true, if_false]
                rw [hcomp]
                refine ⟨rfl, rfl, rfl, rfl, ?_, ?_, ?_⟩
                · intro x hx
                  rcases hsub3 x hx with h1 | h1
                  · exact (hsub2 x h1).elim Or.inl (fun h => Or.inr (Or.inl h))
                  · exact Or.inr (Or.inr h1)
                · intro pb hpb2
                  rcases List.mem_append.mp hpb2 with h1 | h1
                  · exact Or.inl h1
                  · exact Or.inr (List.mem_singleton.mp h1)
                · intro c2 i2 hc
                  injection hc with hc1 hc2
                  exact hc1.symm

/-- C6: CORRECTED. The queue tuples hold strong references to the
deliveries, so a delivery registered by `fetch_blocks` cannot be reaped
while its request is still queued, and `_get_batch` does not consult the
weak registry at all — the discard test is `f.done()`.  What does hold:
a `_get_batch` claim discards exactly the already-resolved requests —
every request in the batch it returns is unresolved at the call, and the
`getdata` inventory sent lists exactly the hashes of the claimed
requests (so no discarded request is ever sent). -/
theorem C6_resolved_discarded_not_sent (st : BfState) (peer size : Nat)
    (sendOk : Bool) (st' : BfState) (claimed : List BfItem)
    (inv : List (List Nat))
    (heq : runGetBatch st peer size sendOk = (st', .batch claimed inv)) :
    inv = claimed.map BfItem.bh ∧
    ∀ x ∈ claimed, alookup st.results x.fid = none := by
  obtain ⟨hp, tr, skipped, hgo, -, -, -, -, -, hp2, hpa, hcase⟩ :=
    runGetBatch_batch_inv st peer size sendOk st' claimed inv heq
  obtain ⟨-, hchar, -, -, -, ⟨newc, hcl, hinv⟩, -, -⟩ :=
    getBatchGo_main st.results peer size (st.heap.length + 1) st.heap st.tried [] [] []
  rw [hgo] at hchar hcl hinv
  simp only [List.nil_append] at hcl hinv
  constructor
  · rw [hinv, hcl]
  · intro x hx
    rcases hchar x hx with h1 | h1
    · simp at h1
    · exact h1.2.1

theorem C6_resolved_discarded_not_sent_witness :
    ([[1]] : List (List Nat)) = ([⟨0, [1], 0⟩] : List BfItem).map BfItem.bh ∧
    ∀ x ∈ ([⟨0, [1], 0⟩] : List BfItem),
      alookup (runFetch bfInit [([1], 0)]).1.results x.fid = none :=
  C6_resolved_discarded_not_sent (runFetch bfInit [([1], 0)]).1 3 1 true
    ⟨[], [(0, [3])], [], [([1], 0)], [(3, [⟨0, [1], 0⟩])], 1⟩
    [⟨0, [1], 0⟩] [[1]] rfl

/-- The claim loop only moves tuples between the queue, the skipped list
and the claimed list, so future ids that start pairwise distinct stay
pairwise distinct across the three lists (on a normal exit). -/
theorem getBatchGo_fid_nodup (results : List (Nat × Block)) (peer size : Nat) :
    ∀ (fuel : Nat) (heap : List BfItem) (tried : List (Nat × List Nat))
      (skipped : List BfItem) (inv : List (List Nat)) (claimed : List BfItem),
      ((claimed ++ (skipped ++ heap)).map BfItem.fid).Nodup →
      (getBatchGo results peer size fuel heap tried skipped inv claimed).status = .ok →
      (((getBatchGo results peer size fuel heap tried skipped inv claimed).claimed ++
        ((getBatchGo results peer size fuel heap tried skipped inv claimed).skipped ++
         (getBatchGo results peer size fuel heap tried skipped inv claimed).heap)).map
        BfItem.fid).Nodup := by
  intro fuel
  induction fuel with
  | zero =>
    intro heap tried skipped inv claimed hnd hst
    simp [getBatchGo] at hst
  | succ f ih =>
    intro heap tried skipped inv claimed hnd
    simp only [getBatchGo]
    by_cases h1 : claimed.length ≥ size
    · intro _
      simpa [h1] using hnd
    · simp only [h1, if_false]
      by_cases h2 : (heap.isEmpty && decide (0 < claimed.length)) = true
      · intro _
        simpa [h2] using hnd
      · simp only [h2, if_false]
        by_cases h3 : heap.isEmpty = true
        · simp only [h3, if_true]
          intro hst
          simp at hst
        · simp only [h3, if_false]
          cases hpop : heappop cmpE heap with
          | mk hp st =>
            cases st with
            | error e =>
              intro hst
              simp at hst
            | ok oitem =>
              cases oitem with
              | none =>
                intro hst
                simp at hst
              | some item =>
                obtain ⟨-, hperm, -⟩ := heappop_perm_of_ok cmpE heap hp item hpop
                have base : (claimed ++ (skipped ++ (item :: hp))).Perm
                    (claimed ++ (skipped ++ heap)) :=
                  (hperm.append_left skipped).append_left claimed
                have hnd0 : ((claimed ++ (skipped ++ (item :: hp))).map BfItem.fid).Nodup :=
                  ((base.map BfItem.fid).nodup_iff).mpr hnd
                by_cases h4 : (alookup results item.fid).isSome = true
                · simp only [h4, if_true]
                  have hsub : List.Sublist (claimed ++ (skipped ++ hp))
                      (claimed ++ (skipped ++ (item :: hp))) :=
                    ((List.sublist_cons_self item hp).append_left skipped).append_left claimed
                  exact ih hp tried skipped inv claimed
                    (List.Nodup.sublist (hsub.map _) hnd0)
                · simp only [h4, if_false]
                  by_cases h5 : peer ∈ (alookup tried item.fid).getD ([] : List Nat)
                  · simp only [h5, if_true]
                    have he : (skipped ++ [item]) ++ hp = skipped ++ (item :: hp) := by
                      simp
                    refine ih hp tried (skipped ++ [item]) inv claimed ?_
                    rw [he]
                    exact hnd0
                  · simp only [h5, if_false]
                    have he : (claimed ++ [item]) ++ (skipped ++ hp) =
                        claimed ++ (item :: (skipped ++ hp)) := by
                      simp
                    have hpm : (claimed ++ (item :: (skipped ++ hp))).Perm
                        (claimed ++ (skipped ++ (item :: hp))) :=
                      (List.perm_middle.symm).append_left claimed
                    refine ih hp _ skipped _ (claimed ++ [item]) ?_
                    rw [he]
                    exact ((hpm.map BfItem.fid).nodup_iff).mpr hnd0

/-- C5: CORRECTED on the send-failure path (see the counterexample:
after `peer.send_msg` raises, `_get_batch` requeues every claimed tuple
yet still returns the claimed futures, which the fetcher loop records as
an in-flight batch — such a request is queued and batch-held at once).
The exclusivity that does hold: when the send succeeds, no request of
the returned batch is still on the priority queue afterwards, provided
the queued requests had pairwise-distinct futures to begin with. -/
theorem C5_claimed_not_queued_after_send (st : BfState) (peer size : Nat)
    (st' : BfState) (claimed : List BfItem) (inv : List (List Nat))
    (hnd : (st.heap.map BfItem.fid).Nodup)
    (heq : runGetBatch st peer size true = (st', .batch claimed inv)) :
    ∀ x ∈ claimed, x.fid ∉ st'.heap.map BfItem.fid := by
  obtain ⟨hp, tr, skipped, hgo, -, -, -, -, -, hp2, hpa, hcase⟩ :=
    runGetBatch_batch_inv st peer size true st' claimed inv heq
  rcases hcase with ⟨-, hh⟩ | ⟨hfalse, -⟩
  swap
  · cases hfalse
  have hloop := getBatchGo_fid_nodup st.results peer size (st.heap.length + 1)
    st.heap st.tried [] [] [] (by simpa using hnd) (by rw [hgo])
  rw [hgo] at hloop
  simp only [List.nil_append] at hloop
  rw [List.map_append] at hloop
  have disj := (List.nodup_append.mp hloop).2.2
  have hperm2 : hp2.Perm (hp ++ skipped) := pushAll_perm_of_ok skipped hp hp2 hpa
  intro x hx hmem
  rw [hh] at hmem
  have h1 : x.fid ∈ (hp ++ skipped).map BfItem.fid :=
    ((hperm2.map BfItem.fid).mem_iff).mp hmem
  have h2 : x.fid ∈ (skipped ++ hp).map BfItem.fid := by
    rw [List.map_append] at h1 ⊢
    rcases List.mem_append.mp h1 with h | h
    · exact List.mem_append_right _ h
    · exact List.mem_append_left _ h
  exact disj (List.mem_map_of_mem BfItem.fid hx) h2

theorem C5_claimed_not_queued_after_send_witness :
    (⟨0, [1], 0⟩ : BfItem) ∈ ([⟨0, [1], 0⟩] : List BfItem) ∧
    (⟨0, [1], 0⟩ : BfItem).fid ∉
      (⟨[], [(0, [3])], [], [([1], 0)], [(3, [⟨0, [1], 0⟩])], 1⟩ :
        BfState).heap.map BfItem.fid :=
  ⟨by decide,
   C5_claimed_not_queued_after_send (runFetch bfInit [([1], 0)]).1 3 1
    ⟨[], [(0, [3])], [], [([1], 0)], [(3, [⟨0, [1], 0⟩])], 1⟩
    [⟨0, [1], 0⟩] [[1]] (by decide) rfl ⟨0, [1], 0⟩ (by decide)⟩

theorem keyInjOn_subset {l l' : List BfItem} (hsub : ∀ x ∈ l', x ∈ l)
    (hK : KeyInjOn l) : KeyInjOn l' :=
  fun x hx y hy hk => hK x (hsub x hx) y (hsub y hy) hk

theorem root_min_mem {l : List BfItem} (hH : IsHeap l) :
    ∀ b ∈ l, keyLt b (l.getD 0 default) = false := by
  intro b hb
  obtain ⟨i, hi, hbi⟩ := List.getElem_of_mem hb
  have h1 := isHeap_root_min hH i hi
  rw [List.getD_eq_getElem l default hi, hbi] at h1
  exact h1

/-- The claim loop dequeues in strictly increasing `(priority,
block_hash)` key order: the claimed list stays strictly sorted. -/
theorem getBatchGo_sorted (results : List (Nat × Block)) (peer size : Nat) :
    ∀ (fuel : Nat) (heap : List BfItem) (tried : List (Nat × List Nat))
      (skipped : List BfItem) (inv : List (List Nat)) (claimed : List BfItem),
      IsHeap heap →
      KeyInjOn (claimed ++ heap) →
      (∀ a ∈ claimed, peer ∈ (alookup tried a.fid).getD ([] : List Nat)) →
      (∀ a ∈ claimed, ∀ b ∈ heap, keyLt b a = false) →
      claimed.Pairwise (fun a b => keyLt a b = true) →
      (getBatchGo results peer size fuel heap tried skipped inv claimed).claimed.Pairwise
        (fun a b => keyLt a b = true) := by
  intro fuel
  induction fuel with
  | zero =>
    intro heap tried skipped inv claimed _ _ _ _ hsort
    simpa [getBatchGo] using hsort
  | succ f ih =>
    intro heap tried skipped inv claimed hH hK htr hCH hsort
    simp only [getBatchGo]
    by_cases h1 : claimed.length ≥ size
    · simpa [h1] using hsort
    · simp only [h1, if_false]
      by_cases h2 : (heap.isEmpty && decide (0 < claimed.length)) = true
      · simpa [h2] using hsort
      · simp only [h2, if_false]
        by_cases h3 : heap.isEmpty = true
        · simpa [h3] using hsort
        · simp only [h3, if_false]
          have hne : heap ≠ [] := by
            cases heap with
            | nil => simp at h3
            | cons a t => simp
          have hKh : KeyInjOn heap :=
            keyInjOn_subset (fun x hx => List.mem_append_right claimed hx) hK
          obtain ⟨h', hpopeq, hperm', hH', hK'⟩ := heappop_cmpE_spec heap hKh hH hne
          cases hpop : heappop cmpE heap with
          | mk hp st =>
            rw [hpop] at hpopeq
            injection hpopeq with he1 he2
            subst he1
            cases st with
            | error e => exact absurd he2 (by simp)
            | ok oitem =>
              cases oitem with
              | none => exact absurd he2 (by simp)
              | some item =>
                have hitem : item = heap.getD 0 default := by
                  injection he2 with he3
                  injection he3
                subst hitem
                have hsubhp : ∀ x ∈ hp, x ∈ heap := fun x hx =>
                  hperm'.subset (List.mem_cons_of_mem _ hx)
                have hCH' : ∀ a ∈ claimed, ∀ b ∈ hp, keyLt b a = false :=
                  fun a ha b hb => hCH a ha b (hsubhp b hb)
                have hK2 : KeyInjOn (claimed ++ hp) := by
                  apply keyInjOn_subset ?_ hK
                  intro x hx
                  rcases List.mem_append.mp hx with h | h
                  · exact List.mem_append_left _ h
                  · exact List.mem_append_right _ (hsubhp x h)
                by_cases h4 : (alookup results (heap.getD 0 default).fid).isSome = true
                · simp only [h4, if_true]
                  exact ih hp tried skipped inv claimed hH' hK2 htr hCH' hsort
                · simp only [h4, if_false]
                  by_cases h5 : peer ∈
                      (alookup tried (heap.getD 0 default).fid).getD ([] : List Nat)
                  · simp only [h5, if_true]
                    exact ih hp tried (skipped ++ [heap.getD 0 default]) inv claimed
                      hH' hK2 htr hCH' hsort
                  · simp only [h5, if_false]
                    have hroot : ∀ b ∈ heap, keyLt b (heap.getD 0 default) = false :=
                      root_min_mem hH
                    have hstrict : ∀ a ∈ claimed, keyLt a (heap.getD 0 default) = true := by
                      intro a ha
                      cases hlt : keyLt a (heap.getD 0 default) with
                      | true => rfl
                      | false =>
                        exfalso
                        have hge : keyLt (heap.getD 0 default) a = false :=
                          hCH a ha _ (getD_mem heap 0 default (by
                            cases heap with
                            | nil => exact absurd rfl hne
                            | cons x t => simp))
                        have hkeq : bfKey a = bfKey (heap.getD 0 default) :=
                          keyLt_conn hlt hge
                        have haeq : a = heap.getD 0 default :=
                          hK a (List.mem_append_left _ ha)
                            (heap.getD 0 default)
                            (List.mem_append_right _ (getD_mem heap 0 default (by
                              cases heap with
                              | nil => exact absurd rfl hne
                              | cons x t => simp)))
                            hkeq
                        apply h5
                        rw [← haeq]
                        exact htr a ha
                    apply ih hp _ skipped _ (claimed ++ [heap.getD 0 default]) hH' ?_ ?_ ?_ ?_
                    · apply keyInjOn_subset ?_ hK
                      intro x hx
                      rcases List.mem_append.mp hx with h | h
                      · rcases List.mem_append.mp h with h6 | h6
                        · exact List.mem_append_left _ h6
                        · rw [List.mem_singleton.mp h6]
                          exact List.mem_append_right _ (getD_mem heap 0 default (by
                            cases heap with
                            | nil => exact absurd rfl hne
                            | cons x t => simp))
                      · exact List.mem_append_right _ (hsubhp x h)
                    · intro a ha
                      rcases List.mem_append.mp ha with h6 | h6
                      · exact tried_update_mono tried (heap.getD 0 default).fid peer a.fid
                          peer (htr a h6)
                      · rw [List.mem_singleton.mp h6, alookup_aupdate_self]
                        exact List.mem_append_right _ (List.mem_singleton_self peer)
                    · intro a ha b hb
                      rcases List.mem_append.mp ha with h6 | h6
                      · exact hCH' a h6 b hb
                      · rw [List.mem_singleton.mp h6]
                        exact hroot b (hsubhp b hb)
                    · rw [List.pairwise_append]
                      refine ⟨hsort, List.pairwise_singleton _ _, ?_⟩
                      intro a ha b hb
                      rw [List.mem_singleton.mp hb]
                      exact hstrict a ha

/-- C2: CORRECTED. The queue entries are keyed `(priority, block_hash)`,
so equal priorities break ties by block-hash order, not by insertion
order — FIFO among equal priorities fails (see the counterexample, where
the later-inserted request with the smaller hash is claimed first).
What does hold: deliveries to a claimant are strictly in `(priority,
block_hash)` order — the batch `_get_batch` returns is strictly sorted
by that key whenever the queue is a well-formed heap with pairwise
distinct keys. -/
theorem C2_batch_sorted_by_key (st : BfState) (peer size : Nat) (sendOk : Bool)
    (st' : BfState) (claimed : List BfItem) (inv : List (List Nat))
    (hH : IsHeap st.heap) (hK : KeyInjOn st.heap)
    (heq : runGetBatch st peer size sendOk = (st', .batch claimed inv)) :
    claimed.Pairwise (fun a b => keyLt a b = true) := by
  obtain ⟨hp, tr, skipped, hgo, -⟩ :=
    runGetBatch_batch_inv st peer size sendOk st' claimed inv heq
  have hs := getBatchGo_sorted st.results peer size (st.heap.length + 1)
    st.heap st.tried [] [] [] hH (by simpa using hK)
    (by simp) (by simp) (by simp)
  rw [hgo] at hs
  simpa using hs

theorem C2_batch_sorted_by_key_witness :
    ([⟨0, [1], 0⟩] : List BfItem).Pairwise (fun a b => keyLt a b = true) :=
  C2_batch_sorted_by_key (runFetch bfInit [([1], 0)]).1 3 1 true
    ⟨[], [(0, [3])], [], [([1], 0)], [(3, [⟨0, [1], 0⟩])], 1⟩
    [⟨0, [1], 0⟩] [[1]]
    (by
      intro i h1 h2
      have h2b : i < ([(⟨0, [1], 0⟩ : BfItem)] : List BfItem).length := h2
      simp at h2b
      omega)
    (by
      intro x hx y hy hk
      have hx2 : x ∈ [(⟨0, [1], 0⟩ : BfItem)] := hx
      have hy2 : y ∈ [(⟨0, [1], 0⟩ : BfItem)] := hy
      rw [List.mem_singleton.mp hx2, List.mem_singleton.mp hy2])
    rfl

/-- Full specification of a `fetch_blocks` call whose pushes all succeed
(guaranteed when the old queue plus the new tuples are key-distinct):
future ids in input order, every new tuple on the queue, fresh empty
`peers_tried` sets, and last-wins registry entries. -/
theorem runFetch_spec : ∀ (pairs : List (List Nat × Int)) (st : BfState),
    IsHeap st.heap → KeyInjOn (st.heap ++ fetchItems st.nextFid pairs) →
    ∃ st', runFetch st pairs = (st', List.range' st.nextFid pairs.length, true) ∧
      st'.heap.Perm (st.heap ++ fetchItems st.nextFid pairs) ∧
      IsHeap st'.heap ∧ KeyInjOn st'.heap ∧
      st'.nextFid = st.nextFid + pairs.length ∧
      st'.results = st.results ∧ st'.inflight = st.inflight ∧
      (∀ fid, st.nextFid ≤ fid → fid < st.nextFid + pairs.length →
        alookup st'.tried fid = some []) ∧
      (∀ fid, alookup st'.tried fid = alookup st.tried fid ∨
        (st.nextFid ≤ fid ∧ fid < st.nextFid + pairs.length)) ∧
      (∀ bh, alookup st'.registry bh =
        match regAfter st.nextFid pairs bh with
        | some f => some f
        | none => alookup st.registry bh) := by
  intro pairs
  induction pairs with
  | nil =>
    intro st hH hK
    refine ⟨st, rfl, by simp [fetchItems], hH, ?_, by simp, rfl, rfl,
      ?_, fun fid => Or.inl rfl, ?_⟩
    · exact keyInjOn_subset (fun x hx => List.mem_append_left _ hx) hK
    · intro fid hle hlt
      simp at hlt
      omega
    · intro bh
      rfl
  | cons p rest ih =>
    obtain ⟨bh, pri⟩ := p
    intro st hH hK
    have hcarrier : st.heap ++ fetchItems st.nextFid ((bh, pri) :: rest) =
        st.heap ++ (⟨pri, bh, st.nextFid⟩ :: fetchItems (st.nextFid + 1) rest) := rfl
    rw [hcarrier] at hK
    have hKpush : KeyInjOn ((⟨pri, bh, st.nextFid⟩ : BfItem) :: st.heap) := by
      apply keyInjOn_subset ?_ hK
      intro x hx
      rcases List.mem_cons.mp hx with h | h
      · exact List.mem_append_right _ (by rw [h]; exact List.mem_cons_self _ _)
      · exact List.mem_append_left _ h
    obtain ⟨hp, hps, hpperm, hpH, hpK⟩ :=
      heappush_cmpE_spec st.heap (⟨pri, bh, st.nextFid⟩ : BfItem) hKpush hH
    have hK2 : KeyInjOn (hp ++ fetchItems (st.nextFid + 1) rest) := by
      apply keyInjOn_subset ?_ hK
      intro x hx
      rcases List.mem_append.mp hx with h | h
      · rcases List.mem_cons.mp (hpperm.subset h) with h2 | h2
        · exact List.mem_append_right _ (by rw [h2]; exact List.mem_cons_self _ _)
        · exact List.mem_append_left _ h2
      · exact List.mem_append_right _ (List.mem_cons_of_mem _ h)
    obtain ⟨st3, hr, hperm3, hH3, hK3, hnf3, hres3, hinf3, htrA, htrB, hreg3⟩ :=
      ih (⟨hp, aupdate st.tried st.nextFid [], st.results,
        aupdate st.registry bh st.nextFid, st.inflight, st.nextFid + 1⟩ : BfState)
        hpH hK2
    have hnf3b : st3.nextFid = st.nextFid + 1 + rest.length := hnf3
    have hres3b : st3.results = st.results := hres3
    have hinf3b : st3.inflight = st.inflight := hinf3
    have htrAb : ∀ fid, st.nextFid + 1 ≤ fid → fid < st.nextFid + 1 + rest.length →
        alookup st3.tried fid = some [] := htrA
    have htrBb : ∀ fid, alookup st3.tried fid =
        alookup (aupdate st.tried st.nextFid []) fid ∨
        (st.nextFid + 1 ≤ fid ∧ fid < st.nextFid + 1 + rest.length) := htrB
    have hreg3b : ∀ bh2, alookup st3.registry bh2 =
        match regAfter (st.nextFid + 1) rest bh2 with
        | some f => some f
        | none => alookup (aupdate st.registry bh st.nextFid) bh2 := hreg3
    refine ⟨st3, ?_, ?_, hH3, hK3, by simp only [List.length_cons]; omega,
      hres3b, hinf3b, ?_, ?_, ?_⟩
    · show runFetch st ((bh, pri) :: rest) =
        (st3, st.nextFid :: List.range' (st.nextFid + 1) rest.length, true)
      unfold runFetch
      simp only [hps, hr]
    · rw [hcarrier]
      refine hperm3.trans ?_
      refine (hpperm.append_right (fetchItems (st.nextFid + 1) rest)).trans ?_
      exact List.perm_middle.symm
    · intro fid hle hlt
      by_cases hfe : fid = st.nextFid
      · rcases htrBb fid with h | h
        · rw [h, hfe]
          exact alookup_aupdate_self st.tried st.nextFid []
        · omega
      · apply htrAb fid (by omega)
        simp only [List.length_cons] at hlt
        omega
    · intro fid
      rcases htrBb fid with h | h
      · by_cases hfe : fid = st.nextFid
        · subst hfe
          right
          simp only [List.length_cons]
          omega
        · left
          rw [h]
          exact alookup_aupdate_ne st.tried st.nextFid fid [] (fun he => hfe he.symm)
      · right
        simp only [List.length_cons]
        omega
    · intro bh2
      have h1 := hreg3b bh2
      have hra : regAfter st.nextFid ((bh, pri) :: rest) bh2 =
          match regAfter (st.nextFid + 1) rest bh2 with
          | some f => some f
          | none => if bh = bh2 then some st.nextFid else none := rfl
      rw [h1, hra]
      cases hcase : regAfter (st.nextFid + 1) rest bh2 with
      | some f => rfl
      | none =>
        show alookup (aupdate st.registry bh st.nextFid) bh2 =
          match (if bh = bh2 then some st.nextFid else none : Option Nat) with
          | some f => some f
          | none => alookup st.registry bh2
        by_cases hbe : bh = bh2
        · subst hbe
          simp only [if_pos rfl]
          exact alookup_aupdate_self st.registry bh st.nextFid
        · simp only [if_neg hbe]
          exact alookup_aupdate_ne st.registry bh bh2 st.nextFid hbe

/-- C8: CORRECTED. For duplicate hashes the spec promises only a
registry overwrite, but when a duplicated hash arrives with an equal
priority the `put_nowait` tuple comparison falls through to the
unorderable futures and raises `TypeError` mid-call (see the
counterexample): `fetch_blocks` propagates it and the caller receives no
future list.  The postcondition that holds, whenever the new tuples'
`(priority, block_hash)` keys are pairwise distinct from each other and
from the queued ones — in particular for duplicate hashes with distinct
priorities: one future per pair in input order, every tuple pushed with
an empty `peers_tried`, last-wins registry entries, and
`fetch_blocks([])` returns `[]` without touching the queue. -/
theorem C8_fetch_blocks_postcondition (st : BfState) (pairs : List (List Nat × Int))
    (hH : IsHeap st.heap)
    (hK : KeyInjOn (st.heap ++ fetchItems st.nextFid pairs)) :
    runFetch st [] = (st, [], true) ∧
    ∃ st', runFetch st pairs = (st', List.range' st.nextFid pairs.length, true) ∧
      st'.heap.Perm (st.heap ++ fetchItems st.nextFid pairs) ∧
      IsHeap st'.heap ∧
      st'.nextFid = st.nextFid + pairs.length ∧
      (∀ fid, st.nextFid ≤ fid → fid < st.nextFid + pairs.length →
        alookup st'.tried fid = some []) ∧
      (∀ bh, alookup st'.registry bh =
        match regAfter st.nextFid pairs bh with
        | some f => some f
        | none => alookup st.registry bh) := by
  obtain ⟨st', h1, h2, h3, -, h5, -, -, h8, -, h10⟩ := runFetch_spec pairs st hH hK
  exact ⟨rfl, st', h1, h2, h3, h5, h8, h10⟩

theorem C8_fetch_blocks_postcondition_witness :
    runFetch bfInit [] = (bfInit, [], true) ∧
    ∃ st', runFetch bfInit [([1], 0), ([1], 5)] =
        (st', List.range' bfInit.nextFid
          ([([1], (0 : Int)), ([1], 5)] : List (List Nat × Int)).length, true) ∧
      st'.heap.Perm (bfInit.heap ++ fetchItems bfInit.nextFid [([1], 0), ([1], 5)]) ∧
      IsHeap st'.heap ∧
      st'.nextFid = bfInit.nextFid +
        ([([1], (0 : Int)), ([1], 5)] : List (List Nat × Int)).length ∧
      (∀ fid, bfInit.nextFid ≤ fid →
        fid < bfInit.nextFid + ([([1], (0 : Int)), ([1], 5)] : List (List Nat × Int)).length →
        alookup st'.tried fid = some []) ∧
      (∀ bh, alookup st'.registry bh =
        match regAfter bfInit.nextFid [([1], 0), ([1], 5)] bh with
        | some f => some f
        | none => alookup bfInit.registry bh) :=
  C8_fetch_blocks_postcondition bfInit [([1], 0), ([1], 5)]
    (by
      intro i h1 h2
      have h2b : i < ([] : List BfItem).length := h2
      simp at h2b)
    (by
      intro x hx y hy hk
      have hx2 : x ∈ [(⟨0, [1], 0⟩ : BfItem), ⟨5, [1], 1⟩] := hx
      have hy2 : y ∈ [(⟨0, [1], 0⟩ : BfItem), ⟨5, [1], 1⟩] := hy
      have hk2 : bfKey x = bfKey y := hk
      fin_cases hx2 <;> fin_cases hy2 <;>
        first
          | rfl
          | (exfalso
             revert hk2
             decide))

theorem mem_aupdate {κ ν : Type} [DecidableEq κ] :
    ∀ (l : List (κ × ν)) (k : κ) (v : ν) (kv : κ × ν),
      kv ∈ aupdate l k v → kv ∈ l ∨ kv = (k, v) := by
  intro l
  induction l with
  | nil =>
    intro k v kv hkv
    simp [aupdate] at hkv
    exact Or.inr hkv
  | cons p t ih =>
    intro k v kv hkv
    obtain ⟨k0, v0⟩ := p
    by_cases hk : k0 = k
    · simp only [aupdate, hk, if_true] at hkv
      rcases List.mem_cons.mp hkv with h | h
      · exact Or.inr h
      · exact Or.inl (List.mem_cons_of_mem _ h)
    · simp only [aupdate, hk, if_false] at hkv
      rcases List.mem_cons.mp hkv with h | h
      · exact Or.inl (by rw [h]; exact List.mem_cons_self _ _)
      · rcases ih k v kv h with h2 | h2
        · exact Or.inl (List.mem_cons_of_mem _ h2)
        · exact Or.inr h2

/-- `handle_msg` touches only resolved-future state. -/
theorem runHandleMsg_fields (st : BfState) (name : String) (blk : Block) :
    (runHandleMsg st name blk).heap = st.heap ∧
    (runHandleMsg st name blk).tried = st.tried ∧
    (runHandleMsg st name blk).inflight = st.inflight ∧
    (runHandleMsg st name blk).nextFid = st.nextFid := by
  by_cases h : name = "block"
  · simp only [runHandleMsg, h, if_true]
    cases alookup st.registry blk.bhash with
    | none => exact ⟨rfl, rfl, rfl, rfl⟩
    | some fid =>
      dsimp only
      by_cases h2 : (alookup st.results fid).isSome = true
      · rw [if_pos h2]
        exact ⟨rfl, rfl, rfl, rfl⟩
      · rw [if_neg h2]
        exact ⟨rfl, rfl, rfl, rfl⟩
  · simp [runHandleMsg, h]

/-- The timeout requeue touches only the queue. -/
theorem requeueBatch_fields : ∀ (batch : List BfItem) (st : BfState),
    (requeueBatch st batch).1.tried = st.tried ∧
    (requeueBatch st batch).1.results = st.results ∧
    (requeueBatch st batch).1.inflight = st.inflight ∧
    (requeueBatch st batch).1.nextFid = st.nextFid ∧
    (∀ x ∈ (requeueBatch st batch).1.heap, x ∈ st.heap ∨ x ∈ batch) := by
  intro batch
  induction batch with
  | nil =>
    intro st
    exact ⟨rfl, rfl, rfl, rfl, fun x hx => Or.inl hx⟩
  | cons f rest ih =>
    intro st
    simp only [requeueBatch]
    by_cases h : (alookup st.results f.fid).isSome = true
    · rw [if_pos h]
      obtain ⟨a1, a2, a3, a4, a5⟩ := ih st
      exact ⟨a1, a2, a3, a4, fun x hx => (a5 x hx).elim Or.inl
        (fun hm => Or.inr (List.mem_cons_of_mem _ hm))⟩
    · rw [if_neg h]
      cases hps : heappush cmpE st.heap f with
      | mk hp hst =>
        cases hst with
        | ok u =>
          obtain ⟨a1, a2, a3, a4, a5⟩ := ih ({st with heap := hp} : BfState)
          refine ⟨a1, a2, a3, a4, ?_⟩
          intro x hx
          rcases a5 x hx with hm | hm
          · have hm2 : x ∈ hp := hm
            rcases heappush_subset cmpE st.heap f x (by rw [hps]; exact hm2) with h1 | h1
            · exact Or.inl h1
            · exact Or.inr (by rw [h1]; exact List.mem_cons_self _ _)
          · exact Or.inr (List.mem_cons_of_mem _ hm)
        | error e =>
          refine ⟨rfl, rfl, rfl, rfl, ?_⟩
          intro x hx
          have hx2 : x ∈ hp := hx
          rcases heappush_subset cmpE st.heap f x (by rw [hps]; exact hx2) with h1 | h1
          · exact Or.inl h1
          · exact Or.inr (by rw [h1]; exact List.mem_cons_self _ _)

theorem runTimeout_facts (st : BfState) (bidx : Nat) :
    (runTimeout st bidx).1.tried = st.tried ∧
    (runTimeout st bidx).1.results = st.results ∧
    (runTimeout st bidx).1.nextFid = st.nextFid ∧
    (∀ pb ∈ (runTimeout st bidx).1.inflight, pb ∈ st.inflight) ∧
    (∀ x ∈ (runTimeout st bidx).1.heap,
      x ∈ st.heap ∨ ∃ pb ∈ st.inflight, x ∈ pb.2) := by
  unfold runTimeout
  cases hg : st.inflight[bidx]? with
  | none => exact ⟨rfl, rfl, rfl, fun pb hpb => hpb, fun x hx => Or.inl hx⟩
  | some pb =>
    have hpbm : pb ∈ st.inflight := List.getElem?_mem hg
    obtain ⟨a1, a2, a3, a4, a5⟩ :=
      requeueBatch_fields pb.2 ({st with inflight := st.inflight.eraseIdx bidx} : BfState)
    refine ⟨a1, a2, a4, ?_, ?_⟩
    · intro pb2 hpb2
      have hpb3 : pb2 ∈ st.inflight.eraseIdx bidx := by
        have := a3
        rw [this] at hpb2
        exact hpb2
      exact (List.eraseIdx_sublist st.inflight bidx).mem hpb3
    · intro x hx
      rcases a5 x hx with h1 | h1
      · exact Or.inl h1
      · exact Or.inr ⟨pb, hpbm, h1⟩

theorem runTrace_append : ∀ (ops more : List BfOp) (st : BfState),
    runTrace st (ops ++ more) =
      ((runTrace (runTrace st ops).1 more).1,
        (runTrace st ops).2 ++ (runTrace (runTrace st ops).1 more).2) := by
  intro ops
  induction ops with
  | nil =>
    intro more st
    simp [runTrace]
  | cons op rest ih =>
    intro more st
    have h1 : runTrace st ((op :: rest) ++ more) =
        ((runTrace (bfStep st op).1 (rest ++ more)).1,
          (bfStep st op).2 ++ (runTrace (bfStep st op).1 (rest ++ more)).2) := rfl
    have h2 : runTrace st (op :: rest) =
        ((runTrace (bfStep st op).1 rest).1,
          (bfStep st op).2 ++ (runTrace (bfStep st op).1 rest).2) := rfl
    rw [h1, h2, ih more (bfStep st op).1]
    simp [List.append_assoc]

/-- The claim loop keeps each `peers_tried` set duplicate-free. -/
theorem getBatchGo_tried_nodup (results : List (Nat × Block)) (peer size : Nat) :
    ∀ (fuel : Nat) (heap : List BfItem) (tried : List (Nat × List Nat))
      (skipped : List BfItem) (inv : List (List Nat)) (claimed : List BfItem),
      (∀ fid, ((alookup tried fid).getD ([] : List Nat)).Nodup) →
      ∀ fid, ((alookup (getBatchGo results peer size fuel heap tried skipped inv
        claimed).tried fid).getD ([] : List Nat)).Nodup := by
  intro fuel
  induction fuel with
  | zero =>
    intro heap tried skipped inv claimed hnd
    simpa [getBatchGo] using hnd
  | succ f ih =>
    intro heap tried skipped inv claimed hnd
    simp only [getBatchGo]
    by_cases h1 : claimed.length ≥ size
    · simpa [h1] using hnd
    · simp only [h1, if_false]
      by_cases h2 : (heap.isEmpty && decide (0 < claimed.length)) = true
      · simpa [h2] using hnd
      · simp only [h2, if_false]
        by_cases h3 : heap.isEmpty = true
        · simpa [h3] using hnd
        · simp only [h3, if_false]
          cases hpop : heappop cmpE heap with
          | mk hp st =>
            cases st with
            | error e => simpa using hnd
            | ok oitem =>
              cases oitem with
              | none => simpa using hnd
              | some item =>
                by_cases h4 : (alookup results item.fid).isSome = true
                · simp only [h4, if_true]
                  exact ih hp tried skipped inv claimed hnd
                · simp only [h4, if_false]
                  by_cases h5 : peer ∈ (alookup tried item.fid).getD ([] : List Nat)
                  · simp only [h5, if_true]
                    exact ih hp tried (skipped ++ [item]) inv claimed hnd
                  · simp only [h5, if_false]
                    apply ih
                    intro fid
                    by_cases hfe : item.fid = fid
                    · subst hfe
                      rw [alookup_aupdate_self]
                      simp only [Option.getD_some]
                      rw [List.nodup_append]
                      refine ⟨hnd item.fid, List.nodup_singleton peer, ?_⟩
                      intro q hq hq2
                      rw [List.mem_singleton.mp hq2] at hq
                      exact h5 hq
                    · rw [alookup_aupdate_ne _ _ _ _ hfe]
                      exact hnd fid

/-- Freshness and `peers_tried` facts across a `fetch_blocks` call,
whether or not a push raises: future ids only grow, `peers_tried` keys
and queued future ids stay below the id counter, in-flight batches are
untouched, `peers_tried` sets only grow, and every `peers_tried` entry
is either preserved or freshly created empty. -/
theorem runFetch_inv : ∀ (pairs : List (List Nat × Int)) (st : BfState),
    (∀ kv ∈ st.tried, kv.1 < st.nextFid) →
    (∀ x ∈ st.heap, x.fid < st.nextFid) →
    st.nextFid ≤ (runFetch st pairs).1.nextFid ∧
    (∀ kv ∈ (runFetch st pairs).1.tried, kv.1 < (runFetch st pairs).1.nextFid) ∧
    (∀ x ∈ (runFetch st pairs).1.heap, x.fid < (runFetch st pairs).1.nextFid) ∧
    (runFetch st pairs).1.inflight = st.inflight ∧
    (∀ fid q, q ∈ (alookup st.tried fid).getD ([] : List Nat) →
      q ∈ (alookup (runFetch st pairs).1.tried fid).getD ([] : List Nat)) ∧
    (∀ fid, alookup (runFetch st pairs).1.tried fid = alookup st.tried fid ∨
      alookup (runFetch st pairs).1.tried fid = some []) := by
  intro pairs
  induction pairs with
  | nil =>
    intro st hkeys hheap
    exact ⟨Nat.le_refl _, hkeys, hheap, rfl, fun fid q hq => hq, fun fid => Or.inl rfl⟩
  | cons p rest ih =>
    obtain ⟨bh, pri⟩ := p
    intro st hkeys hheap
    have hkeys2 : ∀ kv ∈ aupdate st.tried st.nextFid ([] : List Nat),
        kv.1 < st.nextFid + 1 := by
      intro kv hkv
      rcases mem_aupdate st.tried st.nextFid [] kv hkv with h | h
      · have := hkeys kv h
        omega
      · rw [h]
        omega
    have hmono2 : ∀ fid q, q ∈ (alookup st.tried fid).getD ([] : List Nat) →
        q ∈ (alookup (aupdate st.tried st.nextFid []) fid).getD ([] : List Nat) := by
      intro fid q hq
      by_cases hfe : fid = st.nextFid
      · subst hfe
        rw [alookup_none_of_keys_lt st.tried st.nextFid hkeys] at hq
        simp at hq
      · rw [alookup_aupdate_ne _ _ _ _ (fun he => hfe he.symm)]
        exact hq
    have hpres2 : ∀ fid, alookup (aupdate st.tried st.nextFid ([] : List Nat)) fid =
        alookup st.tried fid ∨
        alookup (aupdate st.tried st.nextFid ([] : List Nat)) fid = some [] := by
      intro fid
      by_cases hfe : st.nextFid = fid
      · subst hfe
        exact Or.inr (alookup_aupdate_self st.tried st.nextFid [])
      · exact Or.inl (alookup_aupdate_ne _ _ _ _ hfe)
    cases hps : heappush cmpE st.heap (⟨pri, bh, st.nextFid⟩ : BfItem) with
    | mk hp pst =>
      have hpfids : ∀ x ∈ hp, x.fid < st.nextFid + 1 := by
        intro x hx
        rcases heappush_subset cmpE st.heap (⟨pri, bh, st.nextFid⟩ : BfItem) x
            (by rw [hps]; exact hx) with h | h
        · have := hheap x h
          omega
        · rw [h]
          exact Nat.lt_succ_self st.nextFid
      cases pst with
      | error e =>
        have hcomp : runFetch st ((bh, pri) :: rest) =
            (⟨hp, aupdate st.tried st.nextFid [], st.results, st.registry,
              st.inflight, st.nextFid + 1⟩, [], false) := by
          unfold runFetch
          simp only [hps]
        rw [hcomp]
        exact ⟨Nat.le_succ _, hkeys2, hpfids, rfl, hmono2, hpres2⟩
      | ok u =>
        obtain ⟨ih1, ih2, ih3, ih4, ih5, ih6⟩ :=
          ih (⟨hp, aupdate st.tried st.nextFid [], st.results,
            aupdate st.registry bh st.nextFid, st.inflight, st.nextFid + 1⟩ : BfState)
            hkeys2 hpfids
        cases hrr : runFetch (⟨hp, aupdate st.tried st.nextFid [], st.results,
            aupdate st.registry bh st.nextFid, st.inflight, st.nextFid + 1⟩ : BfState)
            rest with
        | mk st3 rb =>
          rw [hrr] at ih1 ih2 ih3 ih4 ih5 ih6
          have hcomp : (runFetch st ((bh, pri) :: rest)).1 = st3 := by
            unfold runFetch
            simp only [hps, hrr]
            cases rb with
            | mk fids flag =>
              cases flag with
              | true => rfl
              | false => rfl
          rw [hcomp]
          have ih1b : st.nextFid + 1 ≤ st3.nextFid := ih1
          refine ⟨by omega, ih2, ih3, ih4, ?_, ?_⟩
          · intro fid q hq
            exact ih5 fid q (hmono2 fid q hq)
          · intro fid
            rcases ih6 fid with h | h
            · rcases hpres2 fid with h2 | h2
              · exact Or.inl (by rw [h]; exact h2)
              · exact Or.inr (by rw [h]; exact h2)
            · exact Or.inr h

theorem count_le_one_of_nodup {α : Type} [BEq α] [LawfulBEq α] :
    ∀ (l : List α), l.Nodup → ∀ a, l.count a ≤ 1 := by
  intro l
  induction l with
  | nil =>
    intro _ a
    simp
  | cons x t ih =>
    intro hnd a
    rw [List.count_cons]
    have hnd2 : t.Nodup := (List.nodup_cons.mp hnd).2
    by_cases hax : a = x
    · subst hax
      have hxa : a ∉ t := (List.nodup_cons.mp hnd).1
      have h0 : t.count a = 0 := List.count_eq_zero.mpr hxa
      simp [h0]
    · have hb : (x == a) = false := beq_eq_false_iff_ne.mpr (fun he => hax he.symm)
      have h1 := ih hnd2 a
      simp [hb]
      exact h1

/-- One fetcher event preserves the dispatch invariants: the claim log
counts every `(future, peer)` pair at most once, logged claims are
backed by `peers_tried`, `peers_tried` keys and queued/in-flight future
ids stay below the id counter, each `peers_tried` set is duplicate-free,
and `peers_tried` sets only grow. -/
theorem bfStep_inv (st : BfState) (log : List (Nat × Nat)) (op : BfOp)
    (hI1 : ∀ fid p, log.count (fid, p) ≤ 1)
    (hI2 : ∀ fid p, (fid, p) ∈ log → p ∈ triedOf st fid)
    (hI3 : ∀ kv ∈ st.tried, kv.1 < st.nextFid)
    (hI4 : ∀ x ∈ st.heap, x.fid < st.nextFid)
    (hI5 : ∀ pb ∈ st.inflight, ∀ x ∈ pb.2, x.fid < st.nextFid)
    (hI6 : ∀ fid, (triedOf st fid).Nodup) :
    (∀ fid p, (log ++ (bfStep st op).2).count (fid, p) ≤ 1) ∧
    (∀ fid p, (fid, p) ∈ log ++ (bfStep st op).2 → p ∈ triedOf (bfStep st op).1 fid) ∧
    (∀ kv ∈ (bfStep st op).1.tried, kv.1 < (bfStep st op).1.nextFid) ∧
    (∀ x ∈ (bfStep st op).1.heap, x.fid < (bfStep st op).1.nextFid) ∧
    (∀ pb ∈ (bfStep st op).1.inflight, ∀ x ∈ pb.2, x.fid < (bfStep st op).1.nextFid) ∧
    (∀ fid, (triedOf (bfStep st op).1 fid).Nodup) ∧
    (∀ fid q, q ∈ triedOf st fid → q ∈ triedOf (bfStep st op).1 fid) := by
  cases op with
  | fetch pairs =>
    obtain ⟨f1, f2, f3, f4, f5, f6⟩ := runFetch_inv pairs st hI3 hI4
    refine ⟨?_, ?_, f2, f3, ?_, ?_, f5⟩
    · show ∀ fid p, (log ++ ([] : List (Nat × Nat))).count (fid, p) ≤ 1
      intro fid p
      rw [List.append_nil]
      exact hI1 fid p
    · show ∀ fid p, (fid, p) ∈ log ++ ([] : List (Nat × Nat)) →
        p ∈ triedOf (runFetch st pairs).1 fid
      intro fid p hm
      rw [List.append_nil] at hm
      exact f5 fid p (hI2 fid p hm)
    · show ∀ pb ∈ (runFetch st pairs).1.inflight, ∀ x ∈ pb.2,
        x.fid < (runFetch st pairs).1.nextFid
      intro pb hpb x hx
      rw [f4] at hpb
      have h1 := hI5 pb hpb x hx
      omega
    · show ∀ fid, (triedOf (runFetch st pairs).1 fid).Nodup
      intro fid
      rcases f6 fid with h | h
      · have he : triedOf (runFetch st pairs).1 fid = triedOf st fid := by
          unfold triedOf
          rw [h]
        rw [he]
        exact hI6 fid
      · have he : triedOf (runFetch st pairs).1 fid = [] := by
          unfold triedOf
          rw [h]
          rfl
        rw [he]
        exact List.nodup_nil
  | getBatch peer size sendOk =>
    obtain ⟨hp, tr, skipped, invI, claimedI, status, hgo, hstried, hsres, hsreg, hsnf,
      hsheap, hsinfl, hsclaim⟩ := runGetBatch_state_inv st peer size sendOk
    obtain ⟨mA, mB, mC, mD, mE, -, -, -⟩ :=
      getBatchGo_main st.results peer size (st.heap.length + 1) st.heap st.tried [] [] []
    simp only [hgo] at mA mB mC mD mE
    have mN := getBatchGo_claimed_nodup st.results peer size (st.heap.length + 1)
      st.heap st.tried [] [] [] (by intro a ha; simp at ha) List.Pairwise.nil
    simp only [hgo] at mN
    have mT := getBatchGo_tried_nodup st.results peer size (st.heap.length + 1)
      st.heap st.tried [] [] [] hI6
    simp only [hgo] at mT
    have charB : ∀ x ∈ claimedI, x ∈ st.heap ∧ peer ∉ triedOf st x.fid ∧
        peer ∈ (alookup tr x.fid).getD ([] : List Nat) := by
      intro x hx
      rcases mB x hx with h | h
      · simp at h
      · exact ⟨h.1, h.2.2.1, h.2.2.2⟩
    cases hrun : runGetBatch st peer size sendOk with
    | mk st1 out =>
      have hfst0 : (runGetBatch st peer size sendOk).1 = st1 := by rw [hrun]
      rw [hfst0] at hstried hsres hsreg hsnf hsheap hsinfl
      have hfst2 : (bfStep st (.getBatch peer size sendOk)).1 = st1 := by
        unfold bfStep
        dsimp only
        rw [hrun]
        cases out <;> rfl
      have hsnd2 : (bfStep st (.getBatch peer size sendOk)).2 = ([] : List (Nat × Nat)) ∨
          (bfStep st (.getBatch peer size sendOk)).2 =
            claimedI.map (fun it => (it.fid, peer)) := by
        unfold bfStep
        dsimp only
        rw [hrun]
        cases out with
        | batch c i =>
          right
          have hceq : c = claimedI := hsclaim c i (by rw [hrun])
          show c.map (fun it => (it.fid, peer)) = claimedI.map (fun it => (it.fid, peer))
          rw [hceq]
        | blocked => exact Or.inl rfl
        | raised => exact Or.inl rfl
      have htof : ∀ f2, triedOf st1 f2 = (alookup tr f2).getD ([] : List Nat) := by
        intro f2
        unfold triedOf
        rw [hstried]
      have hLnodup : (claimedI.map (fun it => (it.fid, peer))).Nodup := by
        show (claimedI.map (fun it => (it.fid, peer))).Pairwise (fun a b => a ≠ b)
        rw [List.pairwise_map]
        refine mN.imp ?_
        intro a b hab he
        injection he with he1 he2
        exact hab he1
      refine ⟨?_, ?_, ?_, ?_, ?_, ?_, ?_⟩
      · intro fid p
        rcases hsnd2 with hE | hM
        · rw [hE, List.append_nil]
          exact hI1 fid p
        · rw [hM, List.count_append]
          by_cases hmem : (fid, p) ∈ claimedI.map (fun it => (it.fid, peer))
          · obtain ⟨x, hxc, hxe⟩ := List.mem_map.mp hmem
            injection hxe with hxe1 hxe2
            have hlog0 : log.count (fid, p) = 0 := by
              rw [List.count_eq_zero]
              intro hin
              have h1 := hI2 fid p hin
              rw [← hxe1, ← hxe2] at h1
              exact (charB x hxc).2.1 h1
            have hmap1 : (claimedI.map (fun it => (it.fid, peer))).count (fid, p) ≤ 1 :=
              count_le_one_of_nodup _ hLnodup (fid, p)
            omega
          · have h0 : (claimedI.map (fun it => (it.fid, peer))).count (fid, p) = 0 :=
              List.count_eq_zero.mpr hmem
            have h1 := hI1 fid p
            omega
      · intro fid p hm
        rw [hfst2]
        rcases hsnd2 with hE | hM
        · rw [hE, List.append_nil] at hm
          rw [htof fid]
          exact mA fid p (hI2 fid p hm)
        · rw [hM] at hm
          rcases List.mem_append.mp hm with h | h
          · rw [htof fid]
            exact mA fid p (hI2 fid p h)
          · obtain ⟨x, hxc, hxe⟩ := List.mem_map.mp h
            injection hxe with hxe1 hxe2
            rw [htof fid, ← hxe1, ← hxe2]
            exact (charB x hxc).2.2
      · intro kv hkv
        rw [hfst2] at hkv ⊢
        rw [hstried] at hkv
        rw [hsnf]
        have hs := alookup_isSome_of_mem tr kv hkv
        rcases mE kv.1 hs with h | h
        · obtain ⟨v, hv⟩ := mem_of_alookup_isSome st.tried kv.1 h
          exact hI3 (kv.1, v) hv
        · obtain ⟨x, hxh, hfe⟩ := List.mem_map.mp h
          have h1 := hI4 x hxh
          omega
      · intro x hx
        rw [hfst2] at hx ⊢
        rw [hsnf]
        rcases hsheap x hx with h | h | h
        · exact hI4 x (mC x h)
        · rcases mD x h with h2 | h2
          · simp at h2
          · exact hI4 x h2
        · exact hI4 x (charB x h).1
      · intro pb hpb x hx
        rw [hfst2] at hpb ⊢
        rw [hsnf]
        rcases hsinfl pb hpb with h | h
        · exact hI5 pb h x hx
        · rw [h] at hx
          exact hI4 x (charB x hx).1
      · intro fid
        rw [hfst2, htof fid]
        exact mT fid
      · intro fid q hq
        rw [hfst2, htof fid]
        exact mA fid q hq
  | deliver name blk =>
    obtain ⟨d1, d2, d3, d4⟩ := runHandleMsg_fields st name blk
    have htof : ∀ f2, triedOf (runHandleMsg st name blk) f2 = triedOf st f2 := by
      intro f2
      unfold triedOf
      rw [d2]
    refine ⟨?_, ?_, ?_, ?_, ?_, ?_, ?_⟩
    · show ∀ fid p, (log ++ ([] : List (Nat × Nat))).count (fid, p) ≤ 1
      intro fid p
      rw [List.append_nil]
      exact hI1 fid p
    · show ∀ fid p, (fid, p) ∈ log ++ ([] : List (Nat × Nat)) →
        p ∈ triedOf (runHandleMsg st name blk) fid
      intro fid p hm
      rw [List.append_nil] at hm
      rw [htof fid]
      exact hI2 fid p hm
    · show ∀ kv ∈ (runHandleMsg st name blk).tried,
        kv.1 < (runHandleMsg st name blk).nextFid
      rw [d2, d4]
      exact hI3
    · show ∀ x ∈ (runHandleMsg st name blk).heap,
        x.fid < (runHandleMsg st name blk).nextFid
      rw [d1, d4]
      exact hI4
    · show ∀ pb ∈ (runHandleMsg st name blk).inflight, ∀ x ∈ pb.2,
        x.fid < (runHandleMsg st name blk).nextFid
      rw [d3, d4]
      exact hI5
    · show ∀ fid, (triedOf (runHandleMsg st name blk) fid).Nodup
      intro fid
      rw [htof fid]
      exact hI6 fid
    · show ∀ fid q, q ∈ triedOf st fid → q ∈ triedOf (runHandleMsg st name blk) fid
      intro fid q hq
      rw [htof fid]
      exact hq
  | timeout bidx =>
    obtain ⟨t1, t2, t3, t4, t5⟩ := runTimeout_facts st bidx
    have htof : ∀ f2, triedOf (runTimeout st bidx).1 f2 = triedOf st f2 := by
      intro f2
      unfold triedOf
      rw [t1]
    refine ⟨?_, ?_, ?_, ?_, ?_, ?_, ?_⟩
    · show ∀ fid p, (log ++ ([] : List (Nat × Nat))).count (fid, p) ≤ 1
      intro fid p
      rw [List.append_nil]
      exact hI1 fid p
    · show ∀ fid p, (fid, p) ∈ log ++ ([] : List (Nat × Nat)) →
        p ∈ triedOf (runTimeout st bidx).1 fid
      intro fid p hm
      rw [List.append_nil] at hm
      rw [htof fid]
      exact hI2 fid p hm
    · show ∀ kv ∈ (runTimeout st bidx).1.tried, kv.1 < (runTimeout st bidx).1.nextFid
      rw [t1, t3]
      exact hI3
    · show ∀ x ∈ (runTimeout st bidx).1.heap, x.fid < (runTimeout st bidx).1.nextFid
      intro x hx
      rw [t3]
      rcases t5 x hx with h | h
      · exact hI4 x h
      · obtain ⟨pb, hpb, hxpb⟩ := h
        exact hI5 pb hpb x hxpb
    · show ∀ pb ∈ (runTimeout st bidx).1.inflight, ∀ x ∈ pb.2,
        x.fid < (runTimeout st bidx).1.nextFid
      intro pb hpb x hx
      rw [t3]
      exact hI5 pb (t4 pb hpb) x hx
    · show ∀ fid, (triedOf (runTimeout st bidx).1 fid).Nodup
      intro fid
      rw [htof fid]
      exact hI6 fid
    · show ∀ fid q, q ∈ triedOf st fid → q ∈ triedOf (runTimeout st bidx).1 fid
      intro fid q hq
      rw [htof fid]
      exact hq

/-- The dispatch invariants hold along every trace. -/
theorem runTrace_inv : ∀ (ops : List BfOp) (st : BfState) (log : List (Nat × Nat)),
    (∀ fid p, log.count (fid, p) ≤ 1) →
    (∀ fid p, (fid, p) ∈ log → p ∈ triedOf st fid) →
    (∀ kv ∈ st.tried, kv.1 < st.nextFid) →
    (∀ x ∈ st.heap, x.fid < st.nextFid) →
    (∀ pb ∈ st.inflight, ∀ x ∈ pb.2, x.fid < st.nextFid) →
    (∀ fid, (triedOf st fid).Nodup) →
    (∀ fid p, (log ++ (runTrace st ops).2).count (fid, p) ≤ 1) ∧
    (∀ fid p, (fid, p) ∈ log ++ (runTrace st ops).2 →
      p ∈ triedOf (runTrace st ops).1 fid) ∧
    (∀ kv ∈ (runTrace st ops).1.tried, kv.1 < (runTrace st ops).1.nextFid) ∧
    (∀ x ∈ (runTrace st ops).1.heap, x.fid < (runTrace st ops).1.nextFid) ∧
    (∀ pb ∈ (runTrace st ops).1.inflight, ∀ x ∈ pb.2,
      x.fid < (runTrace st ops).1.nextFid) ∧
    (∀ fid, (triedOf (runTrace st ops).1 fid).Nodup) ∧
    (∀ fid q, q ∈ triedOf st fid → q ∈ triedOf (runTrace st ops).1 fid) := by
  intro ops
  induction ops with
  | nil =>
    intro st log h1 h2 h3 h4 h5 h6
    refine ⟨?_, ?_, h3, h4, h5, h6, fun fid q hq => hq⟩
    · show ∀ fid p, (log ++ ([] : List (Nat × Nat))).count (fid, p) ≤ 1
      intro fid p
      rw [List.append_nil]
      exact h1 fid p
    · show ∀ fid p, (fid, p) ∈ log ++ ([] : List (Nat × Nat)) → p ∈ triedOf st fid
      intro fid p hm
      rw [List.append_nil] at hm
      exact h2 fid p hm
  | cons op rest ih =>
    intro st log h1 h2 h3 h4 h5 h6
    obtain ⟨s1, s2, s3, s4, s5, s6, s7⟩ := bfStep_inv st log op h1 h2 h3 h4 h5 h6
    obtain ⟨r1, r2, r3, r4, r5, r6, r7⟩ :=
      ih (bfStep st op).1 (log ++ (bfStep st op).2) s1 s2 s3 s4 s5 s6
    have hT : runTrace st (op :: rest) =
        ((runTrace (bfStep st op).1 rest).1,
          (bfStep st op).2 ++ (runTrace (bfStep st op).1 rest).2) := rfl
    rw [hT]
    refine ⟨?_, ?_, r3, r4, r5, r6, ?_⟩
    · intro fid p
      have hthis := r1 fid p
      rw [List.append_assoc] at hthis
      exact hthis
    · intro fid p hm
      apply r2 fid p
      rw [List.append_assoc]
      exact hm
    · intro fid q hq
      exact r7 fid q (s7 fid q hq)

/-- C4: CONFIRMED. Over every event trace of a fresh `Blockfetcher`
(fetches, `_get_batch` claims, block deliveries, batch timeouts), a peer
enters a request's `peers_tried` set at most once (the sets stay
duplicate-free), the request is claimed into a batch for that peer at
most once (the claim log counts each `(future, peer)` pair at most
once), and `peers_tried` only ever grows — in particular a batch timeout
requeues requests without removing the peer from `peers_tried`. -/
theorem C4_no_duplicate_dispatch (ops more : List BfOp) (fid p : Nat) :
    (runTrace bfInit ops).2.count (fid, p) ≤ 1 ∧
    (triedOf (runTrace bfInit ops).1 fid).count p ≤ 1 ∧
    (p ∈ triedOf (runTrace bfInit ops).1 fid →
      p ∈ triedOf (runTrace bfInit (ops ++ more)).1 fid) := by
  have base1 : ∀ f2 p2, (([] : List (Nat × Nat)).count (f2, p2)) ≤ 1 := by
    intro f2 p2
    simp
  have base2 : ∀ f2 p2, (f2, p2) ∈ ([] : List (Nat × Nat)) → p2 ∈ triedOf bfInit f2 := by
    intro f2 p2 h
    simp at h
  have base3 : ∀ kv ∈ bfInit.tried, kv.1 < bfInit.nextFid := by
    intro kv hkv
    simp [bfInit] at hkv
  have base4 : ∀ x ∈ bfInit.heap, x.fid < bfInit.nextFid := by
    intro x hx
    simp [bfInit] at hx
  have base5 : ∀ pb ∈ bfInit.inflight, ∀ x ∈ pb.2, x.fid < bfInit.nextFid := by
    intro pb hpb
    simp [bfInit] at hpb
  have base6 : ∀ f2, (triedOf bfInit f2).Nodup := fun f2 => List.nodup_nil
  obtain ⟨r1, r2, r3, r4, r5, r6, r7⟩ :=
    runTrace_inv ops bfInit [] base1 base2 base3 base4 base5 base6
  refine ⟨?_, ?_, ?_⟩
  · have hthis := r1 fid p
    rw [List.nil_append] at hthis
    exact hthis
  · exact count_le_one_of_nodup _ (r6 fid) p
  · intro hq
    obtain ⟨-, -, -, -, -, -, m7⟩ :=
      runTrace_inv more (runTrace bfInit ops).1 ([] ++ (runTrace bfInit ops).2)
        r1 r2 r3 r4 r5 r6
    rw [runTrace_append ops more bfInit]
    exact m7 fid p hq

theorem C4_no_duplicate_dispatch_witness :
    (runTrace bfInit [BfOp.fetch [([1], 0)], BfOp.getBatch 3 1 true]).2.count (0, 3) ≤ 1 ∧
    (triedOf (runTrace bfInit [BfOp.fetch [([1], 0)], BfOp.getBatch 3 1 true]).1 0).count 3 ≤ 1 ∧
    3 ∈ triedOf (runTrace bfInit
      ([BfOp.fetch [([1], 0)], BfOp.getBatch 3 1 true] ++ [BfOp.timeout 0])).1 0 :=
  ⟨(C4_no_duplicate_dispatch [BfOp.fetch [([1], 0)], BfOp.getBatch 3 1 true] [] 0 3).1,
   (C4_no_duplicate_dispatch [BfOp.fetch [([1], 0)], BfOp.getBatch 3 1 true] [] 0 3).2.1,
   (C4_no_duplicate_dispatch [BfOp.fetch [([1], 0)], BfOp.getBatch 3 1 true]
     [BfOp.timeout 0] 0 3).2.2 (by decide)⟩

/-! ## Batch-size arithmetic lemmas -/

theorem qlt_eq (a b : ℚ) : (qlt a b = true) = (a < b) := rfl

theorem qlt_false_of_le {a b : ℚ} (h : b ≤ a) : qlt a b = false := by
  cases hq : qlt a b with
  | false => rfl
  | true => exact absurd ((qlt_eq a b) ▸ hq) (not_lt.mpr h)

theorem mkRat_nonneg {n : ℤ} (h : 0 ≤ n) (d : ℕ) : 0 ≤ mkRat n d := by
  rw [Rat.mkRat_eq_div]
  apply div_nonneg
  · exact_mod_cast h
  · exact Nat.cast_nonneg d

theorem qmul_nonneg {a b : ℚ} (ha : 0 ≤ a) (hb : 0 ≤ b) : 0 ≤ qmul a b :=
  mkRat_nonneg (mul_nonneg (Rat.num_nonneg.mpr ha) (Rat.num_nonneg.mpr hb)) _

theorem qdiv_nonneg {a b : ℚ} (ha : 0 ≤ a) (hb : 0 ≤ b) : 0 ≤ qdiv a b := by
  unfold qdiv
  rw [if_pos (Rat.num_nonneg.mpr hb)]
  exact mkRat_nonneg (mul_nonneg (Rat.num_nonneg.mpr ha) (Int.natCast_nonneg _)) _

theorem qabs_nonneg (q : ℚ) : 0 ≤ qabs q :=
  mkRat_nonneg (Int.natCast_nonneg _) _

theorem scale64_nonneg (q : ℚ) : 0 ≤ scale64 q := by
  unfold scale64
  split_ifs
  · exact mkRat_nonneg (Int.natCast_nonneg _) _
  · exact mkRat_nonneg (by norm_num) _

theorem roundHalfEven_nonneg {x : ℚ} (h : 0 ≤ x) : 0 ≤ roundHalfEven x := by
  have hf : (0 : ℤ) ≤ Rat.floor x := by
    have he : Rat.floor x = ⌊x⌋ := rfl
    rw [he]
    exact Int.floor_nonneg.mpr h
  unfold roundHalfEven
  split_ifs <;> omega

theorem round64_nonneg {q : ℚ} (h : 0 ≤ q) : 0 ≤ round64 q := by
  unfold round64
  by_cases h0 : q = 0
  · rw [if_pos h0]
  · rw [if_neg h0]
    rw [qlt_false_of_le h]
    simp only [Bool.false_eq_true, if_false]
    exact qmul_nonneg
      (mkRat_nonneg (roundHalfEven_nonneg (qdiv_nonneg (qabs_nonneg q) (scale64_nonneg q))) 1)
      (scale64_nonneg q)

theorem pyInt_nonneg {q : ℚ} (h : 0 ≤ q) : 0 ≤ pyInt q := by
  unfold pyInt
  rw [qlt_false_of_le h]
  simp only [Bool.false_eq_true, if_false]
  show (0 : ℤ) ≤ ⌊q⌋
  exact Int.floor_nonneg.mpr h

/-- A successful batch-size update lands in `[1, 500]` whenever the
elapsed time is non-negative (the event-loop clock is monotonic). -/
theorem updateBatchSize_bounds (itemCount : ℕ) (batchTime : ℚ) (s : ℤ)
    (hb : 0 ≤ batchTime) (h : updateBatchSize itemCount batchTime = some s) :
    1 ≤ s ∧ s ≤ 500 := by
  unfold updateBatchSize at h
  by_cases hg : fdiv64 batchTime (mkRat (if itemCount = 0 then 1 else itemCount : ℕ) 1) = 0
  · rw [if_pos hg] at h
    cases h
  · rw [if_neg hg] at h
    injection h with h2
    have htpi : 0 ≤ fdiv64 batchTime
        (mkRat (if itemCount = 0 then 1 else itemCount : ℕ) 1) :=
      round64_nonneg (qdiv_nonneg hb (mkRat_nonneg (Int.natCast_nonneg _) _))
    have hq2 : 0 ≤ pyInt (fdiv64 3 (fdiv64 batchTime
        (mkRat (if itemCount = 0 then 1 else itemCount : ℕ) 1))) :=
      pyInt_nonneg (round64_nonneg (qdiv_nonneg (by norm_num) htpi))
    constructor
    · rw [← h2]
      exact le_min (by omega) (by norm_num)
    · rw [← h2]
      exact min_le_right _ _

theorem batchSizeRun_bounds : ∀ (events : List (ℕ × ℚ)) (s0 : ℤ), 1 ≤ s0 → s0 ≤ 500 →
    (∀ ev ∈ events, 0 ≤ ev.2) → ∀ s, batchSizeRun s0 events = some s →
    1 ≤ s ∧ s ≤ 500 := by
  intro events
  induction events with
  | nil =>
    intro s0 h1 h2 _ s hs
    simp only [batchSizeRun] at hs
    injection hs with hs2
    subst hs2
    exact ⟨h1, h2⟩
  | cons ev rest ih =>
    obtain ⟨ic, bt⟩ := ev
    intro s0 h1 h2 hev s hs
    simp only [batchSizeRun] at hs
    cases hup : updateBatchSize ic bt with
    | none =>
      rw [hup] at hs
      have hs2 : (none : Option ℤ) = some s := hs
      cases hs2
    | some s2 =>
      rw [hup] at hs
      have hs2 : batchSizeRun s2 rest = some s := hs
      obtain ⟨b1, b2⟩ :=
        updateBatchSize_bounds ic bt s2 (hev (ic, bt) (List.mem_cons_self _ _)) hup
      exact ih s2 b1 b2 (fun e he => hev e (List.mem_cons_of_mem _ he)) s hs2

set_option maxRecDepth 40000 in
/-- C7: CONFIRMED. `_fetcher_loop` starts at `initial_batch_size = 10`
and after each awaited batch sets the size to
`min(int(3 / (batch_time / max(item_count, 1))) + 1, 500)` in binary64
arithmetic, with the clock readings as explicit parameters: on the
spec's examples, 10 items completed in 1 s give `31` (the float
quotient `3 / 0.1` is exactly `30.0` after rounding) and 5 items in
15 s give `2`; and along every run with non-negative elapsed times the
batch size satisfies `1 ≤ batch_size ≤ 500` at all times. -/
theorem C7_batch_size_control :
    initialBatchSize = 10 ∧
    updateBatchSize 10 (fsub64 1 0) = some 31 ∧
    updateBatchSize 5 (fsub64 15 0) = some 2 ∧
    (∀ (itemCount : ℕ) (batchTime : ℚ) (s : ℤ),
      updateBatchSize itemCount batchTime = some s →
      s = min (pyInt (fdiv64 3 (fdiv64 batchTime (mkRat (max itemCount 1 : ℕ) 1))) + 1)
        500) ∧
    (∀ (itemCount : ℕ) (batchTime : ℚ) (s : ℤ), 0 ≤ batchTime →
      updateBatchSize itemCount batchTime = some s → 1 ≤ s ∧ s ≤ 500) ∧
    (∀ (events : List (ℕ × ℚ)) (s : ℤ), (∀ ev ∈ events, 0 ≤ ev.2) →
      batchSizeRun (initialBatchSize : ℤ) events = some s → 1 ≤ s ∧ s ≤ 500) := by
  refine ⟨rfl, by decide, by decide, ?_, ?_, ?_⟩
  · intro ic bt s h
    have hm : ((if ic = 0 then 1 else ic : ℕ)) = (max ic 1 : ℕ) := by
      by_cases hi : ic = 0
      · subst hi
        decide
      · rw [if_neg hi]
        omega
    rw [← hm]
    unfold updateBatchSize at h
    by_cases hg : fdiv64 bt (mkRat (if ic = 0 then 1 else ic : ℕ) 1) = 0
    · rw [if_pos hg] at h
      cases h
    · rw [if_neg hg] at h
      injection h with h2
      exact h2.symm
  · intro ic bt s hb h
    exact updateBatchSize_bounds ic bt s hb h
  · intro events s hev h
    exact batchSizeRun_bounds events (initialBatchSize : ℤ)
      (by norm_num [initialBatchSize]) (by norm_num [initialBatchSize]) hev s h

set_option maxRecDepth 40000 in
theorem C7_batch_size_control_witness :
    ((31 : ℤ) = min (pyInt (fdiv64 3 (fdiv64 1 (mkRat (max 10 1 : ℕ) 1))) + 1) 500) ∧
    (1 ≤ (31 : ℤ) ∧ (31 : ℤ) ≤ 500) ∧
    (1 ≤ (31 : ℤ) ∧ (31 : ℤ) ≤ 500) :=
  ⟨C7_batch_size_control.2.2.2.1 10 1 31 (by decide),
   C7_batch_size_control.2.2.2.2.1 10 1 31 (by decide) (by decide),
   C7_batch_size_control.2.2.2.2.2 [(10, 1)] 31 (by decide) (by decide)⟩

end Pycoinnet
